import Mathlib

/-!
Verification development for the digisafe secure persistent storage engine
(src/linux/src/storage/{secret,atlas,entry,database,persistence}.rs).

Rust byte vectors (Vec<u8>) are modeled as List Nat whose elements are byte
values; machine-integer casts are modeled with explicit moduli (% 2^32 for
a cast to u32, % 2^64 for u64, % 2^128 for u128).  Functions that can panic
in Rust (index/slice out of bounds, Option::unwrap, TryInto::try_into,
unsafe transmute on an out-of-range discriminant) are modeled as
Option-returning functions where none stands for the panic / undefined
behaviour.  External crates (sha3, argon2, lz4, chacha20poly1305, base64ct,
blake3, reed_solomon_erasure) are not code of this repository; they are
either abstract function parameters or, for the erasure code, a concrete
model written from the specification (see the doc comments there).
-/

abbrev Bytes := List Nat

/-- Little-endian byte encoding of n on k bytes (to_le_bytes of a k-byte
machine integer; higher bits of n are discarded, matching the wrap of the
corresponding integer cast). -/
def leBytes : Nat → Nat → Bytes
  | 0, _ => []
  | k + 1, n => n % 256 :: leBytes k (n / 256)

/-- Little-endian to Nat (from_le_bytes on a byte list). -/
def leToNat : Bytes → Nat
  | [] => 0
  | b :: rest => b % 256 + 256 * leToNat rest

theorem leBytes_length (k n : Nat) : (leBytes k n).length = k := by
  induction k generalizing n with
  | zero => rfl
  | succ k ih => simp [leBytes, ih]

theorem leToNat_leBytes (k n : Nat) : leToNat (leBytes k n) = n % 256 ^ k := by
  induction k generalizing n with
  | zero => simp [leBytes, leToNat, Nat.mod_one]
  | succ k ih =>
      simp only [leBytes, leToNat, ih, pow_succ]
      rw [Nat.mod_mod_of_dvd n (dvd_refl 256), Nat.mul_comm (256 ^ k) 256, Nat.mod_mul]

/-- Ceiling division, Nat.div_ceil in the Rust source (usize::div_ceil). -/
def divCeil (n k : Nat) : Nat := (n + k - 1) / k

/-- Decimal digit expansion in ASCII bytes (u128::to_string and friends). -/
def toDecDigits (n : Nat) : Bytes :=
  if h : n < 10 then [48 + n]
  else toDecDigits (n / 10) ++ [48 + n % 10]
termination_by n
decreasing_by exact Nat.div_lt_self (by omega) (by norm_num)

def parseDigitsGo (acc : Nat) : Bytes → Option Nat
  | [] => some acc
  | c :: rest =>
      if 48 ≤ c ∧ c ≤ 57 then parseDigitsGo (acc * 10 + (c - 48)) rest else none

/-- Decimal parse of an unsigned Rust integer type with exclusive bound,
str::parse::<uN>: optional leading plus sign, at least one digit, digits
only, and an error (modeled as the bound check) on overflow. -/
def parseU (bound : Nat) (s : Bytes) : Option Nat :=
  (match s with
   | [] => none
   | c :: rest =>
       if c = 43 then match rest with | [] => none | _ :: _ => parseDigitsGo 0 rest
       else parseDigitsGo 0 (c :: rest)).bind
    (fun v => if v < bound then some v else none)

theorem parseDigitsGo_append (acc : Nat) (xs ys : Bytes) :
    parseDigitsGo acc (xs ++ ys) =
      (parseDigitsGo acc xs).bind (fun a => parseDigitsGo a ys) := by
  induction xs generalizing acc with
  | nil => rfl
  | cons c rest ih =>
      by_cases h : 48 ≤ c ∧ c ≤ 57 <;> simp [parseDigitsGo, h, ih]

theorem parseDigitsGo_toDecDigits (acc n : Nat) :
    parseDigitsGo acc (toDecDigits n) =
      some (acc * 10 ^ (toDecDigits n).length + n) := by
  induction n using Nat.strong_induction_on generalizing acc with
  | _ n ih =>
      by_cases h : n < 10
      · rw [toDecDigits]
        simp only [h, dite_true]
        simp [parseDigitsGo]
        omega
      · rw [toDecDigits]
        simp only [h, dite_false]
        rw [parseDigitsGo_append]
        rw [ih (n / 10) (Nat.div_lt_self (by omega) (by norm_num)) acc]
        have hd : 48 ≤ 48 + n % 10 ∧ 48 + n % 10 ≤ 57 := by omega
        simp [parseDigitsGo, hd]
        rw [pow_succ]
        ring_nf
        omega

theorem toDecDigits_head_ne_plus (n : Nat) :
    ∃ c rest, toDecDigits n = c :: rest ∧ c ≠ 43 := by
  induction n using Nat.strong_induction_on with
  | _ n ih =>
      by_cases h : n < 10
      · refine ⟨48 + n, [], ?_, by omega⟩
        rw [toDecDigits]; simp [h]
      · obtain ⟨c, rest, hc, hne⟩ := ih (n / 10) (Nat.div_lt_self (by omega) (by norm_num))
        refine ⟨c, rest ++ [48 + n % 10], ?_, hne⟩
        rw [toDecDigits]; simp [h, hc]

/-- Round trip of decimal formatting and parsing for in-range values. -/
theorem parseU_toDecDigits (bound n : Nat) (h : n < bound) :
    parseU bound (toDecDigits n) = some n := by
  obtain ⟨c, rest, hc, hne⟩ := toDecDigits_head_ne_plus n
  unfold parseU
  rw [hc]
  simp only [hne, if_false]
  rw [← hc, parseDigitsGo_toDecDigits]
  simp [h]

theorem toDecDigits_ascii (n : Nat) : ∀ c ∈ toDecDigits n, c < 128 := by
  induction n using Nat.strong_induction_on with
  | _ n ih =>
      by_cases h : n < 10 <;> rw [toDecDigits]
      · simp [h]; omega
      · simp only [h, dite_false]
        intro c hcmem
        rcases List.mem_append.mp hcmem with hmem | hmem
        · exact ih (n / 10) (Nat.div_lt_self (by omega) (by norm_num)) c hmem
        · simp at hmem; omega

/-- Consume one UTF-8 continuation byte in the inclusive range lo..hi. -/
def utf8Cont (lo hi : Nat) : Bytes → Option Bytes
  | c :: r => if lo ≤ c ∧ c ≤ hi then some r else none
  | [] => none

/-- Consume the continuation bytes of one UTF-8 sequence with lead byte b,
following the standard RFC 3629 byte patterns (str::from_utf8). -/
def utf8Step (b : Nat) (rest : Bytes) : Option Bytes :=
  if b < 128 then some rest
  else if 194 ≤ b ∧ b ≤ 223 then utf8Cont 128 191 rest
  else if 224 ≤ b ∧ b ≤ 239 then
    (utf8Cont (if b = 224 then 160 else 128) (if b = 237 then 159 else 191) rest).bind
      (utf8Cont 128 191)
  else if 240 ≤ b ∧ b ≤ 244 then
    ((utf8Cont (if b = 240 then 144 else 128) (if b = 244 then 143 else 191) rest).bind
      (utf8Cont 128 191)).bind (utf8Cont 128 191)
  else none

theorem utf8Cont_length {lo hi : Nat} {s r : Bytes} (h : utf8Cont lo hi s = some r) :
    r.length < s.length := by
  match s with
  | [] => exact absurd h (by simp [utf8Cont])
  | c :: t =>
      by_cases hc : lo ≤ c ∧ c ≤ hi
      · simp only [utf8Cont, if_pos hc, Option.some.injEq] at h
        subst h; simp
      · exact absurd h (by simp [utf8Cont, hc])

theorem utf8Step_length {b : Nat} {rest r : Bytes} (h : utf8Step b rest = some r) :
    r.length ≤ rest.length := by
  unfold utf8Step at h
  split at h
  · simp only [Option.some.injEq] at h; subst h; exact le_refl _
  · split at h
    · exact le_of_lt (utf8Cont_length h)
    · split at h
      · rcases Option.bind_eq_some.mp h with ⟨m, hm, hr⟩
        exact le_of_lt (lt_trans (utf8Cont_length hr) (utf8Cont_length hm))
      · split at h
        · rcases Option.bind_eq_some.mp h with ⟨m2, hm2, hr⟩
          rcases Option.bind_eq_some.mp hm2 with ⟨m1, hm1, hm12⟩
          exact le_of_lt (lt_trans (utf8Cont_length hr)
            (lt_trans (utf8Cont_length hm12) (utf8Cont_length hm1)))
        · exact absurd h (by simp)

/-- UTF-8 validity of a byte sequence (str::from_utf8 succeeding). -/
def utf8Valid : Bytes → Bool
  | [] => true
  | b :: rest =>
      match h : utf8Step b rest with
      | none => false
      | some r => utf8Valid r
termination_by s => s.length
decreasing_by
  have := utf8Step_length h
  simp
  omega

theorem utf8Valid_ascii (s : Bytes) (h : ∀ c ∈ s, c < 128) : utf8Valid s = true := by
  induction s with
  | nil => rw [utf8Valid]
  | cons b rest ih =>
      have hb : b < 128 := h b (by simp)
      have hstep : utf8Step b rest = some rest := by simp [utf8Step, hb]
      rw [utf8Valid, hstep]
      exact ih (fun c hc => h c (by simp [hc]))

/-!
Sorted association lists with Nat keys model BTreeMap<u8, _> and
BTreeMap<u32, _>: insert keeps keys strictly ascending (overwriting an
existing key in place), get is lookup, and iteration order (values, used by
the serializers) is ascending key order exactly as for a BTreeMap.
-/

def smapInsert {α : Type} (k : Nat) (v : α) : List (Nat × α) → List (Nat × α)
  | [] => [(k, v)]
  | (k0, v0) :: rest =>
      if k < k0 then (k, v) :: (k0, v0) :: rest
      else if k = k0 then (k, v) :: rest
      else (k0, v0) :: smapInsert k v rest

def smapGet {α : Type} (k : Nat) : List (Nat × α) → Option α
  | [] => none
  | (k0, v0) :: rest => if k = k0 then some v0 else smapGet k rest

theorem smapGet_insert_self {α : Type} (k : Nat) (v : α) (m : List (Nat × α)) :
    smapGet k (smapInsert k v m) = some v := by
  induction m with
  | nil => simp [smapInsert, smapGet]
  | cons kv rest ih =>
      obtain ⟨k0, v0⟩ := kv
      by_cases h1 : k < k0
      · simp [smapInsert, h1, smapGet]
      · by_cases h2 : k = k0
        · simp [smapInsert, h1, h2, smapGet]
        · simp [smapInsert, h1, h2, smapGet, ih]

theorem smapGet_insert_ne {α : Type} (k j : Nat) (v : α) (m : List (Nat × α))
    (h : j ≠ k) : smapGet j (smapInsert k v m) = smapGet j m := by
  induction m with
  | nil => simp [smapInsert, smapGet, h]
  | cons kv rest ih =>
      obtain ⟨k0, v0⟩ := kv
      by_cases h1 : k < k0
      · by_cases h3 : j = k0
        · simp only [smapInsert, if_pos h1, smapGet, if_neg h, if_pos h3]
        · simp only [smapInsert, if_pos h1, smapGet, if_neg h, if_neg h3]
      · by_cases h2 : k = k0
        · subst h2; simp [smapInsert, h1, smapGet, h]
        · by_cases h3 : j = k0 <;> simp [smapInsert, h1, h2, smapGet, h3, ih]

/-- Keys of a sorted map. -/
def smapKeys {α : Type} (m : List (Nat × α)) : List Nat := m.map Prod.fst

/-- Inserting a key strictly greater than every existing key appends. -/
theorem smapInsert_append {α : Type} (k : Nat) (v : α) (m : List (Nat × α))
    (h : ∀ j ∈ smapKeys m, j < k) : smapInsert k v m = m ++ [(k, v)] := by
  induction m with
  | nil => rfl
  | cons kv rest ih =>
      obtain ⟨k0, v0⟩ := kv
      have hk0 : k0 < k := h k0 (by simp [smapKeys])
      have h1 : ¬ k < k0 := by omega
      have h2 : k ≠ k0 := by omega
      simp [smapInsert, h1, h2]
      exact ih (fun j hj => h j (by simp [smapKeys] at hj ⊢; right; exact hj))

/-!
Plain association lists (newest binding first) model the BTreeMap<String, u32>
name index of InteriorDatabase: only contains_key, get and fresh insert are
used on it, so iteration order is irrelevant.  Keys are the UTF-8 bytes of
the Rust String.
-/

def alistGet (k : Bytes) : List (Bytes × Nat) → Option Nat
  | [] => none
  | (k0, v0) :: rest => if k = k0 then some v0 else alistGet k rest

theorem alistGet_cons_self (k : Bytes) (v : Nat) (l : List (Bytes × Nat)) :
    alistGet k ((k, v) :: l) = some v := by simp [alistGet]

theorem alistGet_cons_ne (k j : Bytes) (v : Nat) (l : List (Bytes × Nat))
    (h : j ≠ k) : alistGet j ((k, v) :: l) = alistGet j l := by
  simp [alistGet, h]

/-!
FieldAtlas (src/linux/src/storage/atlas.rs): a BTreeMap<u8, Zeroizing<Vec<u8>>>
of tag/value fields.  serialize emits, in ascending tag order, the tag byte,
the value length as u32 little-endian (a truncating cast from usize), and the
value bytes.  deserialize scans until the input is exhausted; reading past
the end of the input (a short length header or a stated length running past
the end) is a Rust slice panic, modeled as none.
-/

abbrev FieldAtlas := List (Nat × Bytes)

def fieldAtlasDeserGo (fields : FieldAtlas) : Bytes → Option FieldAtlas
  | [] => some fields
  | _t :: rest =>
      match rest with
      | b0 :: b1 :: b2 :: b3 :: rest2 =>
          let len := leToNat [b0, b1, b2, b3]
          if len ≤ rest2.length then
            fieldAtlasDeserGo (smapInsert _t (rest2.take len) fields) (rest2.drop len)
          else none
      | _ => none
termination_by data => data.length
decreasing_by simp [List.length_drop]; omega

def FieldAtlas.deserialize (data : Bytes) : Option FieldAtlas :=
  fieldAtlasDeserGo [] data

def FieldAtlas.serialize (fs : FieldAtlas) : Bytes :=
  fs.flatMap (fun kv => kv.1 :: (leBytes 4 kv.2.length ++ kv.2))

def FieldAtlas.get (fs : FieldAtlas) (t : Nat) : Option Bytes := smapGet t fs

/-- FieldAtlas::get_str - get then str::from_utf8(..).ok(). -/
def FieldAtlas.getStr (fs : FieldAtlas) (t : Nat) : Option Bytes :=
  (smapGet t fs).bind (fun v => if utf8Valid v then some v else none)

def FieldAtlas.set (fs : FieldAtlas) (t : Nat) (v : Bytes) : FieldAtlas :=
  smapInsert t v fs

/-- Structural well-formedness of a TLV byte stream: the exact condition under
which the FieldAtlas::deserialize scan terminates without reading past the
end of the input. -/
def tlvWF : Bytes → Bool
  | [] => true
  | _ :: rest =>
      match rest with
      | b0 :: b1 :: b2 :: b3 :: rest2 =>
          let len := leToNat [b0, b1, b2, b3]
          if len ≤ rest2.length then tlvWF (rest2.drop len) else false
      | _ => false
termination_by data => data.length
decreasing_by simp [List.length_drop]; omega

theorem fieldAtlasDeserGo_none_iff_aux : ∀ (n : Nat) (data : Bytes), data.length ≤ n →
    ∀ fields, (fieldAtlasDeserGo fields data = none ↔ tlvWF data = false) := by
  intro n
  induction n with
  | zero =>
      intro data hlen fields
      have : data = [] := List.length_eq_zero.mp (Nat.le_zero.mp hlen)
      subst this
      simp [fieldAtlasDeserGo, tlvWF]
  | succ n ih =>
      intro data hlen fields
      match data with
      | [] => simp [fieldAtlasDeserGo, tlvWF]
      | [t] => simp [fieldAtlasDeserGo, tlvWF]
      | [t, b0] => simp [fieldAtlasDeserGo, tlvWF]
      | [t, b0, b1] => simp [fieldAtlasDeserGo, tlvWF]
      | [t, b0, b1, b2] => simp [fieldAtlasDeserGo, tlvWF]
      | t :: b0 :: b1 :: b2 :: b3 :: rest2 =>
          rw [fieldAtlasDeserGo, tlvWF]
          by_cases hle : leToNat [b0, b1, b2, b3] ≤ rest2.length
          · simp only [hle, if_true]
            refine ih _ ?_ _
            simp only [List.length_cons] at hlen
            simp [List.length_drop]
            omega
          · simp [hle]

theorem fieldAtlasDeserGo_none_iff (data : Bytes) (fields : FieldAtlas) :
    fieldAtlasDeserGo fields data = none ↔ tlvWF data = false :=
  fieldAtlasDeserGo_none_iff_aux data.length data (le_refl _) fields

/-- Claim C9 helper at the published FieldAtlas::deserialize entry point. -/
theorem fieldAtlas_deserialize_none_iff (data : Bytes) :
    FieldAtlas.deserialize data = none ↔ tlvWF data = false :=
  fieldAtlasDeserGo_none_iff data []

/-!
EntryAtlas (src/linux/src/storage/atlas.rs): a BTreeMap<u32, (u8, Zeroizing
Vec<u8>)> of records.  serialize emits, in ascending id order, the record
kind byte, the record byte length as u32 little-endian, and the record
bytes; ids are not stored.  deserialize assigns ids by 0-based stream
position (the id counter is a u32, hence the modulus at the insert).
-/

abbrev EntryAtlas := List (Nat × (Nat × Bytes))

def entryAtlasDeserGo (entries : EntryAtlas) (id : Nat) : Bytes → Option EntryAtlas
  | [] => some entries
  | _t :: rest =>
      match rest with
      | b0 :: b1 :: b2 :: b3 :: rest2 =>
          let len := leToNat [b0, b1, b2, b3]
          if len ≤ rest2.length then
            entryAtlasDeserGo (smapInsert (id % 4294967296) (_t, rest2.take len) entries)
              (id + 1) (rest2.drop len)
          else none
      | _ => none
termination_by data => data.length
decreasing_by simp [List.length_drop]; omega

def EntryAtlas.deserialize (data : Bytes) : Option EntryAtlas :=
  entryAtlasDeserGo [] 0 data

def EntryAtlas.serialize (es : EntryAtlas) : Bytes :=
  es.flatMap (fun kv => kv.2.1 :: (leBytes 4 kv.2.2.length ++ kv.2.2))

/-!
Entry wrappers (src/linux/src/storage/entry.rs).  MetaEntry and
PasswordEntry both wrap a FieldAtlas; field tags are Name = 1 and Value = 2
for MetaEntry and Name = 1, Username = 2, Password = 3, Note = 4 for
PasswordEntry.  MetaEntry::get_name / get_value unwrap (a panic when the
field is missing or not UTF-8); PasswordEntry getters use
unwrap_or_default.
-/

def metaEntryNew (name value : Bytes) : FieldAtlas :=
  (FieldAtlas.set (FieldAtlas.set [] 1 name) 2 value)

def metaGetName (e : FieldAtlas) : Option Bytes := e.getStr 1

def metaGetValue (e : FieldAtlas) : Option Bytes := e.getStr 2

def passwordGetName (e : FieldAtlas) : Bytes := (e.getStr 1).getD []

/-!
InteriorDatabase (src/linux/src/storage/database.rs).  Records are stored in
an EntryAtlas under u32 ids handed out by next_id; the name index maps the
key "{kind}\x00{name}" (as UTF-8 bytes) to the record id.  EntryTag::Meta =
0 and EntryTag::Password = 1.
-/

def passwordKey (name : Bytes) : Bytes := [112, 97, 115, 115, 119, 111, 114, 100, 0] ++ name

def metaKey (name : Bytes) : Bytes := [109, 101, 116, 97, 0] ++ name

structure InteriorDatabase where
  next_id : Nat
  entries : EntryAtlas
  index_by_name : List (Bytes × Nat)
deriving DecidableEq

/-- Common upsert shape of set_password_entry and set_meta_entry: a key
already present reuses its id and overwrites that record; a fresh key is
indexed under next_id (a u32, incremented with wrap) and a new record is
stored. -/
def dbUpsert (db : InteriorDatabase) (key : Bytes) (tag : Nat) (bs : Bytes) :
    InteriorDatabase :=
  match alistGet key db.index_by_name with
  | some id => { db with entries := smapInsert id (tag, bs) db.entries }
  | none =>
      { next_id := (db.next_id + 1) % 4294967296,
        entries := smapInsert db.next_id (tag, bs) db.entries,
        index_by_name := (key, db.next_id) :: db.index_by_name }

def InteriorDatabase.setPasswordEntry (db : InteriorDatabase) (e : FieldAtlas) :
    InteriorDatabase :=
  dbUpsert db (passwordKey (passwordGetName e)) 1 e.serialize

/-- MetaEntry::get_name unwraps, so a missing or non-UTF-8 name field is a
panic (none). -/
def InteriorDatabase.setMetaEntry (db : InteriorDatabase) (e : FieldAtlas) :
    Option InteriorDatabase :=
  match metaGetName e with
  | none => none
  | some name => some (dbUpsert db (metaKey name) 0 e.serialize)

/-- Result none is a panic inside FieldAtlas::deserialize; some none is the
clean not-found result; some (some fa) is a found entry. -/
def InteriorDatabase.getPasswordEntry (db : InteriorDatabase) (name : Bytes) :
    Option (Option FieldAtlas) :=
  match alistGet (passwordKey name) db.index_by_name with
  | none => some none
  | some id =>
      match smapGet id db.entries with
      | none => some none
      | some tb =>
          match FieldAtlas.deserialize tb.2 with
          | none => none
          | some fa => some (some fa)

def InteriorDatabase.getMetaEntry (db : InteriorDatabase) (name : Bytes) :
    Option (Option FieldAtlas) :=
  match alistGet (metaKey name) db.index_by_name with
  | none => some none
  | some id =>
      match smapGet id db.entries with
      | none => some none
      | some tb =>
          match FieldAtlas.deserialize tb.2 with
          | none => none
          | some fa => some (some fa)

def InteriorDatabase.serialize (db : InteriorDatabase) : Bytes :=
  EntryAtlas.serialize db.entries

def emptyInteriorDatabase : InteriorDatabase := ⟨0, [], []⟩

/-- Replay of from_entry_atlas: records are visited in ascending id order
and re-inserted through set_meta_entry / set_password_entry; a record tag
outside the EntryTag enum makes the unsafe transmute undefined behaviour
(none). -/
def fromEntryAtlasGo (db : InteriorDatabase) : EntryAtlas → Option InteriorDatabase
  | [] => some db
  | kv :: rest =>
      match FieldAtlas.deserialize kv.2.2 with
      | none => none
      | some fa =>
          if kv.2.1 = 0 then
            match db.setMetaEntry fa with
            | none => none
            | some db2 => fromEntryAtlasGo db2 rest
          else if kv.2.1 = 1 then fromEntryAtlasGo (db.setPasswordEntry fa) rest
          else none

def InteriorDatabase.fromEntryAtlas (ea : EntryAtlas) : Option InteriorDatabase :=
  fromEntryAtlasGo emptyInteriorDatabase ea

def InteriorDatabase.deserialize (data : Bytes) : Option InteriorDatabase :=
  (EntryAtlas.deserialize data).bind InteriorDatabase.fromEntryAtlas

/-- InteriorDatabase::zeroize: every record value is zeroized in place
(Vec::zeroize clears the vector), and the name index is taken and its keys
zeroized, leaving it empty; next_id and the record tags are untouched. -/
def InteriorDatabase.zeroize (db : InteriorDatabase) : InteriorDatabase :=
  { next_id := db.next_id,
    entries := db.entries.map (fun kv => (kv.1, (kv.2.1, ([] : Bytes)))),
    index_by_name := [] }

/-- Filtering loop of Database::meta_only: Meta records are re-indexed from
1 in a fresh EntryAtlas (the index is a u32); every visited tag goes through
the unsafe transmute, so a tag outside the enum is undefined behaviour. -/
def metaOnlyGo (meta : EntryAtlas) (idx : Nat) : EntryAtlas → Option EntryAtlas
  | [] => some meta
  | kv :: rest =>
      if kv.2.1 = 0 then
        metaOnlyGo (smapInsert (idx % 4294967296) (0, kv.2.2) meta) (idx + 1) rest
      else if kv.2.1 = 1 then metaOnlyGo meta idx rest
      else none

def InteriorDatabase.metaOnly (db : InteriorDatabase) : Option InteriorDatabase :=
  (metaOnlyGo [] 1 db.entries).bind InteriorDatabase.fromEntryAtlas

/-!
SecretMemory (src/linux/src/storage/secret.rs): a memfd_secret region of a
fixed capacity with an atomic logical length.  A fresh region is
zero-filled (ftruncate).  write copies bytes at an offset after a bounds
check and raises the length watermark.  zeroize overwrites every one of the
capacity bytes through a volatile write and resets the length to 0.  The
source defines no Drop implementation for SecretMemory (only MappedGuard
has one, and it merely munmaps), so dropping a SecretMemory closes the file
descriptor without writing to the region: droppedBytes is the region
content at drop time.
-/

structure SecretMemory where
  capacity : Nat
  length : Nat
  data : Bytes
deriving DecidableEq

def SecretMemory.new (capacity : Nat) : SecretMemory :=
  ⟨capacity, 0, List.replicate capacity 0⟩

def SecretMemory.write (s : SecretMemory) (offset : Nat) (d : Bytes) :
    Option SecretMemory :=
  if offset + d.length ≤ s.capacity then
    some ⟨s.capacity, max s.length (offset + d.length),
      (s.data.take offset) ++ d ++ s.data.drop (offset + d.length)⟩
  else none

/-- Bytes visible through SecretMemory::read (a view truncated to the
logical length). -/
def SecretMemory.readBytes (s : SecretMemory) : Bytes := s.data.take s.length

def SecretMemory.zeroize (s : SecretMemory) : SecretMemory :=
  ⟨s.capacity, 0, List.replicate s.capacity 0⟩

/-- Region content observed at drop time: no Drop impl exists for
SecretMemory, so nothing overwrites the data. -/
def SecretMemory.droppedBytes (s : SecretMemory) : Bytes := s.data

/-- Database (src/linux/src/storage/database.rs): the interior database plus
the exclusively owned master key. -/
structure Database where
  masterKey : SecretMemory
  interior : InteriorDatabase

def Database.zeroize (db : Database) : Database :=
  ⟨db.masterKey.zeroize, db.interior.zeroize⟩

/-!
Canonical reachable states.  Every state reachable from an empty
InteriorDatabase through the two set operations is determined by the list
of its records in id order: ids are dense from 0, and the name index holds
exactly one binding per record, newest id first.  The machinery below
characterizes the set operations, serialization and replay on such states.
-/

abbrev U32 : Nat := 4294967296

/-- Index key denormalized from a stored record: the record bytes are
decoded and the name field is extracted according to the record kind. -/
def recKeyOfBytes (tag : Nat) (bs : Bytes) : Option Bytes :=
  match FieldAtlas.deserialize bs with
  | none => none
  | some fa =>
      if tag = 0 then (metaGetName fa).map metaKey
      else if tag = 1 then some (passwordKey (passwordGetName fa))
      else none

def recKeyD (r : Nat × Bytes) : Bytes := (recKeyOfBytes r.1 r.2).getD []

/-- Record well-formedness: a recognized tag, record bytes below the u32
length cast, canonical serialization (the bytes decode to a field atlas
that re-serializes to the same bytes), and an extractable index key. -/
def recWF (r : Nat × Bytes) : Bool :=
  (r.1 == 0 || r.1 == 1) && decide (r.2.length < U32) &&
    (match FieldAtlas.deserialize r.2 with
     | none => false
     | some fa => (FieldAtlas.serialize fa == r.2) && (recKeyOfBytes r.1 r.2).isSome)

/-- Entry atlas of a record list, ids assigned densely from start. -/
def canonEntries (rs : List (Nat × Bytes)) (start : Nat) : EntryAtlas :=
  match rs with
  | [] => []
  | r :: rest => (start, r) :: canonEntries rest (start + 1)

/-- Name index of a record list with ids from start, newest binding first
(the shape produced by consing one binding per fresh record). -/
def canonIndexAux (acc : List (Bytes × Nat)) (start : Nat) :
    List (Nat × Bytes) → List (Bytes × Nat)
  | [] => acc
  | r :: rest => canonIndexAux ((recKeyD r, start) :: acc) (start + 1) rest

/-- Canonical interior database of a record list. -/
def canonDb (rs : List (Nat × Bytes)) : InteriorDatabase :=
  ⟨rs.length, canonEntries rs 0, canonIndexAux [] 0 rs⟩

theorem canonEntries_map_snd (rs : List (Nat × Bytes)) (s : Nat) :
    (canonEntries rs s).map Prod.snd = rs := by
  induction rs generalizing s with
  | nil => rfl
  | cons r rest ih => simp [canonEntries, ih]

theorem canonEntries_keys_lt (rs : List (Nat × Bytes)) (s : Nat) :
    ∀ j ∈ smapKeys (canonEntries rs s), j < s + rs.length := by
  induction rs generalizing s with
  | nil => simp [canonEntries, smapKeys]
  | cons r rest ih =>
      intro j hj
      simp only [canonEntries, smapKeys, List.map_cons, List.mem_cons] at hj
      rcases hj with hj | hj
      · simp [hj]
      · have := ih (s + 1) j hj
        simp only [List.length_cons]
        omega

theorem canonEntries_append_one (rs : List (Nat × Bytes)) (r : Nat × Bytes) (s : Nat) :
    canonEntries (rs ++ [r]) s = canonEntries rs s ++ [(s + rs.length, r)] := by
  induction rs generalizing s with
  | nil => simp [canonEntries]
  | cons x rest ih =>
      simp only [List.cons_append, canonEntries, List.length_cons, List.append_eq]
      rw [ih (s + 1)]
      have he : s + 1 + rest.length = s + (rest.length + 1) := by omega
      rw [he]

theorem canonIndexAux_append_one (acc : List (Bytes × Nat)) (s : Nat)
    (rs : List (Nat × Bytes)) (r : Nat × Bytes) :
    canonIndexAux acc s (rs ++ [r]) = (recKeyD r, s + rs.length) :: canonIndexAux acc s rs := by
  induction rs generalizing acc s with
  | nil => simp [canonIndexAux]
  | cons x rest ih =>
      simp only [List.cons_append, canonIndexAux, List.length_cons, List.append_eq]
      rw [ih]
      have he : s + 1 + rest.length = s + (rest.length + 1) := by omega
      rw [he]

theorem alistGet_canonIndexAux (acc : List (Bytes × Nat)) (s : Nat)
    (rs : List (Nat × Bytes)) (key : Bytes) (h : ∀ r ∈ rs, recKeyD r ≠ key) :
    alistGet key (canonIndexAux acc s rs) = alistGet key acc := by
  induction rs generalizing acc s with
  | nil => rfl
  | cons x rest ih =>
      simp only [canonIndexAux]
      rw [ih _ _ (fun r hr => h r (by simp [hr]))]
      exact alistGet_cons_ne _ _ _ _ (fun he => h x (by simp) he.symm)

theorem smapGet_canonEntries (rs : List (Nat × Bytes)) (s k : Nat) :
    smapGet k (canonEntries rs s) =
      if s ≤ k then rs.get? (k - s) else none := by
  induction rs generalizing s with
  | nil => simp [canonEntries, smapGet]
  | cons r rest ih =>
      simp only [canonEntries, smapGet]
      by_cases hk : k = s
      · subst hk
        simp [ih, List.get?]
      · rw [if_neg hk, ih (s + 1)]
        by_cases hle : s ≤ k
        · have h1 : s + 1 ≤ k := by omega
          rw [if_pos hle, if_pos h1]
          have h2 : k - s = (k - (s + 1)) + 1 := by omega
          rw [h2]
          rfl
        · rw [if_neg hle, if_neg (by omega)]

theorem leBytes4_cons (n : Nat) : leBytes 4 n =
    [n % 256, n / 256 % 256, n / 256 / 256 % 256, n / 256 / 256 / 256 % 256] := by
  simp [leBytes]

theorem leToNat4 (n : Nat) :
    leToNat [n % 256, n / 256 % 256, n / 256 / 256 % 256, n / 256 / 256 / 256 % 256] =
      n % U32 := by
  rw [← leBytes4_cons, leToNat_leBytes]
  norm_num [U32]

/-- Well-formedness of a field atlas as produced by the entry setters:
strictly ascending byte tags, and value and total lengths below the u32
length cast. -/
def faWF (e : FieldAtlas) : Bool :=
  decide (List.Pairwise (fun a b : Nat × Bytes => a.1 < b.1) e) &&
    e.all (fun f => decide (f.1 < 256) && decide (f.2.length < U32)) &&
    decide ((FieldAtlas.serialize e).length < U32)

theorem fieldAtlasDeserGo_serialize (e : FieldAtlas) :
    ∀ fields : FieldAtlas,
    List.Pairwise (fun a b : Nat × Bytes => a.1 < b.1) e →
    (∀ f ∈ e, f.2.length < U32) →
    (∀ f ∈ fields, ∀ g ∈ e, f.1 < g.1) →
    fieldAtlasDeserGo fields (FieldAtlas.serialize e) = some (fields ++ e) := by
  induction e with
  | nil => intro fields _ _ _; simp [FieldAtlas.serialize, fieldAtlasDeserGo]
  | cons tv rest ih =>
      intro fields hpw hsz hlt
      obtain ⟨t, v⟩ := tv
      have hser : FieldAtlas.serialize ((t, v) :: rest) =
          t :: (v.length % 256 :: v.length / 256 % 256 :: v.length / 256 / 256 % 256 ::
            v.length / 256 / 256 / 256 % 256 :: (v ++ FieldAtlas.serialize rest)) := by
        simp [FieldAtlas.serialize, leBytes4_cons]
      rw [hser, fieldAtlasDeserGo, leToNat4]
      have hvlt : v.length < U32 := hsz (t, v) (by simp)
      rw [Nat.mod_eq_of_lt hvlt]
      have hle : v.length ≤ (v ++ FieldAtlas.serialize rest).length := by
        simp
      simp only [hle, if_pos, List.take_left, List.drop_left]
      have hins : smapInsert t v fields = fields ++ [(t, v)] :=
        smapInsert_append t v fields (by
          intro j hj
          simp only [smapKeys, List.mem_map] at hj
          obtain ⟨f, hf, hfj⟩ := hj
          exact hfj ▸ hlt f hf (t, v) (by simp))
      rw [hins]
      rw [ih (fields ++ [(t, v)]) (List.Pairwise.of_cons hpw)
        (fun f hf => hsz f (by simp [hf]))
        (by
          intro f hf g hg
          rcases List.mem_append.mp hf with hf | hf
          · exact hlt f hf g (by simp [hg])
          · simp at hf
            subst hf
            exact (List.pairwise_cons.mp hpw).1 g hg)]
      simp

/-- FieldAtlas round trip: deserialize inverts serialize for atlases that
satisfy faWF. -/
theorem fieldAtlas_deserialize_serialize (e : FieldAtlas) (h : faWF e = true) :
    FieldAtlas.deserialize (FieldAtlas.serialize e) = some e := by
  simp only [faWF, Bool.and_eq_true, decide_eq_true_eq, List.all_eq_true] at h
  exact fieldAtlasDeserGo_serialize e [] h.1.1
    (fun f hf => by
      have := h.1.2 f hf
      simp only [Bool.and_eq_true, decide_eq_true_eq] at this
      exact this.2)
    (by simp)

theorem entryAtlasDeserGo_serialize (rs : List (Nat × Bytes)) :
    ∀ (acc : EntryAtlas) (id : Nat),
    (∀ r ∈ rs, r.2.length < U32) →
    (∀ kv ∈ acc, kv.1 < id) →
    id + rs.length ≤ U32 →
    entryAtlasDeserGo acc id
        (rs.flatMap (fun r => r.1 :: (leBytes 4 r.2.length ++ r.2))) =
      some (acc ++ canonEntries rs id) := by
  induction rs with
  | nil => intro acc id _ _ _; simp [entryAtlasDeserGo, canonEntries]
  | cons r rest ih =>
      intro acc id hsz hacc hbound
      obtain ⟨t, v⟩ := r
      have hser : ((t, v) :: rest).flatMap (fun r => r.1 :: (leBytes 4 r.2.length ++ r.2)) =
          t :: (v.length % 256 :: v.length / 256 % 256 :: v.length / 256 / 256 % 256 ::
            v.length / 256 / 256 / 256 % 256 ::
              (v ++ rest.flatMap (fun r => r.1 :: (leBytes 4 r.2.length ++ r.2)))) := by
        simp [leBytes4_cons]
      rw [hser, entryAtlasDeserGo, leToNat4]
      have hvlt : v.length < U32 := hsz (t, v) (by simp)
      rw [Nat.mod_eq_of_lt hvlt]
      have hle : v.length ≤ (v ++ rest.flatMap
          (fun r => r.1 :: (leBytes 4 r.2.length ++ r.2))).length := by simp
      simp only [hle, if_pos, List.take_left, List.drop_left]
      have hidlt : id < 4294967296 := by
        simp only [List.length_cons, U32] at hbound
        omega
      rw [Nat.mod_eq_of_lt hidlt]
      have hins : smapInsert id (t, v) acc = acc ++ [(id, (t, v))] :=
        smapInsert_append id (t, v) acc (by
          intro j hj
          simp only [smapKeys, List.mem_map] at hj
          obtain ⟨f, hf, hfj⟩ := hj
          exact hfj ▸ hacc f hf)
      rw [hins]
      rw [ih (acc ++ [(id, (t, v))]) (id + 1)
        (fun f hf => hsz f (by simp [hf]))
        (by
          intro kv hkv
          rcases List.mem_append.mp hkv with hkv | hkv
          · have := hacc kv hkv; omega
          · simp only [List.mem_singleton] at hkv
            subst hkv
            simp)
        (by simp only [List.length_cons] at hbound; omega)]
      simp [canonEntries]

/-- EntryAtlas serialization of a canonical entries list does not depend on
the starting id (ids are not stored on the wire). -/
theorem entryAtlas_serialize_canonEntries (rs : List (Nat × Bytes)) (s : Nat) :
    EntryAtlas.serialize (canonEntries rs s) =
      rs.flatMap (fun r => r.1 :: (leBytes 4 r.2.length ++ r.2)) := by
  induction rs generalizing s with
  | nil => rfl
  | cons r rest ih => simp [canonEntries, EntryAtlas.serialize] at ih ⊢; rw [ih]

/-- EntryAtlas round trip on a canonical record list. -/
theorem entryAtlas_deserialize_serialize (rs : List (Nat × Bytes))
    (hsz : ∀ r ∈ rs, r.2.length < U32) (hbound : rs.length ≤ U32) :
    EntryAtlas.deserialize (EntryAtlas.serialize (canonEntries rs 0)) =
      some (canonEntries rs 0) := by
  rw [entryAtlas_serialize_canonEntries, EntryAtlas.deserialize,
    entryAtlasDeserGo_serialize rs [] 0 hsz (by simp) (by omega)]
  rfl

/-- Position of the record carrying a given index key. -/
def recFindIdx (key : Bytes) : List (Nat × Bytes) → Option Nat
  | [] => none
  | r :: rest => if recKeyD r = key then some 0 else (recFindIdx key rest).map (· + 1)

theorem recFindIdx_none_iff (key : Bytes) (rs : List (Nat × Bytes)) :
    recFindIdx key rs = none ↔ ∀ r ∈ rs, recKeyD r ≠ key := by
  induction rs with
  | nil => simp [recFindIdx]
  | cons r rest ih =>
      by_cases h : recKeyD r = key
      · simp [recFindIdx, h]
      · simp [recFindIdx, h, ih]

theorem recFindIdx_some_get (key : Bytes) (rs : List (Nat × Bytes)) (j : Nat)
    (h : recFindIdx key rs = some j) :
    j < rs.length ∧ ∃ r, rs.get? j = some r ∧ recKeyD r = key := by
  induction rs generalizing j with
  | nil => simp [recFindIdx] at h
  | cons r rest ih =>
      by_cases hk : recKeyD r = key
      · simp only [recFindIdx, if_pos hk, Option.some.injEq] at h
        subst h
        exact ⟨by simp, r, rfl, hk⟩
      · simp only [recFindIdx, if_neg hk, Option.map_eq_some'] at h
        obtain ⟨i, hi, hj⟩ := h
        obtain ⟨hlt, r1, hr1, hkey⟩ := ih i hi
        subst hj
        refine ⟨by simpa using Nat.succ_lt_succ hlt, r1, ?_, hkey⟩
        simpa using hr1

theorem alistGet_canonIndexAux_eq (rs : List (Nat × Bytes)) (key : Bytes) :
    ∀ (acc : List (Bytes × Nat)) (s : Nat),
    (rs.map recKeyD).Nodup →
    alistGet key (canonIndexAux acc s rs) =
      (match recFindIdx key rs with
       | some i => some (s + i)
       | none => alistGet key acc) := by
  induction rs with
  | nil => intro acc s _; simp [canonIndexAux, recFindIdx]
  | cons r rest ih =>
      intro acc s hnodup
      have hnodup2 : (rest.map recKeyD).Nodup := (List.nodup_cons.mp hnodup).2
      simp only [canonIndexAux]
      rw [ih _ _ hnodup2]
      match hfind : recFindIdx key rest with
      | some i =>
          have hne : recKeyD r ≠ key := by
            obtain ⟨_, r1, _, hkey⟩ := recFindIdx_some_get key rest i hfind
            intro hcontra
            have hmem : key ∈ rest.map recKeyD := by
              obtain ⟨hlt, r2, hr2, hk2⟩ := recFindIdx_some_get key rest i hfind
              exact hk2 ▸ List.mem_map_of_mem recKeyD (List.get?_mem hr2)
            exact (List.nodup_cons.mp hnodup).1 (hcontra ▸ hmem)
          simp only [recFindIdx, if_neg hne, hfind, Option.map_some']
          have : s + 1 + i = s + (i + 1) := by omega
          rw [this]
      | none =>
          by_cases hk : recKeyD r = key
          · simp [recFindIdx, hk, hfind, alistGet]
          · simp only [recFindIdx, if_neg hk, hfind, Option.map_none']
            exact alistGet_cons_ne _ _ _ _ (fun he => hk he.symm)

theorem smapInsert_canonEntries_set (rs : List (Nat × Bytes)) :
    ∀ (s j : Nat) (r2 : Nat × Bytes), j < rs.length →
    smapInsert (s + j) r2 (canonEntries rs s) = canonEntries (rs.set j r2) s := by
  induction rs with
  | nil => intro s j r2 h; simp at h
  | cons r rest ih =>
      intro s j r2 hj
      match j with
      | 0 =>
          simp only [canonEntries, List.set, Nat.add_zero, smapInsert]
          rw [if_neg (by omega)]
          simp
      | j2 + 1 =>
          simp only [canonEntries, List.set, smapInsert]
          rw [if_neg (by omega), if_neg (by omega)]
          have : s + (j2 + 1) = (s + 1) + j2 := by omega
          rw [this, ih (s + 1) j2 r2 (by simp at hj; omega)]

theorem canonIndexAux_congr (rs1 rs2 : List (Nat × Bytes))
    (h : rs1.map recKeyD = rs2.map recKeyD) :
    ∀ (acc : List (Bytes × Nat)) (s : Nat),
    canonIndexAux acc s rs1 = canonIndexAux acc s rs2 := by
  induction rs1 generalizing rs2 with
  | nil =>
      intro acc s
      have : rs2 = [] := by
        cases rs2 with
        | nil => rfl
        | cons x xs => simp at h
      subst this; rfl
  | cons r rest ih =>
      intro acc s
      cases rs2 with
      | nil => simp at h
      | cons x xs =>
          simp only [List.map_cons, List.cons.injEq] at h
          simp only [canonIndexAux, h.1]
          exact ih xs h.2 _ _

theorem map_recKeyD_set (rs : List (Nat × Bytes)) :
    ∀ (j : Nat) (r2 : Nat × Bytes) (r : Nat × Bytes),
    rs.get? j = some r → recKeyD r2 = recKeyD r →
    (rs.set j r2).map recKeyD = rs.map recKeyD := by
  induction rs with
  | nil => intro j r2 r h _; simp at h
  | cons x rest ih =>
      intro j r2 r hget hkey
      match j with
      | 0 =>
          simp only [List.get?] at hget
          injection hget with hget
          subst hget
          simp [List.set, hkey]
      | j2 + 1 =>
          simp only [List.get?] at hget
          simp [List.set, ih j2 r2 r hget hkey]

theorem recWF_pw (e : FieldAtlas) (h : faWF e = true) :
    recWF (1, FieldAtlas.serialize e) = true := by
  have hrt := fieldAtlas_deserialize_serialize e h
  simp only [faWF, Bool.and_eq_true, decide_eq_true_eq] at h
  simp [recWF, hrt, recKeyOfBytes, h.2]

theorem recKeyD_pw (e : FieldAtlas) (h : faWF e = true) :
    recKeyD (1, FieldAtlas.serialize e) = passwordKey (passwordGetName e) := by
  have hrt := fieldAtlas_deserialize_serialize e h
  simp [recKeyD, recKeyOfBytes, hrt]

theorem recWF_meta (e : FieldAtlas) (h : faWF e = true)
    (hn : (metaGetName e).isSome) : recWF (0, FieldAtlas.serialize e) = true := by
  have hrt := fieldAtlas_deserialize_serialize e h
  simp only [faWF, Bool.and_eq_true, decide_eq_true_eq] at h
  simp [recWF, hrt, recKeyOfBytes, h.2, Option.isSome_map', hn]

theorem recKeyD_meta (e : FieldAtlas) (h : faWF e = true) (name : Bytes)
    (hn : metaGetName e = some name) :
    recKeyD (0, FieldAtlas.serialize e) = metaKey name := by
  have hrt := fieldAtlas_deserialize_serialize e h
  simp [recKeyD, recKeyOfBytes, hrt, hn]

/-- An upsert with a fresh key appends a record under the next id and
indexes it. -/
theorem dbUpsert_fresh (rs : List (Nat × Bytes)) (tag : Nat) (bs : Bytes)
    (hnodup : (rs.map recKeyD).Nodup)
    (hfresh : ∀ r ∈ rs, recKeyD r ≠ recKeyD (tag, bs))
    (hlt : rs.length + 1 < U32) :
    dbUpsert (canonDb rs) (recKeyD (tag, bs)) tag bs = canonDb (rs ++ [(tag, bs)]) := by
  have hnone : recFindIdx (recKeyD (tag, bs)) rs = none :=
    (recFindIdx_none_iff _ rs).mpr hfresh
  have hget : alistGet (recKeyD (tag, bs)) (canonIndexAux [] 0 rs) = none := by
    rw [alistGet_canonIndexAux_eq rs _ [] 0 hnodup, hnone]
    rfl
  show dbUpsert ⟨rs.length, canonEntries rs 0, canonIndexAux [] 0 rs⟩ _ tag bs = _
  rw [dbUpsert]
  simp only [hget]
  rw [canonDb]
  have h1 : (rs.length + 1) % 4294967296 = rs.length + 1 := Nat.mod_eq_of_lt hlt
  have h2 : smapInsert rs.length (tag, bs) (canonEntries rs 0) =
      canonEntries rs 0 ++ [(rs.length, (tag, bs))] :=
    smapInsert_append _ _ _ (fun j hj => by
      have := canonEntries_keys_lt rs 0 j hj
      omega)
  have h3 : canonEntries (rs ++ [(tag, bs)]) 0 =
      canonEntries rs 0 ++ [(rs.length, (tag, bs))] := by
    have := canonEntries_append_one rs (tag, bs) 0
    simpa using this
  have h4 : canonIndexAux [] 0 (rs ++ [(tag, bs)]) =
      (recKeyD (tag, bs), rs.length) :: canonIndexAux [] 0 rs := by
    have := canonIndexAux_append_one [] 0 rs (tag, bs)
    simpa using this
  simp [h1, h2, h3, h4]

/-- An upsert whose key is already indexed reuses the indexed id and
overwrites that record in place; next_id and the index are unchanged. -/
theorem dbUpsert_existing (rs : List (Nat × Bytes)) (tag : Nat) (bs : Bytes)
    (j : Nat) (hnodup : (rs.map recKeyD).Nodup)
    (hfind : recFindIdx (recKeyD (tag, bs)) rs = some j) :
    dbUpsert (canonDb rs) (recKeyD (tag, bs)) tag bs = canonDb (rs.set j (tag, bs)) := by
  obtain ⟨hjlt, r, hr, hkey⟩ := recFindIdx_some_get _ rs j hfind
  have hget : alistGet (recKeyD (tag, bs)) (canonIndexAux [] 0 rs) = some j := by
    rw [alistGet_canonIndexAux_eq rs _ [] 0 hnodup, hfind]
    simp
  show dbUpsert ⟨rs.length, canonEntries rs 0, canonIndexAux [] 0 rs⟩ _ tag bs = _
  rw [dbUpsert]
  simp only [hget]
  rw [canonDb]
  have h2 : smapInsert j (tag, bs) (canonEntries rs 0) =
      canonEntries (rs.set j (tag, bs)) 0 := by
    have := smapInsert_canonEntries_set rs 0 j (tag, bs) hjlt
    simpa using this
  have h3 : canonIndexAux [] 0 (rs.set j (tag, bs)) = canonIndexAux [] 0 rs :=
    canonIndexAux_congr _ _ (map_recKeyD_set rs j (tag, bs) r hr (hkey ▸ rfl)) [] 0
  simp [h2, h3, List.length_set]

/-- One vault mutation: set_password_entry or set_meta_entry with an entry
built over a field atlas. -/
inductive VaultOp where
  | pw (e : FieldAtlas)
  | meta (e : FieldAtlas)

def opWF : VaultOp → Bool
  | .pw e => faWF e
  | .meta e => faWF e && (metaGetName e).isSome

def applyOp (db : InteriorDatabase) : VaultOp → Option InteriorDatabase
  | .pw e => some (db.setPasswordEntry e)
  | .meta e => db.setMetaEntry e

def applyOps (db : InteriorDatabase) : List VaultOp → Option InteriorDatabase
  | [] => some db
  | op :: rest => (applyOp db op).bind (fun db2 => applyOps db2 rest)

/-- Canonical well-formed record lists: recognized, canonically serialized
records with pairwise distinct index keys. -/
def CanonicalRs (rs : List (Nat × Bytes)) : Prop :=
  (∀ r ∈ rs, recWF r = true) ∧ (rs.map recKeyD).Nodup

theorem applyOp_canonical (rs : List (Nat × Bytes)) (op : VaultOp)
    (hop : opWF op = true) (hc : CanonicalRs rs) (hlt : rs.length + 1 < U32) :
    ∃ rs2, applyOp (canonDb rs) op = some (canonDb rs2) ∧ CanonicalRs rs2 ∧
      rs2.length ≤ rs.length + 1 := by
  obtain ⟨hwf, hnodup⟩ := hc
  match op with
  | .pw e =>
      have hfa : faWF e = true := hop
      have hkey := recKeyD_pw e hfa
      have hstep : applyOp (canonDb rs) (.pw e) =
          some (dbUpsert (canonDb rs) (recKeyD (1, FieldAtlas.serialize e)) 1
            (FieldAtlas.serialize e)) := by
        simp [applyOp, InteriorDatabase.setPasswordEntry, hkey]
      match hfind : recFindIdx (recKeyD (1, FieldAtlas.serialize e)) rs with
      | none =>
          refine ⟨rs ++ [(1, FieldAtlas.serialize e)], ?_, ⟨?_, ?_⟩, by simp⟩
          · rw [hstep, dbUpsert_fresh rs 1 _ hnodup ((recFindIdx_none_iff _ rs).mp hfind) hlt]
          · intro r hr
            rcases List.mem_append.mp hr with hr | hr
            · exact hwf r hr
            · simp only [List.mem_singleton] at hr
              subst hr
              exact recWF_pw e hfa
          · rw [List.map_append]
            simp only [List.map_cons, List.map_nil]
            exact List.Nodup.append hnodup (List.nodup_singleton _)
              (by
                intro k hk1 hk2
                simp only [List.mem_singleton] at hk2
                subst hk2
                obtain ⟨r, hr, hkr⟩ := List.mem_map.mp hk1
                exact (recFindIdx_none_iff _ rs).mp hfind r hr hkr)
      | some j =>
          refine ⟨rs.set j (1, FieldAtlas.serialize e), ?_, ⟨?_, ?_⟩, by simp⟩
          · rw [hstep, dbUpsert_existing rs 1 _ j hnodup hfind]
          · intro r hr
            rcases List.mem_or_eq_of_mem_set hr with hr | hr
            · exact hwf r hr
            · subst hr
              exact recWF_pw e hfa
          · obtain ⟨hjlt, r, hrget, hkr⟩ := recFindIdx_some_get _ rs j hfind
            rw [map_recKeyD_set rs j _ r hrget (hkr ▸ rfl)]
            exact hnodup
  | .meta e =>
      simp only [opWF, Bool.and_eq_true] at hop
      have hfa : faWF e = true := hop.1
      obtain ⟨name, hn⟩ := Option.isSome_iff_exists.mp hop.2
      have hkey := recKeyD_meta e hfa name hn
      have hstep : applyOp (canonDb rs) (.meta e) =
          some (dbUpsert (canonDb rs) (recKeyD (0, FieldAtlas.serialize e)) 0
            (FieldAtlas.serialize e)) := by
        simp [applyOp, InteriorDatabase.setMetaEntry, hn, hkey]
      match hfind : recFindIdx (recKeyD (0, FieldAtlas.serialize e)) rs with
      | none =>
          refine ⟨rs ++ [(0, FieldAtlas.serialize e)], ?_, ⟨?_, ?_⟩, by simp⟩
          · rw [hstep, dbUpsert_fresh rs 0 _ hnodup ((recFindIdx_none_iff _ rs).mp hfind) hlt]
          · intro r hr
            rcases List.mem_append.mp hr with hr | hr
            · exact hwf r hr
            · simp only [List.mem_singleton] at hr
              subst hr
              exact recWF_meta e hfa hop.2
          · rw [List.map_append]
            simp only [List.map_cons, List.map_nil]
            exact List.Nodup.append hnodup (List.nodup_singleton _)
              (by
                intro k hk1 hk2
                simp only [List.mem_singleton] at hk2
                subst hk2
                obtain ⟨r, hr, hkr⟩ := List.mem_map.mp hk1
                exact (recFindIdx_none_iff _ rs).mp hfind r hr hkr)
      | some j =>
          refine ⟨rs.set j (0, FieldAtlas.serialize e), ?_, ⟨?_, ?_⟩, by simp⟩
          · rw [hstep, dbUpsert_existing rs 0 _ j hnodup hfind]
          · intro r hr
            rcases List.mem_or_eq_of_mem_set hr with hr | hr
            · exact hwf r hr
            · subst hr
              exact recWF_meta e hfa hop.2
          · obtain ⟨hjlt, r, hrget, hkr⟩ := recFindIdx_some_get _ rs j hfind
            rw [map_recKeyD_set rs j _ r hrget (hkr ▸ rfl)]
            exact hnodup

theorem applyOps_canonical (ops : List VaultOp) : ∀ (rs : List (Nat × Bytes)),
    (∀ op ∈ ops, opWF op = true) → CanonicalRs rs →
    rs.length + ops.length < U32 →
    ∃ rs2, applyOps (canonDb rs) ops = some (canonDb rs2) ∧ CanonicalRs rs2 ∧
      rs2.length ≤ rs.length + ops.length := by
  induction ops with
  | nil => intro rs _ hc _; exact ⟨rs, rfl, hc, by simp⟩
  | cons op rest ih =>
      intro rs hops hc hlen
      obtain ⟨rs2, hstep, hc2, hle2⟩ := applyOp_canonical rs op
        (hops op (by simp)) hc (by simp only [List.length_cons] at hlen; omega)
      obtain ⟨rs3, hrest, hc3, hle3⟩ := ih rs2 (fun o ho => hops o (by simp [ho])) hc2
        (by simp only [List.length_cons] at hlen; omega)
      refine ⟨rs3, ?_, hc3, by simp only [List.length_cons]; omega⟩
      simp [applyOps, hstep, hrest]

/-- Replay core: from_entry_atlas re-inserts canonical records in stream
order, reassigning dense ids from 0, and reconstructs exactly the canonical
database of the record list. -/
theorem fromEntryAtlasGo_canonical (rest : List (Nat × Bytes)) :
    ∀ (done : List (Nat × Bytes)) (ea : EntryAtlas),
    ea.map Prod.snd = rest →
    (∀ r ∈ rest, recWF r = true) →
    ((done ++ rest).map recKeyD).Nodup →
    done.length + rest.length < U32 →
    fromEntryAtlasGo (canonDb done) ea = some (canonDb (done ++ rest)) := by
  induction rest with
  | nil =>
      intro done ea hmap _ _ _
      have : ea = [] := List.map_eq_nil.mp hmap
      subst this
      simp [fromEntryAtlasGo]
  | cons r rest2 ih =>
      intro done ea hmap hwf hnodup hlen
      match ea with
      | [] => simp at hmap
      | kv :: ea2 =>
          simp only [List.map_cons, List.cons.injEq] at hmap
          obtain ⟨hkv, hea2⟩ := hmap
          have hrwf : recWF r = true := hwf r (by simp)
          simp only [recWF, Bool.and_eq_true, decide_eq_true_eq, Bool.or_eq_true,
            beq_iff_eq] at hrwf
          obtain ⟨⟨htag, hszr⟩, hcanon⟩ := hrwf
          match hdeser : FieldAtlas.deserialize r.2 with
          | none => rw [hdeser] at hcanon; exact absurd hcanon (by simp)
          | some fa =>
              rw [hdeser] at hcanon
              simp only [Bool.and_eq_true, beq_iff_eq] at hcanon
              obtain ⟨hser, hkeysome⟩ := hcanon
              have hfreshkey : ∀ r2 ∈ done, recKeyD r2 ≠ recKeyD r := by
                intro r2 hr2 hcontra
                rw [List.map_append] at hnodup
                have h1 : recKeyD r2 ∈ done.map recKeyD := List.mem_map_of_mem _ hr2
                have h2 : recKeyD r2 ∈ (r :: rest2).map recKeyD := by simp [hcontra]
                exact (List.disjoint_of_nodup_append hnodup) h1 h2
              have hdonenodup : (done.map recKeyD).Nodup := by
                rw [List.map_append] at hnodup
                exact List.Nodup.of_append_left hnodup
              have hlt : done.length + 1 < U32 := by
                simp only [List.length_cons] at hlen
                omega
              have hreta : r = (r.1, r.2) := rfl
              have hupfresh : dbUpsert (canonDb done) (recKeyD r) r.1 r.2 =
                  canonDb (done ++ [r]) := by
                rw [hreta]
                exact dbUpsert_fresh done r.1 r.2 hdonenodup
                  (by rw [← hreta]; exact hfreshkey) hlt
              have hstep : fromEntryAtlasGo (canonDb done) (kv :: ea2) =
                  fromEntryAtlasGo (canonDb (done ++ [r])) ea2 := by
                rw [fromEntryAtlasGo, hkv]
                simp only [hdeser]
                rcases htag with htag | htag
                · rw [if_pos htag]
                  have hname : ∃ nm, metaGetName fa = some nm := by
                    rw [recKeyOfBytes, hdeser, htag] at hkeysome
                    simp only [if_pos rfl] at hkeysome
                    rcases hmn : metaGetName fa with _ | nm
                    · rw [hmn] at hkeysome; simp at hkeysome
                    · exact ⟨nm, rfl⟩
                  obtain ⟨nm, hnm⟩ := hname
                  have hkeyval : recKeyD r = metaKey nm := by
                    rw [recKeyD, recKeyOfBytes, hdeser, htag]
                    simp [hnm]
                  rw [InteriorDatabase.setMetaEntry]
                  simp only [hnm]
                  rw [show (0 : Nat) = r.1 from htag.symm, ← hkeyval, hser, hupfresh]
                · rw [if_neg (by rw [htag]; omega), if_pos htag]
                  have hkeyval : recKeyD r =
                      passwordKey (passwordGetName fa) := by
                    rw [recKeyD, recKeyOfBytes, hdeser, htag]
                    simp
                  rw [InteriorDatabase.setPasswordEntry]
                  rw [show (1 : Nat) = r.1 from htag.symm, ← hkeyval, hser, hupfresh]
              rw [hstep]
              have hassoc : done ++ r :: rest2 = (done ++ [r]) ++ rest2 := by
                simp
              rw [hassoc]
              exact ih (done ++ [r]) ea2 hea2 (fun r2 hr2 => hwf r2 (by simp [hr2]))
                (by rw [← hassoc]; exact hnodup)
                (by
                  simp only [List.length_append, List.length_cons, List.length_nil]
                    at hlen ⊢
                  omega)

/-- Deserialization of the serialized canonical database reconstructs it
exactly. -/
theorem interior_roundtrip_canonical (rs : List (Nat × Bytes))
    (hwf : ∀ r ∈ rs, recWF r = true) (hnodup : (rs.map recKeyD).Nodup)
    (hlen : rs.length < U32) :
    InteriorDatabase.deserialize (InteriorDatabase.serialize (canonDb rs)) =
      some (canonDb rs) := by
  have hsz : ∀ r ∈ rs, r.2.length < U32 := by
    intro r hr
    have := hwf r hr
    simp only [recWF, Bool.and_eq_true, decide_eq_true_eq] at this
    exact this.1.2
  have h1 : EntryAtlas.deserialize (EntryAtlas.serialize (canonEntries rs 0)) =
      some (canonEntries rs 0) :=
    entryAtlas_deserialize_serialize rs hsz (le_of_lt hlen)
  rw [InteriorDatabase.deserialize, InteriorDatabase.serialize]
  show (EntryAtlas.deserialize (EntryAtlas.serialize (canonEntries rs 0))).bind _ = _
  rw [h1]
  show InteriorDatabase.fromEntryAtlas (canonEntries rs 0) = _
  rw [InteriorDatabase.fromEntryAtlas]
  have := fromEntryAtlasGo_canonical rs [] (canonEntries rs 0)
    (canonEntries_map_snd rs 0) hwf (by simpa using hnodup) (by simpa using hlen)
  simpa using this

theorem metaOnlyGo_filter (rest : List (Nat × Bytes)) :
    ∀ (ea : EntryAtlas), ea.map Prod.snd = rest →
    (∀ r ∈ rest, r.1 = 0 ∨ r.1 = 1) →
    ∀ (acc : EntryAtlas) (idx : Nat), (∀ kv ∈ acc, kv.1 < idx) →
    idx + (rest.filter (fun r => r.1 == 0)).length ≤ U32 →
    metaOnlyGo acc idx ea =
      some (acc ++ canonEntries (rest.filter (fun r => r.1 == 0)) idx) := by
  induction rest with
  | nil =>
      intro ea hmap _ acc idx _ _
      have : ea = [] := List.map_eq_nil_iff.mp hmap
      subst this
      simp [metaOnlyGo, canonEntries]
  | cons r rest2 ih =>
      intro ea hmap htags acc idx hacc hbound
      match ea with
      | [] => simp at hmap
      | kv :: ea2 =>
          simp only [List.map_cons, List.cons.injEq] at hmap
          obtain ⟨hkv, hea2⟩ := hmap
          rcases htags r (by simp) with htag | htag
          · have hfilter : (r :: rest2).filter (fun r => r.1 == 0) =
                r :: rest2.filter (fun r => r.1 == 0) := by
              simp [List.filter, htag]
            rw [hfilter] at hbound ⊢
            have hidx : idx < U32 := by
              simp only [List.length_cons] at hbound
              omega
            have hr0 : (0, kv.2.2) = r := by
              rw [hkv]
              exact congrArg (fun t => (t, r.2)) htag.symm
            rw [metaOnlyGo, if_pos (by rw [hkv]; exact htag),
              Nat.mod_eq_of_lt hidx, hr0]
            have hins : smapInsert idx r acc = acc ++ [(idx, r)] :=
              smapInsert_append _ _ _ (by
                intro j hj
                simp only [smapKeys, List.mem_map] at hj
                obtain ⟨f, hf, hfj⟩ := hj
                exact hfj ▸ hacc f hf)
            rw [hins]
            rw [ih ea2 hea2 (fun r2 hr2 => htags r2 (by simp [hr2]))
              (acc ++ [(idx, r)]) (idx + 1)
              (by
                intro kv2 hkv2
                rcases List.mem_append.mp hkv2 with hkv2 | hkv2
                · have := hacc kv2 hkv2; omega
                · simp only [List.mem_singleton] at hkv2
                  subst hkv2
                  simp)
              (by simp only [List.length_cons] at hbound; omega)]
            simp [canonEntries]
          · have hfilter : (r :: rest2).filter (fun r => r.1 == 0) =
                rest2.filter (fun r => r.1 == 0) := by
              simp [List.filter, htag]
            rw [hfilter] at hbound ⊢
            rw [metaOnlyGo, if_neg (by rw [hkv, htag]; omega),
              if_pos (by rw [hkv]; exact htag)]
            exact ih ea2 hea2 (fun r2 hr2 => htags r2 (by simp [hr2])) acc idx hacc hbound

theorem recFindIdx_of_get (rs : List (Nat × Bytes))
    (hnodup : (rs.map recKeyD).Nodup) (j : Nat) (r : Nat × Bytes)
    (h : rs.get? j = some r) : recFindIdx (recKeyD r) rs = some j := by
  induction rs generalizing j with
  | nil => simp at h
  | cons x rest ih =>
      match j with
      | 0 =>
          simp only [List.get?] at h
          injection h with h
          subst h
          simp [recFindIdx]
      | j2 + 1 =>
          simp only [List.get?] at h
          have hmem : r ∈ rest := List.get?_mem h
          have hne : recKeyD x ≠ recKeyD r := by
            intro hcontra
            have : recKeyD r ∈ rest.map recKeyD := List.mem_map_of_mem _ hmem
            exact (List.nodup_cons.mp hnodup).1 (hcontra ▸ this)
          rw [recFindIdx, if_neg hne, ih (List.nodup_cons.mp hnodup).2 j2 h]
          rfl

/-- Lookup through the name index on a canonical database agrees with a
scan of the record list. -/
theorem getMetaEntry_canonDb (rs : List (Nat × Bytes))
    (hnodup : (rs.map recKeyD).Nodup) (name : Bytes) :
    InteriorDatabase.getMetaEntry (canonDb rs) name =
      (match recFindIdx (metaKey name) rs with
       | none => some none
       | some j =>
           match rs.get? j with
           | none => some none
           | some r =>
               match FieldAtlas.deserialize r.2 with
               | none => none
               | some fa => some (some fa)) := by
  rw [InteriorDatabase.getMetaEntry]
  show (match alistGet (metaKey name) (canonIndexAux [] 0 rs) with
    | none => (some none : Option (Option FieldAtlas))
    | some id =>
        match smapGet id (canonEntries rs 0) with
        | none => some none
        | some tb =>
            match FieldAtlas.deserialize tb.2 with
            | none => none
            | some fa => some (some fa)) = _
  rw [alistGet_canonIndexAux_eq rs _ [] 0 hnodup]
  match hfind : recFindIdx (metaKey name) rs with
  | none => rfl
  | some j =>
      show (match smapGet (0 + j) (canonEntries rs 0) with
        | none => (some none : Option (Option FieldAtlas))
        | some tb =>
            match FieldAtlas.deserialize tb.2 with
            | none => none
            | some fa => some (some fa)) = _
      rw [smapGet_canonEntries, if_pos (by omega)]
      have : 0 + j - 0 = j := by omega
      rw [this]

theorem getPasswordEntry_canonDb (rs : List (Nat × Bytes))
    (hnodup : (rs.map recKeyD).Nodup) (name : Bytes) :
    InteriorDatabase.getPasswordEntry (canonDb rs) name =
      (match recFindIdx (passwordKey name) rs with
       | none => some none
       | some j =>
           match rs.get? j with
           | none => some none
           | some r =>
               match FieldAtlas.deserialize r.2 with
               | none => none
               | some fa => some (some fa)) := by
  rw [InteriorDatabase.getPasswordEntry]
  show (match alistGet (passwordKey name) (canonIndexAux [] 0 rs) with
    | none => (some none : Option (Option FieldAtlas))
    | some id =>
        match smapGet id (canonEntries rs 0) with
        | none => some none
        | some tb =>
            match FieldAtlas.deserialize tb.2 with
            | none => none
            | some fa => some (some fa)) = _
  rw [alistGet_canonIndexAux_eq rs _ [] 0 hnodup]
  match hfind : recFindIdx (passwordKey name) rs with
  | none => rfl
  | some j =>
      show (match smapGet (0 + j) (canonEntries rs 0) with
        | none => (some none : Option (Option FieldAtlas))
        | some tb =>
            match FieldAtlas.deserialize tb.2 with
            | none => none
            | some fa => some (some fa)) = _
      rw [smapGet_canonEntries, if_pos (by omega)]
      have : 0 + j - 0 = j := by omega
      rw [this]

/-- A run of zero bytes whose length is not a multiple of five makes the
FieldAtlas scan read past the end of the input: each step consumes a zero
tag, a zero u32 length and an empty value, and the leftover run is shorter
than a tag plus length header. -/
theorem fieldAtlasDeserGo_replicate_zero (m : Nat) (h : m % 5 ≠ 0) :
    ∀ fields, fieldAtlasDeserGo fields (List.replicate m 0) = none := by
  induction m using Nat.strong_induction_on with
  | _ m ih =>
      intro fields
      match m with
      | 0 => omega
      | 1 => simp [List.replicate, fieldAtlasDeserGo]
      | 2 => simp [List.replicate, fieldAtlasDeserGo]
      | 3 => simp [List.replicate, fieldAtlasDeserGo]
      | 4 => simp [List.replicate, fieldAtlasDeserGo]
      | m2 + 5 =>
          have hrep : List.replicate (m2 + 5) (0 : Nat) =
              0 :: 0 :: 0 :: 0 :: 0 :: List.replicate m2 0 := by
            simp [List.replicate_succ]
          rw [hrep, fieldAtlasDeserGo]
          have hlen0 : leToNat [0, 0, 0, 0] = 0 := by decide
          rw [hlen0]
          simp only [Nat.zero_le, if_pos, List.take_zero, List.drop_zero]
          exact ih m2 (by omega) (by omega) _

theorem entryAtlasDeserGo_replicate_zero (m : Nat) (h : m % 5 ≠ 0) :
    ∀ entries id, entryAtlasDeserGo entries id (List.replicate m 0) = none := by
  induction m using Nat.strong_induction_on with
  | _ m ih =>
      intro entries id
      match m with
      | 0 => omega
      | 1 => simp [List.replicate, entryAtlasDeserGo]
      | 2 => simp [List.replicate, entryAtlasDeserGo]
      | 3 => simp [List.replicate, entryAtlasDeserGo]
      | 4 => simp [List.replicate, entryAtlasDeserGo]
      | m2 + 5 =>
          have hrep : List.replicate (m2 + 5) (0 : Nat) =
              0 :: 0 :: 0 :: 0 :: 0 :: List.replicate m2 0 := by
            simp [List.replicate_succ]
          rw [hrep, entryAtlasDeserGo]
          have hlen0 : leToNat [0, 0, 0, 0] = 0 := by decide
          rw [hlen0]
          simp only [Nat.zero_le, if_pos, List.take_zero, List.drop_zero]
          exact ih m2 (by omega) (by omega) _ _

/-- Claim C9: FieldAtlas::deserialize (decode_fieldset) is a fatal decode
error exactly on malformed input: for every byte string the scan returns
none (a Rust slice panic) if and only if the stream is not a well-formed
TLV sequence - a field whose 4-byte length header is cut short or whose
stated length runs past the end of the input.  In particular no malformed
input ever yields a partial FieldSet of the fields before the corruption
point. -/
theorem claim_C9_decode_fieldset_fatal (data : Bytes) :
    FieldAtlas.deserialize data = none ↔ tlvWF data = false :=
  fieldAtlas_deserialize_none_iff data

/-- Witness for claim C9 at concrete inputs: a truncated length header and
a length running past the end are fatal, and a well-formed stream decodes. -/
theorem claim_C9_witness :
    FieldAtlas.deserialize [1, 5, 0] = none ∧
    FieldAtlas.deserialize [1, 5, 0, 0, 0, 97] = none ∧
    FieldAtlas.deserialize [1, 1, 0, 0, 0, 97] ≠ none := by
  refine ⟨?_, ?_, ?_⟩
  · exact (claim_C9_decode_fieldset_fatal [1, 5, 0]).mpr (by simp [tlvWF])
  · refine (claim_C9_decode_fieldset_fatal [1, 5, 0, 0, 0, 97]).mpr ?_
    rw [tlvWF]
    norm_num [leToNat]
  · intro hnone
    have := (claim_C9_decode_fieldset_fatal [1, 1, 0, 0, 0, 97]).mp hnone
    rw [tlvWF] at this
    norm_num [leToNat, tlvWF] at this

/-- Claim C1 (amended): SecretMemory::zeroize overwrites every byte of the
full capacity with zero and resets the logical length to 0, and
Database::zeroize invokes it on the master key; but the source defines no
Drop implementation for SecretMemory, so dropping the handle runs no zeroize
and the region content at drop time is whatever was last written. -/
theorem claim_C1_secret_memory_zeroize (s : SecretMemory) (db : Database) :
    (s.zeroize).data = List.replicate s.capacity 0 ∧
    (s.zeroize).length = 0 ∧
    (db.zeroize).masterKey = db.masterKey.zeroize ∧
    s.droppedBytes = s.data :=
  ⟨rfl, rfl, rfl, rfl⟩

/-- Claim C1 counterexample: the claim "on drop, secure_zero() runs
unconditionally" fails: a SecretMemory holding a written byte still holds
it at drop time and its logical length is not reset, because SecretMemory
has no Drop implementation. -/
theorem claim_C1_counterexample :
    SecretMemory.write (SecretMemory.new 4) 0 [1] =
      some ⟨4, 1, [1, 0, 0, 0]⟩ ∧
    SecretMemory.droppedBytes ⟨4, 1, [1, 0, 0, 0]⟩ ≠ List.replicate 4 0 ∧
    (⟨4, 1, [1, 0, 0, 0]⟩ : SecretMemory).length ≠ 0 := by
  refine ⟨?_, by decide, by decide⟩
  decide

/-- Claim C10 (amended): a PasswordEntry without a Name field (tag 1) gets
the empty logical name, is stored under the index key "password\x00", and a
get_password_entry with the empty name returns it - provided the entry
serialization round-trips (faWF: sizes below the u32 length cast). -/
theorem claim_C10_unnamed_password_entry (db : InteriorDatabase) (e : FieldAtlas)
    (hnoname : FieldAtlas.get e 1 = none) (hfa : faWF e = true) :
    passwordGetName e = [] ∧
    alistGet (passwordKey []) (db.setPasswordEntry e).index_by_name ≠ none ∧
    (db.setPasswordEntry e).getPasswordEntry [] = some (some e) := by
  have hname : passwordGetName e = [] := by
    rw [passwordGetName, FieldAtlas.getStr]
    rw [show smapGet 1 e = none from hnoname]
    rfl
  have hrt := fieldAtlas_deserialize_serialize e hfa
  refine ⟨hname, ?_, ?_⟩
  · rw [InteriorDatabase.setPasswordEntry, hname, dbUpsert]
    match hidx : alistGet (passwordKey []) db.index_by_name with
    | some id => simp [hidx]
    | none => simp [hidx, alistGet_cons_self]
  · rw [InteriorDatabase.setPasswordEntry, hname, dbUpsert]
    match hidx : alistGet (passwordKey []) db.index_by_name with
    | some id =>
        simp only [hidx]
        rw [InteriorDatabase.getPasswordEntry]
        simp only [hidx, smapGet_insert_self, hrt]
    | none =>
        simp only [hidx]
        rw [InteriorDatabase.getPasswordEntry]
        simp only [alistGet_cons_self, smapGet_insert_self, hrt]

/-- Witness for claim C10: a password entry holding only a username field
is retrievable under the empty name after insertion into the empty vault. -/
theorem claim_C10_witness :
    passwordGetName [(2, [104, 105])] = [] ∧
    (emptyInteriorDatabase.setPasswordEntry [(2, [104, 105])]).getPasswordEntry []
      = some (some [(2, [104, 105])]) := by
  have h := claim_C10_unnamed_password_entry emptyInteriorDatabase [(2, [104, 105])]
    (by decide) (by decide)
  exact ⟨h.1, h.2.2⟩

/-- Lookup helper: a found record whose stored bytes fail to re-decode
makes get_password_entry panic. -/
theorem getPasswordEntry_deser_none (db : InteriorDatabase) (name : Bytes)
    (id : Nat) (tb : Nat × Bytes)
    (h1 : alistGet (passwordKey name) db.index_by_name = some id)
    (h2 : smapGet id db.entries = some tb)
    (h3 : FieldAtlas.deserialize tb.2 = none) :
    db.getPasswordEntry name = none := by
  rw [InteriorDatabase.getPasswordEntry]
  simp only [h1, h2, h3]

/-- State reached by inserting the name-less password entry with one field
of 2^32 zero bytes into the empty vault. -/
theorem setPasswordEntry_big_state :
    (emptyInteriorDatabase.setPasswordEntry [(3, List.replicate U32 0)]) =
      ⟨1, [(0, (1, FieldAtlas.serialize [(3, List.replicate U32 0)]))],
        [(passwordKey [], 0)]⟩ := by
  have hname : passwordGetName [(3, List.replicate U32 0)] = [] := rfl
  rw [InteriorDatabase.setPasswordEntry, hname, dbUpsert]
  have hidx : alistGet (passwordKey []) emptyInteriorDatabase.index_by_name = none := rfl
  simp only [hidx]
  rfl

/-- Serialized form of the oversized entry: its u32 length header wraps to
zero. -/
theorem serialize_big_entry :
    FieldAtlas.serialize [(3, List.replicate U32 0)] =
      3 :: 0 :: 0 :: 0 :: 0 :: List.replicate U32 0 := by
  rw [FieldAtlas.serialize]
  simp only [List.flatMap_cons, List.flatMap_nil, List.append_nil,
    List.length_replicate]
  norm_num [leBytes]

/-- The wrapped record bytes no longer decode: after the zero-length field
the remaining 2^32 zero bytes end mid-header. -/
theorem deserialize_big_entry_none :
    FieldAtlas.deserialize (3 :: 0 :: 0 :: 0 :: 0 :: List.replicate U32 0) = none := by
  rw [FieldAtlas.deserialize, fieldAtlasDeserGo]
  have hlen0 : leToNat [0, 0, 0, 0] = 0 := by decide
  rw [hlen0]
  simp only [Nat.zero_le, if_pos, List.take_zero, List.drop_zero]
  rw [fieldAtlasDeserGo_replicate_zero U32 (by decide) _]

/-- Claim C10 counterexample: for a name-less PasswordEntry holding a field
of 2^32 bytes the claim fails: the stored record bytes carry a wrapped u32
length header, re-decoding them reads past the end of the input, and
get_password_entry with the empty name panics (none) instead of returning
the entry. -/
theorem claim_C10_counterexample :
    passwordGetName [(3, List.replicate U32 0)] = [] ∧
    (emptyInteriorDatabase.setPasswordEntry
      [(3, List.replicate U32 0)]).getPasswordEntry [] = none := by
  refine ⟨rfl, ?_⟩
  rw [setPasswordEntry_big_state]
  exact getPasswordEntry_deser_none _ []
    0 (1, FieldAtlas.serialize [(3, List.replicate U32 0)]) rfl rfl
    (serialize_big_entry ▸ deserialize_big_entry_none)

/-- Claim C6 (amended): for every vault built by set_password_entry and
set_meta_entry operations whose entries respect the u32 length casts (faWF)
and with fewer than 2^32 operations (so the u32 id counter cannot wrap),
deserialize of serialize reconstructs the vault exactly - encoding walks
records in ascending id order without storing ids, decoding reassigns each
record its 0-based stream position as id - and every get_password_entry and
get_meta_entry result is unchanged. -/
theorem claim_C6_serialize_roundtrip (ops : List VaultOp) (db : InteriorDatabase)
    (hwf : ∀ op ∈ ops, opWF op = true) (hlen : ops.length < U32)
    (happly : applyOps emptyInteriorDatabase ops = some db) :
    ∃ db2, InteriorDatabase.deserialize (InteriorDatabase.serialize db) = some db2 ∧
      db2 = db ∧
      (∀ name, db2.getPasswordEntry name = db.getPasswordEntry name) ∧
      (∀ name, db2.getMetaEntry name = db.getMetaEntry name) := by
  have h0 : applyOps (canonDb []) ops = some db := happly
  obtain ⟨rs2, happ2, hc2, hle2⟩ := applyOps_canonical ops [] hwf
    ⟨by simp, by simp⟩ (by simpa using hlen)
  rw [h0] at happ2
  have hdb : db = canonDb rs2 := Option.some.inj happ2
  subst hdb
  have hlen2 : rs2.length < U32 := by
    simp only [List.length_nil, Nat.zero_add] at hle2
    omega
  exact ⟨canonDb rs2, interior_roundtrip_canonical rs2 hc2.1 hc2.2 hlen2,
    rfl, fun _ => rfl, fun _ => rfl⟩

/-- ASCII letter a is valid UTF-8. -/
theorem utf8Valid_a : utf8Valid [97] = true :=
  utf8Valid_ascii [97] (by decide)

theorem metaGetName_97 (v : Bytes) : metaGetName (metaEntryNew [97] v) = some [97] := by
  rw [metaGetName, FieldAtlas.getStr]
  rw [show smapGet 1 (metaEntryNew [97] v) = some [97] from rfl]
  simp [utf8Valid_a]

/-- State reached by storing the meta entry (a, v) in the empty vault. -/
theorem applyMeta97_state (v : Bytes) :
    applyOps emptyInteriorDatabase [VaultOp.meta (metaEntryNew [97] v)] =
      some ⟨1, [(0, (0, FieldAtlas.serialize (metaEntryNew [97] v)))],
        [(metaKey [97], 0)]⟩ := by
  rw [applyOps, applyOp, InteriorDatabase.setMetaEntry]
  simp only [metaGetName_97]
  rw [dbUpsert]
  simp only [show alistGet (metaKey [97]) emptyInteriorDatabase.index_by_name = none
    from rfl]
  rfl

/-- Witness for claim C6: the one-meta-entry vault round-trips to itself. -/
theorem claim_C6_witness :
    ∃ db2, InteriorDatabase.deserialize (InteriorDatabase.serialize
        ⟨1, [(0, (0, FieldAtlas.serialize (metaEntryNew [97] [98])))],
          [(metaKey [97], 0)]⟩) = some db2 ∧
      db2 = ⟨1, [(0, (0, FieldAtlas.serialize (metaEntryNew [97] [98])))],
        [(metaKey [97], 0)]⟩ := by
  obtain ⟨db2, h1, h2, _, _⟩ := claim_C6_serialize_roundtrip
    [VaultOp.meta (metaEntryNew [97] [98])] _
    (by
      intro op hop
      simp only [List.mem_singleton] at hop
      subst hop
      rw [opWF]
      rw [show (metaGetName (metaEntryNew [97] [98])).isSome = true by
        rw [metaGetName_97]; rfl]
      rw [show faWF (metaEntryNew [97] [98]) = true from by decide]
      rfl)
    (by decide)
    (applyMeta97_state [98])
  exact ⟨db2, h1, h2⟩

/-- InteriorDatabase deserialize fails whenever the record-level scan
fails. -/
theorem interiorDeserialize_none (data : Bytes)
    (h : EntryAtlas.deserialize data = none) :
    InteriorDatabase.deserialize data = none := by
  rw [InteriorDatabase.deserialize, h]
  rfl

/-- Serialized form of the meta entry (a, 2^32 zero bytes): its u32 value
length header wraps to zero. -/
theorem serialize_big_meta :
    FieldAtlas.serialize (metaEntryNew [97] (List.replicate U32 0)) =
      1 :: 1 :: 0 :: 0 :: 0 :: 97 :: 2 :: 0 :: 0 :: 0 :: 0 :: List.replicate U32 0 := by
  rw [show metaEntryNew [97] (List.replicate U32 0) =
    [(1, [97]), (2, List.replicate U32 0)] from rfl]
  rw [FieldAtlas.serialize]
  simp only [List.flatMap_cons, List.flatMap_nil, List.append_nil,
    List.length_replicate]
  rw [show leBytes 4 [97].length = [1, 0, 0, 0] from by norm_num [leBytes]]
  rw [show leBytes 4 U32 = [0, 0, 0, 0] from by norm_num [leBytes]]
  simp only [List.cons_append, List.nil_append]

theorem len_cons11 (l : List Nat) :
    (1 :: 1 :: 0 :: 0 :: 0 :: 97 :: 2 :: 0 :: 0 :: 0 :: 0 :: l).length =
      l.length + 11 := by
  simp only [List.length_cons]

theorem serialize_big_meta_length :
    (FieldAtlas.serialize (metaEntryNew [97] (List.replicate U32 0))).length =
      U32 + 11 := by
  rw [serialize_big_meta, len_cons11, List.length_replicate]

/-- Claim C6 counterexample: a vault holding one meta entry whose value has
2^32 bytes is reachable by one set_meta_entry operation, but deserializing
its serialization is a fatal error (the wrapped u32 length header makes the
scan read a spurious record list that ends past the end of the input), so
the round trip does not return the vault. -/
theorem claim_C6_counterexample :
    applyOps emptyInteriorDatabase
        [VaultOp.meta (metaEntryNew [97] (List.replicate U32 0))] =
      some ⟨1, [(0, (0, FieldAtlas.serialize (metaEntryNew [97] (List.replicate U32 0))))],
        [(metaKey [97], 0)]⟩ ∧
    InteriorDatabase.deserialize (InteriorDatabase.serialize
        ⟨1, [(0, (0, FieldAtlas.serialize (metaEntryNew [97] (List.replicate U32 0))))],
          [(metaKey [97], 0)]⟩) = none := by
  refine ⟨applyMeta97_state (List.replicate U32 0), ?_⟩
  have hser : InteriorDatabase.serialize
      ⟨1, [(0, (0, FieldAtlas.serialize (metaEntryNew [97] (List.replicate U32 0))))],
        [(metaKey [97], 0)]⟩ =
      0 :: 11 :: 0 :: 0 :: 0 :: 1 :: 1 :: 0 :: 0 :: 0 :: 97 :: 2 :: 0 :: 0 :: 0 :: 0 ::
        List.replicate U32 0 := by
    rw [InteriorDatabase.serialize, EntryAtlas.serialize]
    simp only [List.flatMap_cons, List.flatMap_nil, List.append_nil]
    rw [serialize_big_meta_length]
    rw [show leBytes 4 (U32 + 11) = [11, 0, 0, 0] from by norm_num [leBytes]]
    rw [serialize_big_meta]
    simp only [List.cons_append, List.nil_append]
  rw [hser]
  refine interiorDeserialize_none _ ?_
  rw [EntryAtlas.deserialize, entryAtlasDeserGo]
  rw [show leToNat [11, 0, 0, 0] = 11 from by decide]
  rw [if_pos (by rw [len_cons11, List.length_replicate]; omega)]
  rw [show List.take 11 (1 :: 1 :: 0 :: 0 :: 0 :: 97 :: 2 :: 0 :: 0 :: 0 :: 0 ::
    List.replicate U32 0) = [1, 1, 0, 0, 0, 97, 2, 0, 0, 0, 0] from by
      simp only [List.take_succ_cons, List.take_zero]]
  rw [show List.drop 11 (1 :: 1 :: 0 :: 0 :: 0 :: 97 :: 2 :: 0 :: 0 :: 0 :: 0 ::
    List.replicate U32 0) = List.replicate U32 0 from by
      simp only [List.drop_succ_cons, List.drop_zero]]
  exact entryAtlasDeserGo_replicate_zero U32 (by decide) _ _

/-!
Claim C7: Database::meta_only.  The filtering loop keeps exactly the Meta
records, indexing the intermediate atlas from 1, but the result goes
through from_entry_atlas, which replays the records and assigns ids densely
from 0.
-/

theorem recWF_tag (r : Nat × Bytes) (h : recWF r = true) : r.1 = 0 ∨ r.1 = 1 := by
  simp only [recWF, Bool.and_eq_true, decide_eq_true_eq, Bool.or_eq_true,
    beq_iff_eq] at h
  exact h.1.1

theorem recKeyD_tag0 (r : Nat × Bytes) (h : recWF r = true) (h0 : r.1 = 0) :
    ∃ nm, recKeyD r = metaKey nm := by
  simp only [recWF, Bool.and_eq_true, decide_eq_true_eq, Bool.or_eq_true,
    beq_iff_eq] at h
  obtain ⟨_, hc⟩ := h
  match hdeser : FieldAtlas.deserialize r.2 with
  | none => rw [hdeser] at hc; exact absurd hc (by simp)
  | some fa =>
      rw [hdeser] at hc
      simp only [Bool.and_eq_true, beq_iff_eq] at hc
      obtain ⟨_, hkeysome⟩ := hc
      rcases hmn : metaGetName fa with _ | nm
      · rw [recKeyOfBytes, hdeser, h0] at hkeysome
        simp [hmn] at hkeysome
      · refine ⟨nm, ?_⟩
        rw [recKeyD, recKeyOfBytes, hdeser, h0]
        simp [hmn]

theorem recKeyD_tag1 (r : Nat × Bytes) (h : recWF r = true) (h1 : r.1 = 1) :
    ∃ nm, recKeyD r = passwordKey nm := by
  simp only [recWF, Bool.and_eq_true, decide_eq_true_eq, Bool.or_eq_true,
    beq_iff_eq] at h
  obtain ⟨_, hc⟩ := h
  match hdeser : FieldAtlas.deserialize r.2 with
  | none => rw [hdeser] at hc; exact absurd hc (by simp)
  | some fa =>
      refine ⟨passwordGetName fa, ?_⟩
      rw [recKeyD, recKeyOfBytes, hdeser, h1]
      simp

theorem metaKey_ne_passwordKey (a b : Bytes) : metaKey a ≠ passwordKey b := by
  intro h
  simp [metaKey, passwordKey] at h

theorem recKey_meta_tag0 (r : Nat × Bytes) (h : recWF r = true) (name : Bytes)
    (hk : recKeyD r = metaKey name) : r.1 = 0 := by
  rcases recWF_tag r h with h0 | h1
  · exact h0
  · obtain ⟨nm, hnm⟩ := recKeyD_tag1 r h h1
    rw [hnm] at hk
    exact absurd hk.symm (metaKey_ne_passwordKey name nm)

theorem rec_unique (rs : List (Nat × Bytes)) (hnodup : (rs.map recKeyD).Nodup)
    (key : Bytes) (j : Nat) (r r2 : Nat × Bytes)
    (hj : recFindIdx key rs = some j) (hget : rs.get? j = some r)
    (hr2 : r2 ∈ rs) (hk2 : recKeyD r2 = key) : r2 = r := by
  obtain ⟨i, hi⟩ := List.get?_of_mem hr2
  have h2 := recFindIdx_of_get rs hnodup i r2 hi
  rw [hk2, hj] at h2
  injection h2 with h2
  subst h2
  rw [hget] at hi
  injection hi with hi
  exact hi.symm

theorem metaOnly_canonical (rs : List (Nat × Bytes))
    (hwfr : ∀ r ∈ rs, recWF r = true) (hnodup : (rs.map recKeyD).Nodup)
    (hlen : rs.length < U32) :
    InteriorDatabase.metaOnly (canonDb rs) =
      some (canonDb (rs.filter (fun r => r.1 == 0))) := by
  have hfle := List.length_filter_le (fun r : Nat × Bytes => r.1 == 0) rs
  have h1 : metaOnlyGo [] 1 (canonEntries rs 0) =
      some (canonEntries (rs.filter (fun r => r.1 == 0)) 1) := by
    have := metaOnlyGo_filter rs (canonEntries rs 0) (canonEntries_map_snd rs 0)
      (fun r hr => recWF_tag r (hwfr r hr)) [] 1 (by simp) (by omega)
    simpa using this
  rw [InteriorDatabase.metaOnly]
  show (metaOnlyGo [] 1 (canonEntries rs 0)).bind _ = _
  rw [h1]
  show InteriorDatabase.fromEntryAtlas
    (canonEntries (rs.filter (fun r => r.1 == 0)) 1) = _
  rw [InteriorDatabase.fromEntryAtlas]
  have h2 := fromEntryAtlasGo_canonical (rs.filter (fun r => r.1 == 0)) []
    (canonEntries (rs.filter (fun r => r.1 == 0)) 1)
    (canonEntries_map_snd _ 1)
    (fun r hr => hwfr r (List.mem_of_mem_filter hr))
    (by
      simp only [List.nil_append]
      exact List.Nodup.sublist (List.Sublist.map recKeyD (List.filter_sublist rs))
        hnodup)
    (by simp only [List.length_nil, Nat.zero_add]; omega)
  simpa using h2
/-- Claim C7 (amended): for every reachable vault, meta_only succeeds and
returns a vault holding exactly the Meta records in their original order,
renumbered with fresh sequential ids starting at 0 - not 1: the filtering
loop numbers the intermediate atlas from 1, but from_entry_atlas replays it
and reassigns ids densely from 0 - with every get_meta_entry result
preserved and no password record present or reachable by any name. -/
theorem claim_C7_meta_only (ops : List VaultOp) (db : InteriorDatabase)
    (hwf : ∀ op ∈ ops, opWF op = true) (hlen : ops.length < U32)
    (happly : applyOps emptyInteriorDatabase ops = some db) :
    ∃ db2, db.metaOnly = some db2 ∧
      db2.entries = canonEntries ((db.entries.map Prod.snd).filter
        (fun r => r.1 == 0)) 0 ∧
      (∀ name, db2.getMetaEntry name = db.getMetaEntry name) ∧
      (∀ name, db2.getPasswordEntry name = some none) := by
  have h0 : applyOps (canonDb []) ops = some db := happly
  obtain ⟨rs, happ2, hc, hle⟩ := applyOps_canonical ops [] hwf
    ⟨by simp, by simp⟩ (by simpa using hlen)
  rw [h0] at happ2
  have hdb : db = canonDb rs := Option.some.inj happ2
  subst hdb
  have hlen2 : rs.length < U32 := by
    simp only [List.length_nil, Nat.zero_add] at hle
    omega
  have hnodup2 : ((rs.filter (fun r => r.1 == 0)).map recKeyD).Nodup :=
    List.Nodup.sublist (List.Sublist.map recKeyD (List.filter_sublist rs)) hc.2
  refine ⟨canonDb (rs.filter (fun r => r.1 == 0)),
    metaOnly_canonical rs hc.1 hc.2 hlen2, ?_, ?_, ?_⟩
  · show canonEntries (rs.filter (fun r => r.1 == 0)) 0 =
      canonEntries (((canonEntries rs 0).map Prod.snd).filter
        (fun r => r.1 == 0)) 0
    rw [canonEntries_map_snd]
  · intro name
    rw [getMetaEntry_canonDb _ hnodup2 name, getMetaEntry_canonDb rs hc.2 name]
    match hfind : recFindIdx (metaKey name) rs with
    | none =>
        have hnone2 : recFindIdx (metaKey name) (rs.filter (fun r => r.1 == 0)) =
            none := by
          rw [recFindIdx_none_iff] at hfind ⊢
          exact fun r hr => hfind r (List.mem_of_mem_filter hr)
        rw [hnone2]
    | some j =>
        obtain ⟨hjlt, r, hget, hkey⟩ := recFindIdx_some_get (metaKey name) rs j hfind
        have hmem : r ∈ rs := List.get?_mem hget
        have htag0 : r.1 = 0 := recKey_meta_tag0 r (hc.1 r hmem) name hkey
        have hrf : r ∈ rs.filter (fun r => r.1 == 0) :=
          List.mem_filter.mpr ⟨hmem, by simp [htag0]⟩
        match hfind2 : recFindIdx (metaKey name) (rs.filter (fun r => r.1 == 0)) with
        | none =>
            exact absurd hkey ((recFindIdx_none_iff _ _).mp hfind2 r hrf)
        | some j2 =>
            obtain ⟨hjlt2, r2, hget2, hkey2⟩ :=
              recFindIdx_some_get _ _ j2 hfind2
            have hr2 : r2 = r := rec_unique rs hc.2 (metaKey name) j r r2 hfind hget
              (List.mem_of_mem_filter (List.get?_mem hget2)) hkey2
            simp only [hget, hget2, hr2]
  · intro name
    rw [getPasswordEntry_canonDb _ hnodup2 name]
    have hnone : recFindIdx (passwordKey name) (rs.filter (fun r => r.1 == 0)) =
        none := by
      rw [recFindIdx_none_iff]
      intro r hr
      have hmem := List.mem_of_mem_filter hr
      have htag : r.1 = 0 := by
        have := (List.mem_filter.mp hr).2
        simpa using this
      obtain ⟨nm, hnm⟩ := recKeyD_tag0 r (hc.1 r hmem) htag
      rw [hnm]
      exact metaKey_ne_passwordKey nm name
    rw [hnone]
theorem recWF_small_meta :
    recWF (0, FieldAtlas.serialize (metaEntryNew [97] [98])) = true := by
  have hdeser := fieldAtlas_deserialize_serialize (metaEntryNew [97] [98]) (by decide)
  rw [recWF]
  simp only [hdeser]
  simp only [recKeyOfBytes, hdeser]
  simp [metaGetName_97]
  decide

theorem recKeyD_small_meta :
    recKeyD (0, FieldAtlas.serialize (metaEntryNew [97] [98])) = metaKey [97] := by
  have hdeser := fieldAtlas_deserialize_serialize (metaEntryNew [97] [98]) (by decide)
  rw [recKeyD, recKeyOfBytes]
  simp only [hdeser]
  simp [metaGetName_97]

/-- Claim C7 counterexample: in the one-meta-record vault the derived vault
of meta_only carries its record under id 0, and no record under id 1: the
renumbering starts at 0, not 1. -/
theorem claim_C7_counterexample :
    ∃ db2, InteriorDatabase.metaOnly
        ⟨1, [(0, (0, FieldAtlas.serialize (metaEntryNew [97] [98])))],
          [(metaKey [97], 0)]⟩ = some db2 ∧
      smapGet 0 db2.entries =
        some (0, FieldAtlas.serialize (metaEntryNew [97] [98])) ∧
      smapGet 1 db2.entries = none := by
  have h := metaOnly_canonical
    [(0, FieldAtlas.serialize (metaEntryNew [97] [98]))]
    (by
      intro r hr
      simp only [List.mem_singleton] at hr
      subst hr
      exact recWF_small_meta)
    (by simp)
    (by norm_num)
  have hfilter : ([(0, FieldAtlas.serialize (metaEntryNew [97] [98]))]).filter
      (fun r => r.1 == 0) = [(0, FieldAtlas.serialize (metaEntryNew [97] [98]))] := rfl
  rw [hfilter] at h
  have hdb : canonDb [(0, FieldAtlas.serialize (metaEntryNew [97] [98]))] =
      ⟨1, [(0, (0, FieldAtlas.serialize (metaEntryNew [97] [98])))],
        [(metaKey [97], 0)]⟩ := by
    rw [show canonDb [(0, FieldAtlas.serialize (metaEntryNew [97] [98]))] =
      ⟨1, [(0, (0, FieldAtlas.serialize (metaEntryNew [97] [98])))],
        [(recKeyD (0, FieldAtlas.serialize (metaEntryNew [97] [98])), 0)]⟩ from rfl]
    rw [recKeyD_small_meta]
  rw [hdb] at h
  exact ⟨_, h, rfl, rfl⟩

/-- Witness for claim C7 at the one-meta-entry vault. -/
theorem claim_C7_witness :
    ∃ db2, (⟨1, [(0, (0, FieldAtlas.serialize (metaEntryNew [97] [98])))],
        [(metaKey [97], 0)]⟩ : InteriorDatabase).metaOnly = some db2 ∧
      db2.entries = canonEntries
        (((⟨1, [(0, (0, FieldAtlas.serialize (metaEntryNew [97] [98])))],
          [(metaKey [97], 0)]⟩ : InteriorDatabase).entries.map Prod.snd).filter
          (fun r => r.1 == 0)) 0 ∧
      (∀ name, InteriorDatabase.getMetaEntry
          (⟨1, [(0, (0, FieldAtlas.serialize (metaEntryNew [97] [98])))],
            [(metaKey [97], 0)]⟩ : InteriorDatabase) name =
        InteriorDatabase.getMetaEntry
          (⟨1, [(0, (0, FieldAtlas.serialize (metaEntryNew [97] [98])))],
            [(metaKey [97], 0)]⟩ : InteriorDatabase) name) ∧
      (∀ name, db2.getPasswordEntry name = some none) := by
  obtain ⟨db2, h1, h2, h3, h4⟩ := claim_C7_meta_only
    [VaultOp.meta (metaEntryNew [97] [98])] _
    (by
      intro op hop
      simp only [List.mem_singleton] at hop
      subst hop
      rw [opWF]
      rw [show (metaGetName (metaEntryNew [97] [98])).isSome = true by
        rw [metaGetName_97]; rfl]
      rw [show faWF (metaEntryNew [97] [98]) = true from by decide]
      rfl)
    (by decide)
    (applyMeta97_state [98])
  exact ⟨db2, h1, h2, fun name => rfl, h4⟩

/-!
Claim C8: index and record map consistency on reachable states, and id
reuse on updates to an indexed kind+name pair.
-/

theorem canonEntries_length (rs : List (Nat × Bytes)) (s : Nat) :
    (canonEntries rs s).length = rs.length := by
  induction rs generalizing s with
  | nil => rfl
  | cons r rest ih => simp [canonEntries, ih]

theorem recKeyD_tag0_name (r : Nat × Bytes) (h : recWF r = true) (h0 : r.1 = 0)
    (fa : FieldAtlas) (hdeser : FieldAtlas.deserialize r.2 = some fa) :
    ∃ nm, metaGetName fa = some nm ∧ recKeyD r = metaKey nm := by
  simp only [recWF, Bool.and_eq_true, decide_eq_true_eq, Bool.or_eq_true,
    beq_iff_eq] at h
  obtain ⟨_, hc⟩ := h
  rw [hdeser] at hc
  simp only [Bool.and_eq_true, beq_iff_eq] at hc
  obtain ⟨_, hkeysome⟩ := hc
  rcases hmn : metaGetName fa with _ | nm
  · rw [recKeyOfBytes, hdeser, h0] at hkeysome
    simp [hmn] at hkeysome
  · refine ⟨nm, rfl, ?_⟩
    rw [recKeyD, recKeyOfBytes, hdeser, h0]
    simp [hmn]

theorem recKeyD_tag1_name (r : Nat × Bytes) (h : recWF r = true) (h1 : r.1 = 1)
    (fa : FieldAtlas) (hdeser : FieldAtlas.deserialize r.2 = some fa) :
    recKeyD r = passwordKey (passwordGetName fa) := by
  rw [recKeyD, recKeyOfBytes, hdeser, h1]
  simp

/-- Claim C8 (amended): in every vault state reachable by well-formed
operations the name index and the record map are consistent: every indexed
key resolves to a stored record, every stored record is indexed under its
kind+name key and returned by the matching get, and a set on an already
indexed kind+name pair reuses the indexed id, overwrites that record in
place, and leaves next_id, the index, and the record count unchanged. -/
theorem claim_C8_index_record_consistency (ops : List VaultOp)
    (db : InteriorDatabase) (hwf : ∀ op ∈ ops, opWF op = true)
    (hlen : ops.length < U32)
    (happly : applyOps emptyInteriorDatabase ops = some db) :
    (∀ key id, alistGet key db.index_by_name = some id →
      (smapGet id db.entries).isSome) ∧
    (∀ id tb, smapGet id db.entries = some tb →
      ∃ fa, FieldAtlas.deserialize tb.2 = some fa ∧
        (tb.1 = 0 → ∃ nm, metaGetName fa = some nm ∧
          alistGet (metaKey nm) db.index_by_name = some id ∧
          db.getMetaEntry nm = some (some fa)) ∧
        (tb.1 = 1 →
          alistGet (passwordKey (passwordGetName fa)) db.index_by_name = some id ∧
          db.getPasswordEntry (passwordGetName fa) = some (some fa))) ∧
    (∀ e id, alistGet (passwordKey (passwordGetName e)) db.index_by_name = some id →
      (db.setPasswordEntry e).next_id = db.next_id ∧
      (db.setPasswordEntry e).index_by_name = db.index_by_name ∧
      (db.setPasswordEntry e).entries =
        smapInsert id (1, FieldAtlas.serialize e) db.entries ∧
      ((db.setPasswordEntry e).entries).length = db.entries.length) ∧
    (∀ e nm id, metaGetName e = some nm →
      alistGet (metaKey nm) db.index_by_name = some id →
      db.setMetaEntry e = some ⟨db.next_id,
        smapInsert id (0, FieldAtlas.serialize e) db.entries,
        db.index_by_name⟩ ∧
      (smapInsert id (0, FieldAtlas.serialize e) db.entries).length =
        db.entries.length) := by
  have h0 : applyOps (canonDb []) ops = some db := happly
  obtain ⟨rs, happ2, hc, hle⟩ := applyOps_canonical ops [] hwf
    ⟨by simp, by simp⟩ (by simpa using hlen)
  rw [h0] at happ2
  have hdb : db = canonDb rs := Option.some.inj happ2
  subst hdb
  have hIdx : ∀ key id, alistGet key (canonDb rs).index_by_name = some id →
      recFindIdx key rs = some id := by
    intro key id halist
    simp only [canonDb] at halist
    rw [alistGet_canonIndexAux_eq rs _ [] 0 hc.2] at halist
    match hfind : recFindIdx key rs with
    | none =>
        simp only [hfind] at halist
        simp [alistGet] at halist
    | some i =>
        simp only [hfind, Nat.zero_add] at halist
        exact halist
  have hGetEq : ∀ id, smapGet id (canonDb rs).entries = rs.get? id := by
    intro id
    simp only [canonDb]
    rw [smapGet_canonEntries, if_pos (Nat.zero_le id), Nat.sub_zero]
  have hpart1 : ∀ key id, alistGet key (canonDb rs).index_by_name = some id →
      (smapGet id (canonDb rs).entries).isSome := by
    intro key id halist
    obtain ⟨hlt, r, hget, _⟩ := recFindIdx_some_get _ _ _ (hIdx _ _ halist)
    rw [hGetEq, hget]
    rfl
  refine ⟨hpart1, ?_, ?_, ?_⟩
  · intro id tb hget
    rw [hGetEq] at hget
    have hmem : tb ∈ rs := List.get?_mem hget
    have hwfr := hc.1 tb hmem
    have h' := hwfr
    simp only [recWF, Bool.and_eq_true, decide_eq_true_eq, Bool.or_eq_true,
      beq_iff_eq] at h'
    obtain ⟨⟨htag, _⟩, hcanon⟩ := h'
    match hdeser : FieldAtlas.deserialize tb.2 with
    | none => rw [hdeser] at hcanon; exact absurd hcanon (by simp)
    | some fa =>
        refine ⟨fa, rfl, ?_, ?_⟩
        · intro h0t
          obtain ⟨nm, hnm, hkey⟩ := recKeyD_tag0_name tb hwfr h0t fa hdeser
          have hfind : recFindIdx (metaKey nm) rs = some id := by
            have h2 := recFindIdx_of_get rs hc.2 id tb hget
            rwa [hkey] at h2
          refine ⟨nm, hnm, ?_, ?_⟩
          · simp only [canonDb]
            rw [alistGet_canonIndexAux_eq rs _ [] 0 hc.2]
            simp [hfind]
          · rw [getMetaEntry_canonDb rs hc.2 nm]
            simp only [hfind, hget, hdeser]
        · intro h1t
          have hkey := recKeyD_tag1_name tb hwfr h1t fa hdeser
          have hfind : recFindIdx (passwordKey (passwordGetName fa)) rs = some id := by
            have h2 := recFindIdx_of_get rs hc.2 id tb hget
            rwa [hkey] at h2
          refine ⟨?_, ?_⟩
          · simp only [canonDb]
            rw [alistGet_canonIndexAux_eq rs _ [] 0 hc.2]
            simp [hfind]
          · rw [getPasswordEntry_canonDb rs hc.2 _]
            simp only [hfind, hget, hdeser]
  · intro e id halist
    obtain ⟨hjlt, _, _, _⟩ := recFindIdx_some_get _ _ _ (hIdx _ _ halist)
    have hstate : (canonDb rs).setPasswordEntry e =
        ⟨(canonDb rs).next_id,
          smapInsert id (1, FieldAtlas.serialize e) (canonDb rs).entries,
          (canonDb rs).index_by_name⟩ := by
      rw [InteriorDatabase.setPasswordEntry, dbUpsert]
      simp only [halist]
    refine ⟨by rw [hstate], by rw [hstate], by rw [hstate], ?_⟩
    rw [hstate]
    show (smapInsert id (1, FieldAtlas.serialize e) (canonEntries rs 0)).length =
      (canonEntries rs 0).length
    rw [show smapInsert id (1, FieldAtlas.serialize e) (canonEntries rs 0) =
      canonEntries (rs.set id (1, FieldAtlas.serialize e)) 0 from by
        simpa using smapInsert_canonEntries_set rs 0 id (1, FieldAtlas.serialize e) hjlt]
    rw [canonEntries_length, canonEntries_length, List.length_set]
  · intro e nm id hnm halist
    obtain ⟨hjlt, _, _, _⟩ := recFindIdx_some_get _ _ _ (hIdx _ _ halist)
    constructor
    · rw [InteriorDatabase.setMetaEntry]
      simp only [hnm]
      rw [dbUpsert]
      simp only [halist]
    · show (smapInsert id (0, FieldAtlas.serialize e) (canonEntries rs 0)).length =
        (canonEntries rs 0).length
      rw [show smapInsert id (0, FieldAtlas.serialize e) (canonEntries rs 0) =
        canonEntries (rs.set id (0, FieldAtlas.serialize e)) 0 from by
          simpa using smapInsert_canonEntries_set rs 0 id (0, FieldAtlas.serialize e) hjlt]
      rw [canonEntries_length, canonEntries_length, List.length_set]
/-- Claim C8 counterexample: one set_password_entry with a 2^32-byte field
produces a reachable state whose record is stored and indexed under its
kind+name key, yet not reachable through it: get_password_entry on that key
panics instead of returning the record, because the stored bytes carry a
wrapped u32 length header and no longer decode. -/
theorem claim_C8_counterexample :
    applyOps emptyInteriorDatabase [VaultOp.pw [(3, List.replicate U32 0)]] =
      some (emptyInteriorDatabase.setPasswordEntry [(3, List.replicate U32 0)]) ∧
    alistGet (passwordKey [])
      (emptyInteriorDatabase.setPasswordEntry
        [(3, List.replicate U32 0)]).index_by_name = some 0 ∧
    (smapGet 0 (emptyInteriorDatabase.setPasswordEntry
      [(3, List.replicate U32 0)]).entries).isSome = true ∧
    (emptyInteriorDatabase.setPasswordEntry
      [(3, List.replicate U32 0)]).getPasswordEntry [] = none := by
  refine ⟨rfl, ?_, ?_, ?_⟩
  · rw [setPasswordEntry_big_state]
    exact alistGet_cons_self _ _ _
  · rw [setPasswordEntry_big_state]
    rfl
  · rw [setPasswordEntry_big_state]
    exact getPasswordEntry_deser_none _ []
      0 (1, FieldAtlas.serialize [(3, List.replicate U32 0)]) rfl rfl
      (serialize_big_entry ▸ deserialize_big_entry_none)

/-- Witness for claim C8 at the one-meta-entry vault. -/
theorem claim_C8_witness :
    ∃ db, applyOps emptyInteriorDatabase
        [VaultOp.meta (metaEntryNew [97] [98])] = some db ∧
      (∀ key id, alistGet key db.index_by_name = some id →
        (smapGet id db.entries).isSome) ∧
      (∀ id tb, smapGet id db.entries = some tb →
        ∃ fa, FieldAtlas.deserialize tb.2 = some fa ∧
          (tb.1 = 0 → ∃ nm, metaGetName fa = some nm ∧
            alistGet (metaKey nm) db.index_by_name = some id ∧
            db.getMetaEntry nm = some (some fa)) ∧
          (tb.1 = 1 →
            alistGet (passwordKey (passwordGetName fa)) db.index_by_name = some id ∧
            db.getPasswordEntry (passwordGetName fa) = some (some fa))) ∧
      (∀ e id, alistGet (passwordKey (passwordGetName e)) db.index_by_name =
          some id →
        (db.setPasswordEntry e).next_id = db.next_id ∧
        (db.setPasswordEntry e).index_by_name = db.index_by_name ∧
        (db.setPasswordEntry e).entries =
          smapInsert id (1, FieldAtlas.serialize e) db.entries ∧
        ((db.setPasswordEntry e).entries).length = db.entries.length) ∧
      (∀ e nm id, metaGetName e = some nm →
        alistGet (metaKey nm) db.index_by_name = some id →
        db.setMetaEntry e = some ⟨db.next_id,
          smapInsert id (0, FieldAtlas.serialize e) db.entries,
          db.index_by_name⟩ ∧
        (smapInsert id (0, FieldAtlas.serialize e) db.entries).length =
          db.entries.length) := by
  refine ⟨_, applyMeta97_state [98], ?_⟩
  exact claim_C8_index_record_consistency
    [VaultOp.meta (metaEntryNew [97] [98])] _
    (by
      intro op hop
      simp only [List.mem_singleton] at hop
      subst hop
      rw [opWF]
      rw [show (metaGetName (metaEntryNew [97] [98])).isSome = true by
        rw [metaGetName_97]; rfl]
      rw [show faWF (metaEntryNew [97] [98]) = true from by decide]
      rfl)
    (by decide)
    (applyMeta97_state [98])

/-!
Claim C2: erasure coding (src/linux/src/storage/persistence.rs
encode_erasure / decode_erasure).  The reed_solomon_erasure crate is
external to the repository; its GF(2^8) arithmetic (reduction polynomial
0x11d) is built here from first principles and the 8+4 MDS code is
modelled from the spec as polynomial evaluation and interpolation over
the points 0..11.  The chunk framing, blake3 validity check, valid-shard
counting and fail-closed behaviour follow the source of decode_erasure.
-/


/-- xtime: multiplication by x in GF(2^8) modulo x^8+x^4+x^3+x^2+1 (0x11d),
the field of the reed_solomon_erasure galois_8 backend. -/
def xtime (a : Nat) : Nat := if 128 ≤ a then (a * 2) ^^^ 285 else a * 2

/-- Russian-peasant product of a and the low k bits of b in GF(2^8). -/
def gmulN : Nat → Nat → Nat → Nat
  | 0, _, _ => 0
  | k + 1, a, b => (if b % 2 = 1 then a else 0) ^^^ gmulN k (xtime a) (b / 2)

def gmul (a b : Nat) : Nat := gmulN 8 a b

theorem xor_lt_256 {a b : Nat} (ha : a < 256) (hb : b < 256) : a ^^^ b < 256 :=
  Nat.xor_lt_two_pow (n := 8) ha hb

theorem testBit7_of_lt (x : Nat) (h : x < 256) : x.testBit 7 = decide (128 ≤ x) := by
  rw [Nat.testBit_to_div_mod]
  have h2 : x / 2 ^ 7 = 0 ∨ x / 2 ^ 7 = 1 := by omega
  rcases h2 with h2 | h2 <;> rw [h2] <;> simp <;> omega

theorem xtime_lt {a : Nat} (h : a < 256) : xtime a < 256 := by
  rw [xtime]
  by_cases h1 : 128 ≤ a
  · rw [if_pos h1]
    have hlt : a * 2 ^^^ 285 < 512 :=
      Nat.xor_lt_two_pow (n := 9) (by omega) (by omega)
    have hbit : (a * 2 ^^^ 285).testBit 8 = false := by
      rw [Nat.testBit_xor]
      have h8 : (a * 2).testBit 8 = true := by
        rw [Nat.testBit_to_div_mod]
        simp only [decide_eq_true_eq]
        omega
      have h285 : (285 : Nat).testBit 8 = true := by decide
      rw [h8, h285]
      rfl
    rw [Nat.testBit_to_div_mod] at hbit
    simp only [decide_eq_false_iff_not] at hbit
    have hd : (a * 2 ^^^ 285) / 2 ^ 8 = 0 ∨ (a * 2 ^^^ 285) / 2 ^ 8 = 1 := by
      omega
    rcases hd with h2 | h2
    · omega
    · rw [h2] at hbit; simp at hbit
  · rw [if_neg h1]; omega

theorem mul2_xor (a b : Nat) : (a ^^^ b) * 2 = a * 2 ^^^ b * 2 := by
  apply Nat.eq_of_testBit_eq
  intro i
  match i with
  | 0 =>
      rw [Nat.testBit_xor]
      rw [Nat.testBit_to_div_mod, Nat.testBit_to_div_mod, Nat.testBit_to_div_mod]
      simp [Nat.pow_zero, Nat.mul_mod_left]
  | i + 1 =>
      rw [Nat.testBit_xor, Nat.testBit_succ, Nat.testBit_succ, Nat.testBit_succ]
      rw [Nat.mul_div_cancel _ (by omega), Nat.mul_div_cancel _ (by omega),
        Nat.mul_div_cancel _ (by omega)]
      rw [Nat.testBit_xor]

theorem xor_left_comm (a b c : Nat) : a ^^^ (b ^^^ c) = b ^^^ (a ^^^ c) := by
  rw [← Nat.xor_assoc, Nat.xor_comm a b, Nat.xor_assoc]

theorem xor_xor_cancel (x y z : Nat) : (x ^^^ z) ^^^ (y ^^^ z) = x ^^^ y := by
  rw [Nat.xor_assoc, xor_left_comm z y, Nat.xor_self, Nat.xor_zero]

theorem xtime_xor {a b : Nat} (ha : a < 256) (hb : b < 256) :
    xtime (a ^^^ b) = xtime a ^^^ xtime b := by
  have hxab : a ^^^ b < 256 := xor_lt_256 ha hb
  have hbit := Nat.testBit_xor a b 7
  rw [testBit7_of_lt _ hxab, testBit7_of_lt _ ha, testBit7_of_lt _ hb] at hbit
  rw [xtime, xtime, xtime, mul2_xor]
  by_cases h1 : 128 ≤ a <;> by_cases h2 : 128 ≤ b
  · have hno : ¬ 128 ≤ a ^^^ b := by
      simp [h1, h2] at hbit
      omega
    rw [if_neg hno, if_pos h1, if_pos h2, xor_xor_cancel]
  · have hyes : 128 ≤ a ^^^ b := by
      simp [h1, h2] at hbit
      omega
    rw [if_pos hyes, if_pos h1, if_neg h2]
    rw [Nat.xor_assoc, Nat.xor_comm (b * 2) 285, ← Nat.xor_assoc]
  · have hyes : 128 ≤ a ^^^ b := by
      simp [h1, h2] at hbit
      omega
    rw [if_pos hyes, if_neg h1, if_pos h2, Nat.xor_assoc]
  · have hno : ¬ 128 ≤ a ^^^ b := by
      simp [h1, h2] at hbit
      omega
    rw [if_neg hno, if_neg h1, if_neg h2]

theorem xor_mod_two (a b : Nat) : (a ^^^ b) % 2 = a % 2 ^^^ b % 2 := by
  have h := Nat.testBit_xor a b 0
  rw [Nat.testBit_zero, Nat.testBit_zero, Nat.testBit_zero] at h
  rcases Nat.mod_two_eq_zero_or_one a with ha | ha <;>
    rcases Nat.mod_two_eq_zero_or_one b with hb | hb <;>
      rw [ha, hb] at h ⊢ <;> simp_all <;> omega

theorem xor_div_two (a b : Nat) : (a ^^^ b) / 2 = a / 2 ^^^ b / 2 := by
  apply Nat.eq_of_testBit_eq
  intro i
  rw [Nat.testBit_xor, ← Nat.testBit_succ, ← Nat.testBit_succ, ← Nat.testBit_succ,
    Nat.testBit_xor]

theorem gmulN_zero_right (k a : Nat) : gmulN k a 0 = 0 := by
  induction k generalizing a with
  | zero => rfl
  | succ k ih => simp [gmulN, ih]

theorem xtime_zero : xtime 0 = 0 := rfl

theorem gmulN_zero_left (k b : Nat) : gmulN k 0 b = 0 := by
  induction k generalizing b with
  | zero => rfl
  | succ k ih => simp [gmulN, xtime_zero, ih]

theorem gmulN_lt (k : Nat) : ∀ a b, a < 256 → gmulN k a b < 256 := by
  induction k with
  | zero => intro a b _; simp [gmulN]
  | succ k ih =>
      intro a b ha
      rw [gmulN]
      refine xor_lt_256 ?_ (ih _ _ (xtime_lt ha))
      by_cases h : b % 2 = 1 <;> simp [h, ha]

theorem gmulN_xor_right (k : Nat) : ∀ a b c,
    gmulN k a (b ^^^ c) = gmulN k a b ^^^ gmulN k a c := by
  induction k with
  | zero => intro a b c; simp [gmulN]
  | succ k ih =>
      intro a b c
      rw [gmulN, gmulN, gmulN, xor_mod_two, xor_div_two, ih]
      have hif : (if b % 2 ^^^ c % 2 = 1 then a else 0) =
          (if b % 2 = 1 then a else 0) ^^^ (if c % 2 = 1 then a else 0) := by
        rcases Nat.mod_two_eq_zero_or_one b with hb | hb <;>
          rcases Nat.mod_two_eq_zero_or_one c with hc | hc <;>
            rw [hb, hc] <;> simp
      rw [hif, Nat.xor_assoc, xor_left_comm (if c % 2 = 1 then a else 0),
        ← Nat.xor_assoc]

theorem gmulN_xor_left (k : Nat) : ∀ a b c, a < 256 → b < 256 →
    gmulN k (a ^^^ b) c = gmulN k a c ^^^ gmulN k b c := by
  induction k with
  | zero => intro a b c _ _; simp [gmulN]
  | succ k ih =>
      intro a b c ha hb
      rw [gmulN, gmulN, gmulN, xtime_xor ha hb, ih _ _ _ (xtime_lt ha) (xtime_lt hb)]
      have hif : (if c % 2 = 1 then a ^^^ b else 0) =
          (if c % 2 = 1 then a else 0) ^^^ (if c % 2 = 1 then b else 0) := by
        by_cases h : c % 2 = 1 <;> simp [h]
      rw [hif, Nat.xor_assoc, xor_left_comm (if c % 2 = 1 then b else 0),
        ← Nat.xor_assoc]

theorem gmul_lt {a b : Nat} (ha : a < 256) : gmul a b < 256 := gmulN_lt 8 a b ha

theorem gmul_xor_right (a b c : Nat) : gmul a (b ^^^ c) = gmul a b ^^^ gmul a c :=
  gmulN_xor_right 8 a b c

theorem gmul_xor_left (a b c : Nat) (ha : a < 256) (hb : b < 256) :
    gmul (a ^^^ b) c = gmul a c ^^^ gmul b c :=
  gmulN_xor_left 8 a b c ha hb

theorem gmul_zero_right (a : Nat) : gmul a 0 = 0 := gmulN_zero_right 8 a

theorem gmul_zero_left (b : Nat) : gmul 0 b = 0 := gmulN_zero_left 8 b

set_option maxRecDepth 4000

theorem pow_xor_add : ∀ i < 8, ∀ r < 256, r < 2 ^ i → 2 ^ i ^^^ r = 2 ^ i + r := by
  decide

/-- Bit-decomposition induction on a byte. -/
theorem byte_xor_induction (P : Nat → Prop) (h0 : P 0)
    (hb : ∀ i < 8, P (2 ^ i))
    (hx : ∀ i < 8, ∀ r, r < 2 ^ i → P (2 ^ i) → P r → P (2 ^ i ^^^ r)) :
    ∀ a, a < 256 → P a := by
  intro a
  induction a using Nat.strong_induction_on with
  | _ a ih =>
      intro ha
      match a with
      | 0 => exact h0
      | a + 1 =>
          have hne : a + 1 ≠ 0 := by omega
          have hle : 2 ^ Nat.log2 (a + 1) ≤ a + 1 := Nat.log2_self_le hne
          have hlt2 : a + 1 < 2 ^ (Nat.log2 (a + 1) + 1) := Nat.lt_log2_self
          have hi8 : Nat.log2 (a + 1) < 8 := (Nat.log2_lt hne).mpr ha
          have hr : (a + 1) - 2 ^ Nat.log2 (a + 1) < 2 ^ Nat.log2 (a + 1) := by
            have := Nat.pow_lt_pow_succ (a := 2) (n := Nat.log2 (a + 1)) ?_
            · omega
            · omega
          have hxa : 2 ^ Nat.log2 (a + 1) ^^^ ((a + 1) - 2 ^ Nat.log2 (a + 1)) =
              a + 1 := by
            rw [pow_xor_add _ hi8 _ (by omega) hr]
            omega
          rw [← hxa]
          refine hx _ hi8 _ hr (hb _ hi8) (ih _ ?_ ?_)
          · have h1 : 1 ≤ 2 ^ Nat.log2 (a + 1) := Nat.one_le_two_pow
            omega
          · omega

theorem gmul_basis_comm : ∀ i < 8, ∀ j < 8, gmul (2 ^ i) (2 ^ j) = gmul (2 ^ j) (2 ^ i) := by
  decide

theorem gmul_pow_comm (i : Nat) (hi : i < 8) : ∀ b, b < 256 →
    gmul (2 ^ i) b = gmul b (2 ^ i) := by
  refine byte_xor_induction _ ?_ ?_ ?_
  · rw [gmul_zero_right, gmul_zero_left]
  · intro j hj
    exact gmul_basis_comm i hi j hj
  · intro j hj r hr hpj hpr
    have hjlt : (2 : Nat) ^ j < 256 := by
      have : (2 : Nat) ^ j ≤ 2 ^ 7 := Nat.pow_le_pow_right (by omega) (by omega)
      omega
    have hrlt : r < 256 := by omega
    rw [gmul_xor_right, gmul_xor_left _ _ _ hjlt hrlt, hpj, hpr]

theorem gmul_comm (a b : Nat) (ha : a < 256) (hb : b < 256) :
    gmul a b = gmul b a := by
  revert b hb
  have h := byte_xor_induction (fun a => ∀ b, b < 256 → gmul a b = gmul b a) ?_ ?_ ?_ a ha
  · exact fun b hb => h b hb
  · intro b hb
    rw [gmul_zero_right, gmul_zero_left]
  · intro i hi b hb
    exact gmul_pow_comm i hi b hb
  · intro i hi r hr hpi hpr
    intro b hb
    have hilt : (2 : Nat) ^ i < 256 := by
      have : (2 : Nat) ^ i ≤ 2 ^ 7 := Nat.pow_le_pow_right (by omega) (by omega)
      omega
    have hrlt : r < 256 := by omega
    rw [gmul_xor_left _ _ _ hilt hrlt, gmul_xor_right, hpi b hb, hpr b hb]
theorem pow2_lt_256 {i : Nat} (hi : i < 8) : (2 : Nat) ^ i < 256 := by
  have h : (2 : Nat) ^ i ≤ 2 ^ 7 := Nat.pow_le_pow_right (by omega) (by omega)
  omega

theorem gmul_basis_assoc :
    ∀ i < 8, ∀ j < 8, ∀ k < 8,
      gmul (2 ^ i) (gmul (2 ^ j) (2 ^ k)) = gmul (gmul (2 ^ i) (2 ^ j)) (2 ^ k) := by
  decide

theorem gmul_assoc_bbb (i : Nat) (hi : i < 8) (j : Nat) (hj : j < 8) :
    ∀ c, c < 256 → gmul (2 ^ i) (gmul (2 ^ j) c) = gmul (gmul (2 ^ i) (2 ^ j)) c := by
  refine byte_xor_induction _ ?_ ?_ ?_
  · rw [gmul_zero_right, gmul_zero_right, gmul_zero_right]
  · intro k hk
    exact gmul_basis_assoc i hi j hj k hk
  · intro k hk r hr hpk hpr
    rw [gmul_xor_right, gmul_xor_right, gmul_xor_right, hpk, hpr]

theorem gmul_assoc_bb (i : Nat) (hi : i < 8) :
    ∀ b, b < 256 → ∀ c, c < 256 →
      gmul (2 ^ i) (gmul b c) = gmul (gmul (2 ^ i) b) c := by
  refine byte_xor_induction _ ?_ ?_ ?_
  · intro c hc
    rw [gmul_zero_left, gmul_zero_right, gmul_zero_left]
  · intro j hj
    exact gmul_assoc_bbb i hi j hj
  · intro j hj r hr hpj hpr c hc
    have hjlt := pow2_lt_256 hj
    have hilt := pow2_lt_256 hi
    have hrlt : r < 256 := by omega
    rw [gmul_xor_left _ _ _ hjlt hrlt,
      gmul_xor_right (2 ^ i) (gmul (2 ^ j) c) (gmul r c), hpj c hc, hpr c hc,
      gmul_xor_right (2 ^ i) (2 ^ j) r,
      gmul_xor_left _ _ _ (gmul_lt hilt) (gmul_lt hilt)]

theorem gmul_assoc (a : Nat) (ha : a < 256) :
    ∀ b, b < 256 → ∀ c, c < 256 →
      gmul a (gmul b c) = gmul (gmul a b) c := by
  revert a ha
  refine byte_xor_induction _ ?_ ?_ ?_
  · intro b hb c hc
    rw [gmul_zero_left, gmul_zero_left, gmul_zero_left]
  · intro i hi
    exact gmul_assoc_bb i hi
  · intro i hi r hr hpi hpr b hb c hc
    have hilt := pow2_lt_256 hi
    have hrlt : r < 256 := by omega
    rw [gmul_xor_left _ _ _ hilt hrlt, gmul_xor_left _ _ _ hilt hrlt,
      gmul_xor_left _ _ _ (gmul_lt hilt) (gmul_lt hrlt),
      hpi b hb c hc, hpr b hb c hc]

theorem gmul_one_both : ∀ a < 256, gmul a 1 = a ∧ gmul 1 a = a := by decide

def ginv (a : Nat) : Nat :=
  let a2 := gmul a a
  let a4 := gmul a2 a2
  let a8 := gmul a4 a4
  let a16 := gmul a8 a8
  let a32 := gmul a16 a16
  let a64 := gmul a32 a32
  let a128 := gmul a64 a64
  gmul a128 (gmul a64 (gmul a32 (gmul a16 (gmul a8 (gmul a4 a2)))))

theorem ginv_lt {a : Nat} (ha : a < 256) : ginv a < 256 := by
  rw [ginv]
  exact gmul_lt (gmul_lt (gmul_lt (gmul_lt (gmul_lt (gmul_lt (gmul_lt
    (gmul_lt ha)))))))

theorem gmul_ginv : ∀ a < 256, a ≠ 0 → gmul a (ginv a) = 1 := by decide

theorem ginv_zero : ginv 0 = 0 := by decide

/-- GF(2^8) with the 0x11d reduction polynomial, the field of the
reed_solomon_erasure galois_8 backend.  Modelled from the spec: the crate
itself is external to the repository. -/
structure GF where
  val : Nat
  lt : val < 256
deriving DecidableEq

theorem GF.ext {a b : GF} (h : a.val = b.val) : a = b := by
  cases a; cases b; simpa using h

instance : Zero GF := ⟨⟨0, by omega⟩⟩
instance : One GF := ⟨⟨1, by omega⟩⟩
instance : Add GF := ⟨fun a b => ⟨a.val ^^^ b.val, xor_lt_256 a.lt b.lt⟩⟩
instance : Mul GF := ⟨fun a b => ⟨gmul a.val b.val, gmul_lt a.lt⟩⟩
instance : Neg GF := ⟨fun a => a⟩
instance : Inv GF := ⟨fun a => ⟨ginv a.val, ginv_lt a.lt⟩⟩

theorem GF.add_val (a b : GF) : (a + b).val = a.val ^^^ b.val := rfl
theorem GF.mul_val (a b : GF) : (a * b).val = gmul a.val b.val := rfl
theorem GF.zero_val : (0 : GF).val = 0 := rfl
theorem GF.one_val : (1 : GF).val = 1 := rfl
theorem GF.inv_val (a : GF) : (a⁻¹).val = ginv a.val := rfl

set_option maxHeartbeats 1000000

theorem gf_add_assoc (a b c : GF) : a + b + c = a + (b + c) := GF.ext (by
  rw [GF.add_val, GF.add_val, GF.add_val, GF.add_val, Nat.xor_assoc])

theorem gf_zero_add (a : GF) : 0 + a = a := GF.ext (by
  rw [GF.add_val, GF.zero_val, Nat.zero_xor])

theorem gf_add_zero (a : GF) : a + 0 = a := GF.ext (by
  rw [GF.add_val, GF.zero_val, Nat.xor_zero])

theorem gf_add_comm (a b : GF) : a + b = b + a := GF.ext (by
  rw [GF.add_val, GF.add_val, Nat.xor_comm])

theorem gf_mul_assoc (a b c : GF) : a * b * c = a * (b * c) := GF.ext (by
  rw [GF.mul_val, GF.mul_val, GF.mul_val, GF.mul_val]
  exact (gmul_assoc a.val a.lt b.val b.lt c.val c.lt).symm)

theorem gf_one_mul (a : GF) : 1 * a = a := GF.ext (by
  rw [GF.mul_val, GF.one_val]
  exact (gmul_one_both a.val a.lt).2)

theorem gf_mul_one (a : GF) : a * 1 = a := GF.ext (by
  rw [GF.mul_val, GF.one_val]
  exact (gmul_one_both a.val a.lt).1)

theorem gf_left_distrib (a b c : GF) : a * (b + c) = a * b + a * c := GF.ext (by
  rw [GF.mul_val, GF.add_val, GF.add_val, GF.mul_val, GF.mul_val]
  exact gmul_xor_right a.val b.val c.val)

theorem gf_right_distrib (a b c : GF) : (a + b) * c = a * c + b * c := GF.ext (by
  rw [GF.mul_val, GF.add_val, GF.add_val, GF.mul_val, GF.mul_val]
  exact gmul_xor_left a.val b.val c.val a.lt b.lt)

theorem gf_zero_mul (a : GF) : 0 * a = 0 := GF.ext (by
  rw [GF.mul_val, GF.zero_val]
  exact gmul_zero_left a.val)

theorem gf_mul_zero (a : GF) : a * 0 = 0 := GF.ext (by
  rw [GF.mul_val, GF.zero_val]
  exact gmul_zero_right a.val)

theorem gf_mul_comm (a b : GF) : a * b = b * a := GF.ext (by
  rw [GF.mul_val, GF.mul_val]
  exact gmul_comm a.val b.val a.lt b.lt)

theorem gf_neg_add_cancel (a : GF) : -a + a = 0 := GF.ext (by
  show (a.val ^^^ a.val) = 0
  exact Nat.xor_self a.val)

theorem gf_mul_inv_cancel (a : GF) (ha : a ≠ 0) : a * a⁻¹ = 1 := GF.ext (by
  rw [GF.mul_val, GF.inv_val, GF.one_val]
  refine gmul_ginv a.val a.lt ?_
  intro hv
  exact ha (GF.ext hv))

theorem gf_inv_zero : (0 : GF)⁻¹ = 0 := GF.ext (by
  rw [GF.inv_val, GF.zero_val, ginv_zero])

instance instCommRingGF : CommRing GF where
  add := (. + .)
  mul := (. * .)
  zero := 0
  one := 1
  neg := fun a => a
  nsmul := nsmulRec
  zsmul := zsmulRec
  add_assoc := gf_add_assoc
  zero_add := gf_zero_add
  add_zero := gf_add_zero
  add_comm := gf_add_comm
  mul_assoc := gf_mul_assoc
  one_mul := gf_one_mul
  mul_one := gf_mul_one
  left_distrib := gf_left_distrib
  right_distrib := gf_right_distrib
  zero_mul := gf_zero_mul
  mul_zero := gf_mul_zero
  mul_comm := gf_mul_comm
  neg_add_cancel := gf_neg_add_cancel
instance instFieldGF : Field GF where
  __ := instCommRingGF
  inv := fun a => a⁻¹
  exists_pair_ne := ⟨0, 1, by decide⟩
  mul_inv_cancel := gf_mul_inv_cancel
  inv_zero := gf_inv_zero
  nnqsmul := _
  nnqsmul_def := fun _ _ => rfl
  qsmul := _
  qsmul_def := fun _ _ => rfl

theorem gf_test_sub (a b : GF) : a - b = a + b := by
  rw [sub_eq_add_neg]
  rfl

theorem gf_test_div (a b : GF) : a / b = a * b⁻¹ := div_eq_mul_inv a b
def toGF (n : Nat) : GF := ⟨n % 256, Nat.mod_lt _ (by omega)⟩

theorem toGF_val (g : GF) : toGF g.val = g :=
  GF.ext (Nat.mod_eq_of_lt g.lt)

/-- Evaluation points of the 12 shards: the field elements 0..11. -/
def xc (i : Fin 12) : GF := ⟨i.val, by omega⟩

theorem xc_injOn (s : Finset (Fin 12)) : Set.InjOn xc s := by
  intro i _ j _ h
  have hv : (xc i).val = (xc j).val := by rw [h]
  exact Fin.ext hv

/-- Index set of the 8 data shards. -/
def S8 : Finset (Fin 12) := Finset.filter (fun i => i.val < 8) Finset.univ

theorem S8_card : S8.card = 8 := by decide

theorem mem_S8 (i : Fin 12) : i ∈ S8 ↔ i.val < 8 := by
  rw [S8, Finset.mem_filter]
  simp

/-- Executable Lagrange interpolation of the points of s, evaluated at x. -/
def interpEvalF (s : Finset (Fin 12)) (f : Fin 12 → GF) (x : GF) : GF :=
  s.sum (fun i => f i * (s.erase i).prod (fun j => (xc i - xc j)⁻¹ * (x - xc j)))

theorem interpEvalF_eq (s : Finset (Fin 12)) (f : Fin 12 → GF) (x : GF) :
    interpEvalF s f x = (Lagrange.interpolate s xc f).eval x := by
  rw [Lagrange.interpolate_apply, Polynomial.eval_finset_sum, interpEvalF]
  refine Finset.sum_congr rfl ?_
  intro i _
  rw [Polynomial.eval_mul, Polynomial.eval_C, Lagrange.basis, Polynomial.eval_prod]
  refine congrArg (fun z => f i * z) ?_
  refine Finset.prod_congr rfl ?_
  intro j _
  rw [Lagrange.basisDivisor, Polynomial.eval_mul, Polynomial.eval_C,
    Polynomial.eval_sub, Polynomial.eval_X, Polynomial.eval_C]

/-- Any 8 of the 12 values of a polynomial of degree below 8 recover every
value by interpolation. -/
theorem interp_recover (s : Finset (Fin 12)) (hcard : s.card = 8)
    (P : Polynomial GF) (hdeg : P.degree < 8)
    (d : Fin 12 → GF) (hd : ∀ i, d i = P.eval (xc i)) (k : Fin 12) :
    interpEvalF s d (xc k) = d k := by
  have hdeg2 : P.degree < s.card := by
    rw [hcard]
    exact_mod_cast hdeg
  have hP : P = Lagrange.interpolate s xc d :=
    Lagrange.eq_interpolate_of_eval_eq d (xc_injOn s) hdeg2 (fun i _ => (hd i).symm)
  rw [interpEvalF_eq, ← hP, ← hd k]
/-- Modelled from the spec: the external primitives used by the persistence
layer (sha3, argon2, lz4, chacha20poly1305, base64ct, blake3 crates) as
abstract byte functions. -/
structure CryptoPrims where
  sha3 : List Nat → List Nat
  argon2id : Nat → Nat → Nat → Nat → Nat → List Nat → List Nat → List Nat
  compress : List Nat → List Nat
  decompress : List Nat → List Nat
  encrypt : List Nat → List Nat → List Nat → List Nat
  decrypt : List Nat → List Nat → List Nat → Option (List Nat)
  toB64 : List Nat → List Nat
  fromB64 : List Nat → Option (List Nat)
  blake3 : List Nat → List Nat

def shardSize (len : Nat) : Nat := max (divCeil len 8) 4096

def rsPadded (data : List Nat) : List Nat :=
  data ++ List.replicate (shardSize data.length * 8 - data.length) 0

def dataShard (data : List Nat) (j : Nat) : List Nat :=
  ((rsPadded data).drop (j * shardSize data.length)).take (shardSize data.length)

/-- The 12 shard values at byte position p, as field elements. -/
def rsPointsAt (data : List Nat) (p : Nat) : Fin 12 → GF :=
  fun i => toGF ((dataShard data i.val).getD p 0)

/-- Shard j of the Reed-Solomon encoding: data shards are slices of the
padded input, parity shards evaluate the interpolated polynomial of each
byte position at the points 8..11.  Modelled from the spec: the
reed_solomon_erasure crate is an external MDS code on 8+4 shards. -/
def shardOf (data : List Nat) (j : Fin 12) : List Nat :=
  if j.val < 8 then dataShard data j.val
  else (List.range (shardSize data.length)).map
    (fun p => (interpEvalF S8 (rsPointsAt data p) (xc j)).val)

/-- encode_erasure: each shard is emitted as original length (8 LE bytes),
blake3 hash of the shard (32 bytes), then the shard bytes. -/
def encodeErasure (prims : CryptoPrims) (data : List Nat) : List Nat :=
  (List.finRange 12).flatMap (fun j =>
    leBytes 8 data.length ++ prims.blake3 (shardOf data j) ++ shardOf data j)

/-- Corruption model: zero out whole shard chunks of an encoded blob. -/
def zeroChunks (kill : Finset (Fin 12)) (enc : List Nat) : List Nat :=
  (List.finRange 12).flatMap (fun i =>
    if i ∈ kill then List.replicate (enc.length / 12) 0
    else (enc.drop (i.val * (enc.length / 12))).take (enc.length / 12))

theorem data_le_shards (len : Nat) : len ≤ shardSize len * 8 := by
  have h1 : divCeil len 8 ≤ shardSize len := le_max_left _ _
  rw [divCeil] at h1
  omega

theorem shardSize_ge (len : Nat) : 4096 ≤ shardSize len := le_max_right _ _

theorem rsPadded_length (data : List Nat) :
    (rsPadded data).length = shardSize data.length * 8 := by
  rw [rsPadded, List.length_append, List.length_replicate]
  have := data_le_shards data.length
  omega

theorem dataShard_length (data : List Nat) (j : Nat) (hj : j < 8) :
    (dataShard data j).length = shardSize data.length := by
  rw [dataShard, List.length_take, List.length_drop, rsPadded_length]
  have h : j * shardSize data.length + shardSize data.length ≤
      shardSize data.length * 8 := by nlinarith
  omega

theorem shardOf_length (data : List Nat) (j : Fin 12) :
    (shardOf data j).length = shardSize data.length := by
  rw [shardOf]
  by_cases hj : j.val < 8
  · rw [if_pos hj]
    exact dataShard_length data j.val hj
  · rw [if_neg hj, List.length_map, List.length_range]

theorem getD_map_range (S p : Nat) (g : Nat → Nat) (hp : p < S) :
    ((List.range S).map g).getD p 0 = g p := by
  rw [List.getD_eq_getElem?_getD, List.getElem?_map, List.getElem?_range hp]
  rfl

/-- The 12 shard bytes at every in-range position are values of one
polynomial of degree below 8. -/
theorem shard_byte_poly (data : List Nat) (p : Nat)
    (hp : p < shardSize data.length) :
    ∃ P : Polynomial GF, P.degree < 8 ∧
      ∀ i : Fin 12, toGF ((shardOf data i).getD p 0) = P.eval (xc i) := by
  refine ⟨Lagrange.interpolate S8 xc (rsPointsAt data p), ?_, ?_⟩
  · have h := Lagrange.degree_interpolate_lt (r := rsPointsAt data p) (xc_injOn S8)
    rw [S8_card] at h
    exact_mod_cast h
  · intro i
    by_cases hi : i.val < 8
    · rw [show shardOf data i = dataShard data i.val from by rw [shardOf, if_pos hi]]
      rw [Lagrange.eval_interpolate_at_node (rsPointsAt data p) (xc_injOn S8)
        ((mem_S8 i).mpr hi)]
      rfl
    · rw [show shardOf data i = (List.range (shardSize data.length)).map
        (fun p => (interpEvalF S8 (rsPointsAt data p) (xc i)).val) from by
          rw [shardOf, if_neg hi]]
      rw [getD_map_range _ _ _ hp, toGF_val, interpEvalF_eq]
theorem flattenLen (cs : Nat) : ∀ (l : List (List Nat)),
    (∀ c ∈ l, c.length = cs) → l.flatten.length = l.length * cs := by
  intro l
  induction l with
  | nil => intro _; simp
  | cons c rest ih =>
      intro h
      rw [List.flatten_cons, List.length_append, h c (by simp),
        ih (fun c2 hc2 => h c2 (by simp [hc2])), List.length_cons]
      ring

theorem chunksExtract (cs : Nat) : ∀ (l : List (List Nat)),
    (∀ c ∈ l, c.length = cs) → ∀ i (hi : i < l.length),
    ((l.flatten).drop (i * cs)).take cs = l.get ⟨i, hi⟩ := by
  intro l
  induction l with
  | nil => intro _ i hi; simp at hi
  | cons c rest ih =>
      intro h i hi
      match i with
      | 0 =>
          rw [Nat.zero_mul, List.drop_zero, List.flatten_cons]
          rw [show cs = c.length from (h c (by simp)).symm]
          rw [List.take_left]
          rfl
      | i + 1 =>
          rw [List.flatten_cons]
          have hc : c.length = cs := h c (by simp)
          rw [show (i + 1) * cs = c.length + i * cs by rw [hc]; ring]
          rw [List.drop_append]
          exact ih (fun c2 hc2 => h c2 (by simp [hc2])) i (by simpa using hi)

theorem chunksJoin (cs : Nat) : ∀ (n : Nat) (l : List Nat), l.length = n * cs →
    (List.range n).flatMap (fun j => (l.drop (j * cs)).take cs) = l := by
  intro n
  induction n with
  | zero =>
      intro l h
      simp only [Nat.zero_mul] at h
      rw [List.length_eq_zero] at h
      simp [h]
  | succ n ih =>
      intro l h
      rw [List.range_succ_eq_map, List.flatMap_cons, Nat.zero_mul, List.drop_zero,
        List.flatMap_map]
      have hstep : ∀ j : Nat, (l.drop (Nat.succ j * cs)).take cs =
          ((l.drop cs).drop (j * cs)).take cs := by
        intro j
        rw [List.drop_drop, show Nat.succ j * cs = cs + cs * j from by rw [Nat.succ_mul]; ring,
          Nat.mul_comm cs j]
      have hcong : (List.range n).flatMap (fun a => (l.drop (Nat.succ a * cs)).take cs) =
          (List.range n).flatMap (fun j => ((l.drop cs).drop (j * cs)).take cs) :=
        congrArg (List.flatMap (List.range n)) (funext hstep)
      rw [hcong, ih (l.drop cs)
        (by rw [List.length_drop, h, Nat.succ_mul, Nat.add_sub_cancel])]
      exact List.take_append_drop cs l

theorem finRange_flatMap_val {b : Type} (n : Nat) (g : Nat → List b) :
    (List.finRange n).flatMap (fun i => g i.val) = (List.range n).flatMap g := by
  rw [show List.range n = (List.finRange n).map Fin.val from
    (List.map_coe_finRange n).symm]
  rw [List.flatMap_map]
def chunkAtD (encoded : List Nat) (cs i : Nat) : List Nat :=
  (encoded.drop (i * cs)).take cs

/-- Hash-valid shard indices in chunk order (the blake3 check of
decode_erasure). -/
def validShards (prims : CryptoPrims) (encoded : List Nat) (cs : Nat) :
    List (Fin 12) :=
  (List.finRange 12).filter
    (fun i => prims.blake3 ((chunkAtD encoded cs i.val).drop 40) ==
      ((chunkAtD encoded cs i.val).drop 8).take 32)

/-- Rebuild the 8 data shards by interpolation through the first 8 valid
shards, truncated to the recorded original length.  Modelled from the spec:
reconstruct_data of the reed_solomon_erasure crate recovers the data shards
from any 8 intact shards of the MDS code. -/
def rsReconstruct (prims : CryptoPrims) (encoded : List Nat) (cs : Nat)
    (v0 : Fin 12) : List Nat :=
  ((List.finRange 8).flatMap (fun j =>
    (List.range (cs - 40)).map (fun p =>
      (interpEvalF ((validShards prims encoded cs).take 8).toFinset
        (fun i => toGF (((chunkAtD encoded cs i.val).drop 40).getD p 0))
        (xc (Fin.castLE (by omega) j))).val))).take
    (leToNat ((chunkAtD encoded cs v0.val).take 8))

/-- decode_erasure: split into 12 chunks, parse each as length, hash and
shard bytes, keep hash-valid shards, fail fatally below 8 of them,
reconstruct otherwise. -/
def decodeErasure (prims : CryptoPrims) (encoded : List Nat) : Option (List Nat) :=
  if encoded.length / 12 < 41 then none
  else if encoded.length / (encoded.length / 12) ≠ 12 then none
  else
    match validShards prims encoded (encoded.length / 12) with
    | [] => none
    | v0 :: _ =>
        if (validShards prims encoded (encoded.length / 12)).length < 8 then none
        else some (rsReconstruct prims encoded (encoded.length / 12) v0)

def encChunk (prims : CryptoPrims) (data : List Nat) (j : Fin 12) : List Nat :=
  leBytes 8 data.length ++ prims.blake3 (shardOf data j) ++ shardOf data j

theorem encChunk_length (prims : CryptoPrims) (data : List Nat)
    (hhash : ∀ b, (prims.blake3 b).length = 32) (j : Fin 12) :
    (encChunk prims data j).length = 40 + shardSize data.length := by
  rw [encChunk, List.length_append, List.length_append, leBytes_length, hhash,
    shardOf_length]

theorem encodeErasure_length (prims : CryptoPrims) (data : List Nat)
    (hhash : ∀ b, (prims.blake3 b).length = 32) :
    (encodeErasure prims data).length = 12 * (40 + shardSize data.length) := by
  rw [show encodeErasure prims data =
    ((List.finRange 12).map (encChunk prims data)).flatten from rfl]
  rw [flattenLen (40 + shardSize data.length) _ (by
    intro c hc
    rw [List.mem_map] at hc
    obtain ⟨j, _, hj⟩ := hc
    rw [← hj]
    exact encChunk_length prims data hhash j)]
  simp

theorem encode_chunkAt (prims : CryptoPrims) (data : List Nat)
    (hhash : ∀ b, (prims.blake3 b).length = 32) (i : Fin 12) :
    chunkAtD (encodeErasure prims data) (40 + shardSize data.length) i.val =
      encChunk prims data i := by
  rw [chunkAtD, show encodeErasure prims data =
    ((List.finRange 12).map (encChunk prims data)).flatten from rfl]
  have h := chunksExtract (40 + shardSize data.length)
    ((List.finRange 12).map (encChunk prims data))
    (by
      intro c hc
      rw [List.mem_map] at hc
      obtain ⟨j, _, hj⟩ := hc
      rw [← hj]
      exact encChunk_length prims data hhash j)
    i.val (by simpa using i.isLt)
  rw [h]
  rw [List.get_map]
  congr 1
  exact List.get_finRange _

theorem zeroChunks_eq_flatten (prims : CryptoPrims) (data : List Nat)
    (kill : Finset (Fin 12)) (hhash : ∀ b, (prims.blake3 b).length = 32) :
    zeroChunks kill (encodeErasure prims data) =
      ((List.finRange 12).map (fun i =>
        if i ∈ kill then List.replicate (40 + shardSize data.length) 0
        else encChunk prims data i)).flatten := by
  rw [zeroChunks]
  have hq : (encodeErasure prims data).length / 12 = 40 + shardSize data.length := by
    rw [encodeErasure_length prims data hhash]
    omega
  refine List.flatMap_congr ?_
  intro i _
  rw [hq]
  by_cases hk : i ∈ kill
  · rw [if_pos hk, if_pos hk]
  · rw [if_neg hk, if_neg hk]
    exact encode_chunkAt prims data hhash i
theorem encChunk_assoc (prims : CryptoPrims) (data : List Nat) (j : Fin 12) :
    encChunk prims data j = leBytes 8 data.length ++
      (prims.blake3 (shardOf data j) ++ shardOf data j) := by
  rw [encChunk, List.append_assoc]

theorem encChunk_take8 (prims : CryptoPrims) (data : List Nat) (j : Fin 12) :
    (encChunk prims data j).take 8 = leBytes 8 data.length := by
  rw [encChunk_assoc]
  exact List.take_left' (leBytes_length 8 data.length)

theorem encChunk_drop40 (prims : CryptoPrims) (data : List Nat)
    (hhash : ∀ b, (prims.blake3 b).length = 32) (j : Fin 12) :
    (encChunk prims data j).drop 40 = shardOf data j := by
  rw [encChunk]
  exact List.drop_left' (by rw [List.length_append, leBytes_length, hhash])

theorem encChunk_drop8_take32 (prims : CryptoPrims) (data : List Nat)
    (hhash : ∀ b, (prims.blake3 b).length = 32) (j : Fin 12) :
    ((encChunk prims data j).drop 8).take 32 = prims.blake3 (shardOf data j) := by
  rw [encChunk_assoc, List.drop_left' (leBytes_length 8 data.length)]
  exact List.take_left' (hhash _)

theorem zeroChunks_chunkAt (prims : CryptoPrims) (data : List Nat)
    (kill : Finset (Fin 12)) (hhash : ∀ b, (prims.blake3 b).length = 32)
    (i : Fin 12) :
    chunkAtD (zeroChunks kill (encodeErasure prims data))
        (40 + shardSize data.length) i.val =
      (if i ∈ kill then List.replicate (40 + shardSize data.length) 0
       else encChunk prims data i) := by
  rw [chunkAtD, zeroChunks_eq_flatten prims data kill hhash]
  have h := chunksExtract (40 + shardSize data.length)
    ((List.finRange 12).map (fun i =>
      if i ∈ kill then List.replicate (40 + shardSize data.length) 0
      else encChunk prims data i))
    (by
      intro c hc
      rw [List.mem_map] at hc
      obtain ⟨j, _, hj⟩ := hc
      rw [← hj]
      by_cases hk : j ∈ kill
      · rw [if_pos hk, List.length_replicate]
      · rw [if_neg hk]
        exact encChunk_length prims data hhash j)
    i.val (by simpa using i.isLt)
  rw [h, List.get_map, List.get_finRange]

theorem zeroChunks_length (prims : CryptoPrims) (data : List Nat)
    (kill : Finset (Fin 12)) (hhash : ∀ b, (prims.blake3 b).length = 32) :
    (zeroChunks kill (encodeErasure prims data)).length =
      12 * (40 + shardSize data.length) := by
  rw [zeroChunks_eq_flatten prims data kill hhash]
  rw [flattenLen (40 + shardSize data.length) _ (by
    intro c hc
    rw [List.mem_map] at hc
    obtain ⟨j, _, hj⟩ := hc
    rw [← hj]
    by_cases hk : j ∈ kill
    · rw [if_pos hk, List.length_replicate]
    · rw [if_neg hk]
      exact encChunk_length prims data hhash j)]
  simp

theorem valids_char (prims : CryptoPrims) (data : List Nat)
    (kill : Finset (Fin 12)) (hhash : ∀ b, (prims.blake3 b).length = 32)
    (hzero : prims.blake3 (List.replicate (shardSize data.length) 0) ≠
      List.replicate 32 0) :
    validShards prims (zeroChunks kill (encodeErasure prims data))
        (40 + shardSize data.length) =
      (List.finRange 12).filter (fun i => decide (i ∉ kill)) := by
  rw [validShards]
  refine List.filter_congr ?_
  intro i _
  rw [zeroChunks_chunkAt prims data kill hhash i]
  by_cases hk : i ∈ kill
  · rw [if_pos hk]
    rw [List.drop_replicate, List.drop_replicate, List.take_replicate]
    rw [show 40 + shardSize data.length - 40 = shardSize data.length from by omega]
    rw [show min 32 (40 + shardSize data.length - 8) = 32 from by
      have := shardSize_ge data.length
      omega]
    rw [beq_eq_false_iff_ne.mpr hzero]
    simp [hk]
  · rw [if_neg hk]
    rw [encChunk_drop40 prims data hhash i, encChunk_drop8_take32 prims data hhash i]
    simp [hk]

theorem valids_length (kill : Finset (Fin 12)) :
    ((List.finRange 12).filter (fun i => decide (i ∉ kill))).length =
      12 - kill.card := by
  have hsplit := List.length_eq_length_filter_add
    (l := List.finRange 12) (fun i => decide (i ∈ kill))
  have hin : ((List.finRange 12).filter (fun i => decide (i ∈ kill))).length =
      kill.card := by
    have hnodup : ((List.finRange 12).filter (fun i => decide (i ∈ kill))).Nodup :=
      List.Nodup.filter _ (List.nodup_finRange 12)
    have hset : ((List.finRange 12).filter
        (fun i => decide (i ∈ kill))).toFinset = kill := by
      ext x
      simp [List.mem_filter, List.mem_finRange]
    rw [← List.toFinset_card_of_nodup hnodup, hset]
  have hcong : ((List.finRange 12).filter (fun a => !(decide (a ∈ kill)))).length =
      ((List.finRange 12).filter (fun i => decide (i ∉ kill))).length := by
    refine congrArg List.length (List.filter_congr ?_)
    intro x _
    simp
  have hfr : (List.finRange 12).length = 12 := by simp
  omega
theorem interpEvalF_congr (s : Finset (Fin 12)) (f g : Fin 12 → GF) (x : GF)
    (h : ∀ i ∈ s, f i = g i) : interpEvalF s f x = interpEvalF s g x := by
  rw [interpEvalF, interpEvalF]
  refine Finset.sum_congr rfl ?_
  intro i hi
  rw [h i hi]

theorem getD_lt_256 (l : List Nat) (p : Nat) (h : ∀ b ∈ l, b < 256) :
    l.getD p 0 < 256 := by
  rcases Nat.lt_or_ge p l.length with hp | hp
  · rw [List.getD_eq_getElem?_getD, List.getElem?_eq_getElem hp]
    exact h _ (List.getElem_mem hp)
  · rw [List.getD_eq_default _ _ hp]
    omega

theorem map_getD_self (l : List Nat) (n : Nat) (h : l.length = n) :
    (List.range n).map (fun p => l.getD p 0) = l := by
  refine List.ext_getElem (by simp [h]) ?_
  intro i h1 h2
  simp only [List.getElem_map, List.getElem_range]
  rw [List.getD_eq_getElem?_getD, List.getElem?_eq_getElem h2]
  rfl

theorem rsPadded_lt_256 (d : List Nat) (hd : ∀ b ∈ d, b < 256) :
    ∀ b ∈ rsPadded d, b < 256 := by
  intro b hb
  rw [rsPadded, List.mem_append] at hb
  rcases hb with hb | hb
  · exact hd b hb
  · rw [List.eq_of_mem_replicate hb]
    omega

theorem dataShard_lt_256 (d : List Nat) (hd : ∀ b ∈ d, b < 256) (j : Nat) :
    ∀ b ∈ dataShard d j, b < 256 := by
  intro b hb
  rw [dataShard] at hb
  exact rsPadded_lt_256 d hd b
    (List.mem_of_mem_drop (List.mem_of_mem_take hb))

theorem toGF_val_of_lt {n : Nat} (h : n < 256) : (toGF n).val = n :=
  Nat.mod_eq_of_lt h
theorem validShards_nodup (prims : CryptoPrims) (enc : List Nat) (cs : Nat) :
    (validShards prims enc cs).Nodup :=
  List.Nodup.filter _ (List.nodup_finRange 12)

theorem rsReconstruct_eq (prims : CryptoPrims) (d : List Nat)
    (kill : Finset (Fin 12))
    (hhash : ∀ b, (prims.blake3 b).length = 32)
    (hzero : prims.blake3 (List.replicate (shardSize d.length) 0) ≠
      List.replicate 32 0)
    (hd : ∀ b ∈ d, b < 256) (hlen : d.length < 2 ^ 64)
    (v0 : Fin 12)
    (hv0 : v0 ∈ validShards prims (zeroChunks kill (encodeErasure prims d))
      (40 + shardSize d.length))
    (h8 : 8 ≤ (validShards prims (zeroChunks kill (encodeErasure prims d))
      (40 + shardSize d.length)).length) :
    rsReconstruct prims (zeroChunks kill (encodeErasure prims d))
      (40 + shardSize d.length) v0 = d := by
  have hvalids := valids_char prims d kill hhash hzero
  have hnotkill : ∀ i ∈ validShards prims (zeroChunks kill (encodeErasure prims d))
      (40 + shardSize d.length), i ∉ kill := by
    intro i hi
    rw [hvalids, List.mem_filter] at hi
    simpa using hi.2
  have hv0nk : v0 ∉ kill := hnotkill v0 hv0
  have hchunk : ∀ i : Fin 12, i ∉ kill →
      chunkAtD (zeroChunks kill (encodeErasure prims d))
        (40 + shardSize d.length) i.val = encChunk prims d i := by
    intro i hik
    rw [zeroChunks_chunkAt prims d kill hhash i, if_neg hik]
  have hlen0 : leToNat ((chunkAtD (zeroChunks kill (encodeErasure prims d))
      (40 + shardSize d.length) v0.val).take 8) = d.length := by
    rw [hchunk v0 hv0nk, encChunk_take8, leToNat_leBytes]
    rw [show (256 : Nat) ^ 8 = 2 ^ 64 from by norm_num]
    exact Nat.mod_eq_of_lt hlen
  have hptscard : (((validShards prims (zeroChunks kill (encodeErasure prims d))
      (40 + shardSize d.length)).take 8).toFinset).card = 8 := by
    rw [List.toFinset_card_of_nodup
      (List.Nodup.sublist (List.take_sublist _ _) (validShards_nodup _ _ _))]
    rw [List.length_take]
    omega
  have hptsnk : ∀ i ∈ ((validShards prims (zeroChunks kill (encodeErasure prims d))
      (40 + shardSize d.length)).take 8).toFinset, i ∉ kill := by
    intro i hi
    rw [List.mem_toFinset] at hi
    exact hnotkill i (List.mem_of_mem_take hi)
  rw [rsReconstruct, hlen0]
  have hinner : ∀ j : Fin 8,
      (List.range (40 + shardSize d.length - 40)).map (fun p =>
        (interpEvalF ((validShards prims (zeroChunks kill (encodeErasure prims d))
            (40 + shardSize d.length)).take 8).toFinset
          (fun i => toGF (((chunkAtD (zeroChunks kill (encodeErasure prims d))
            (40 + shardSize d.length) i.val).drop 40).getD p 0))
          (xc (Fin.castLE (by omega) j))).val) =
      dataShard d j.val := by
    intro j
    rw [show 40 + shardSize d.length - 40 = shardSize d.length from by omega]
    have hperp : ∀ p, p < shardSize d.length →
        (interpEvalF ((validShards prims (zeroChunks kill (encodeErasure prims d))
            (40 + shardSize d.length)).take 8).toFinset
          (fun i => toGF (((chunkAtD (zeroChunks kill (encodeErasure prims d))
            (40 + shardSize d.length) i.val).drop 40).getD p 0))
          (xc (Fin.castLE (by omega) j))).val = (dataShard d j.val).getD p 0 := by
      intro p hp
      obtain ⟨P, hdeg, hvals⟩ := shard_byte_poly d p hp
      rw [interpEvalF_congr _ _ (fun i => toGF ((shardOf d i).getD p 0)) _ (by
        intro i hi
        rw [hchunk i (hptsnk i hi), encChunk_drop40 prims d hhash i])]
      rw [interp_recover _ hptscard P hdeg _ hvals (Fin.castLE (by omega) j)]
      rw [show shardOf d (Fin.castLE (by omega) j) = dataShard d j.val from by
        rw [shardOf, if_pos (by simpa using j.isLt)]
        rfl]
      exact toGF_val_of_lt (getD_lt_256 _ _ (dataShard_lt_256 d hd j.val))
    rw [show (List.range (shardSize d.length)).map (fun p =>
        (interpEvalF ((validShards prims (zeroChunks kill (encodeErasure prims d))
            (40 + shardSize d.length)).take 8).toFinset
          (fun i => toGF (((chunkAtD (zeroChunks kill (encodeErasure prims d))
            (40 + shardSize d.length) i.val).drop 40).getD p 0))
          (xc (Fin.castLE (by omega) j))).val) =
      (List.range (shardSize d.length)).map (fun p => (dataShard d j.val).getD p 0)
      from by
        refine List.map_congr_left ?_
        intro p hp
        rw [List.mem_range] at hp
        exact hperp p hp]
    exact map_getD_self _ _ (dataShard_length d j.val (by simpa using j.isLt))
  rw [show ((List.finRange 8).flatMap (fun j =>
      (List.range (40 + shardSize d.length - 40)).map (fun p =>
        (interpEvalF ((validShards prims (zeroChunks kill (encodeErasure prims d))
            (40 + shardSize d.length)).take 8).toFinset
          (fun i => toGF (((chunkAtD (zeroChunks kill (encodeErasure prims d))
            (40 + shardSize d.length) i.val).drop 40).getD p 0))
          (xc (Fin.castLE (by omega) j))).val))) =
      (List.finRange 8).flatMap (fun j => dataShard d j.val) from
    List.flatMap_congr (fun j _ => hinner j)]
  rw [show (List.finRange 8).flatMap (fun j => dataShard d j.val) =
    (List.range 8).flatMap (fun j => dataShard d j) from
      finRange_flatMap_val 8 (dataShard d)]
  rw [show (List.range 8).flatMap (fun j => dataShard d j) = rsPadded d from by
    refine chunksJoin (shardSize d.length) 8 (rsPadded d) ?_
    rw [rsPadded_length]
    ring]
  rw [rsPadded]
  exact List.take_left' rfl
/-- Master durability result: zeroing at most 4 of the 12 chunks still
decodes to exactly the original bytes; with 5 or more zeroed chunks fewer
than 8 shards pass the hash check and the decode fails fatally. -/
theorem decode_zeroChunks_encode (prims : CryptoPrims) (d : List Nat)
    (kill : Finset (Fin 12))
    (hhash : ∀ b, (prims.blake3 b).length = 32)
    (hzero : prims.blake3 (List.replicate (shardSize d.length) 0) ≠
      List.replicate 32 0)
    (hd : ∀ b ∈ d, b < 256) (hlen : d.length < 2 ^ 64) :
    (kill.card ≤ 4 →
      decodeErasure prims (zeroChunks kill (encodeErasure prims d)) = some d) ∧
    (5 ≤ kill.card →
      decodeErasure prims (zeroChunks kill (encodeErasure prims d)) = none) := by
  have hSge := shardSize_ge d.length
  have hZlen := zeroChunks_length prims d kill hhash
  have hq12 : (zeroChunks kill (encodeErasure prims d)).length / 12 =
      40 + shardSize d.length := by
    rw [hZlen]
    omega
  have hguard1 : ¬ ((zeroChunks kill (encodeErasure prims d)).length / 12 < 41) := by
    rw [hq12]
    omega
  have hcs12 : (zeroChunks kill (encodeErasure prims d)).length /
      (40 + shardSize d.length) = 12 := by
    rw [hZlen]
    exact Nat.mul_div_cancel 12 (by omega)
  have hvallen : (validShards prims (zeroChunks kill (encodeErasure prims d))
      (40 + shardSize d.length)).length = 12 - kill.card := by
    rw [valids_char prims d kill hhash hzero]
    exact valids_length kill
  have hmemv : ∀ v ∈ validShards prims (zeroChunks kill (encodeErasure prims d))
      (40 + shardSize d.length), True := fun _ _ => trivial
  constructor
  · intro hc4
    rw [decodeErasure, if_neg hguard1]
    simp only [hq12]
    rw [if_neg (by simp [hcs12])]
    have h8 : 8 ≤ (validShards prims (zeroChunks kill (encodeErasure prims d))
        (40 + shardSize d.length)).length := by
      omega
    obtain ⟨v0, rest, hv⟩ : ∃ v0 rest,
        validShards prims (zeroChunks kill (encodeErasure prims d))
          (40 + shardSize d.length) = v0 :: rest := by
      match hv2 : validShards prims (zeroChunks kill (encodeErasure prims d))
          (40 + shardSize d.length) with
      | [] =>
          rw [hv2] at h8
          simp at h8
      | a :: b => exact ⟨a, b, rfl⟩
    simp only [hv]
    rw [if_neg (by rw [hv] at h8; omega)]
    refine congrArg some ?_
    refine rsReconstruct_eq prims d kill hhash hzero hd hlen v0 ?_ ?_
    · rw [hv]
      exact List.mem_cons_self v0 rest
    · exact h8
  · intro hc5
    rw [decodeErasure, if_neg hguard1]
    simp only [hq12]
    rw [if_neg (by simp [hcs12])]
    have h7 : (validShards prims (zeroChunks kill (encodeErasure prims d))
        (40 + shardSize d.length)).length < 8 := by
      omega
    match hv2 : validShards prims (zeroChunks kill (encodeErasure prims d))
        (40 + shardSize d.length) with
    | [] => simp only [hv2]
    | a :: b =>
        simp only [hv2]
        rw [hv2] at h7
        rw [if_pos h7]
theorem zeroChunks_empty (prims : CryptoPrims) (d : List Nat)
    (hhash : ∀ b, (prims.blake3 b).length = 32) :
    zeroChunks ∅ (encodeErasure prims d) = encodeErasure prims d := by
  rw [zeroChunks]
  simp only [Finset.not_mem_empty, if_false]
  rw [finRange_flatMap_val 12 (fun i =>
    ((encodeErasure prims d).drop (i * ((encodeErasure prims d).length / 12))).take
      ((encodeErasure prims d).length / 12))]
  have hq : (encodeErasure prims d).length / 12 = 40 + shardSize d.length := by
    rw [encodeErasure_length prims d hhash]
    omega
  rw [hq]
  refine chunksJoin (40 + shardSize d.length) 12 _ ?_
  rw [encodeErasure_length prims d hhash]

/-- Round trip with no corruption. -/
theorem decode_encode (prims : CryptoPrims) (d : List Nat)
    (hhash : ∀ b, (prims.blake3 b).length = 32)
    (hzero : prims.blake3 (List.replicate (shardSize d.length) 0) ≠
      List.replicate 32 0)
    (hd : ∀ b ∈ d, b < 256) (hlen : d.length < 2 ^ 64) :
    decodeErasure prims (encodeErasure prims d) = some d := by
  have h := (decode_zeroChunks_encode prims d ∅ hhash hzero hd hlen).1 (by simp)
  rwa [zeroChunks_empty prims d hhash] at h

/-- The decoder fails closed whenever fewer than 8 shards pass the hash
check, on any input. -/
theorem decode_few_valid (prims : CryptoPrims) (encoded : List Nat)
    (h : (validShards prims encoded (encoded.length / 12)).length < 8) :
    decodeErasure prims encoded = none := by
  rw [decodeErasure]
  by_cases h1 : encoded.length / 12 < 41
  · rw [if_pos h1]
  · rw [if_neg h1]
    by_cases h2 : encoded.length / (encoded.length / 12) ≠ 12
    · rw [if_pos h2]
    · rw [if_neg h2]
      match hv : validShards prims encoded (encoded.length / 12) with
      | [] => simp only [hv]
      | a :: b =>
          simp only [hv]
          rw [hv] at h
          rw [if_pos h]

/-- Claim C2: encode_erasure cuts the input into 8 data shards padded to at
least 4096 bytes, adds 4 parity shards, and frames each of the 12 shards
with the original length as u64 and its 256-bit blake3 hash; zeroing at
most 4 of the 12 shard chunks still lets decode_erasure recover exactly
the input, zeroing 5 or more makes it fail fatally, and on any input
whatsoever fewer than 8 hash-valid shards is a fatal error rather than
silently corrupted data. -/
theorem claim_C2_erasure_durability (prims : CryptoPrims) (d : List Nat)
    (kill : Finset (Fin 12))
    (hhash : ∀ b, (prims.blake3 b).length = 32)
    (hzero : prims.blake3 (List.replicate (shardSize d.length) 0) ≠
      List.replicate 32 0)
    (hd : ∀ b ∈ d, b < 256) (hlen : d.length < 2 ^ 64) :
    (kill.card ≤ 4 →
      decodeErasure prims (zeroChunks kill (encodeErasure prims d)) = some d) ∧
    (5 ≤ kill.card →
      decodeErasure prims (zeroChunks kill (encodeErasure prims d)) = none) ∧
    (∀ enc, (validShards prims enc (enc.length / 12)).length < 8 →
      decodeErasure prims enc = none) := by
  obtain ⟨h1, h2⟩ := decode_zeroChunks_encode prims d kill hhash hzero hd hlen
  exact ⟨h1, h2, decode_few_valid prims⟩

/-- Constant primitives used to instantiate the abstract crates in
witnesses. -/
def constPrims : CryptoPrims :=
  ⟨fun _ => List.replicate 32 1, fun _ _ _ _ _ _ _ => List.replicate 32 2,
    id, id, fun _ _ m => m, fun _ _ m => some m, id, fun b => some b,
    fun _ => List.replicate 32 1⟩

/-- Witness for claim C2 at the one-byte input with no corruption. -/
theorem claim_C2_witness :
    (∀ b, (constPrims.blake3 b).length = 32) ∧
    (constPrims.blake3 (List.replicate (shardSize ([5] : List Nat).length) 0) ≠
      List.replicate 32 0) ∧
    (∀ b ∈ ([5] : List Nat), b < 256) ∧
    ([5] : List Nat).length < 2 ^ 64 ∧
    decodeErasure constPrims (zeroChunks ∅ (encodeErasure constPrims [5])) =
      some [5] :=
  ⟨fun b => by simp [constPrims],
   by decide,
   by decide,
   by norm_num,
   (claim_C2_erasure_durability constPrims [5] ∅
     (fun b => by simp [constPrims]) (by decide) (by decide) (by norm_num)).1
     (by simp)⟩
def nonceName : Bytes := [110, 111, 110, 99, 101]

def saltName : Bytes := [115, 97, 108, 116]

def modifiedTsName : Bytes := [109, 111, 100, 105, 102, 105, 101, 100, 95, 116, 115]

def dbFieldName : Bytes := [100, 98]

theorem metaGetName_new (nm v : Bytes) (h : utf8Valid nm = true) :
    metaGetName (metaEntryNew nm v) = some nm := by
  rw [metaGetName, FieldAtlas.getStr,
    show smapGet 1 (metaEntryNew nm v) = some nm from rfl]
  simp [h]

theorem metaGetValue_new (nm v : Bytes) (h : utf8Valid v = true) :
    metaGetValue (metaEntryNew nm v) = some v := by
  rw [metaGetValue, FieldAtlas.getStr,
    show smapGet 2 (metaEntryNew nm v) = some v from rfl]
  simp [h]

theorem serialize_metaEntryNew_length (nm v : Bytes) :
    (FieldAtlas.serialize (metaEntryNew nm v)).length = nm.length + v.length + 10 := by
  rw [show metaEntryNew nm v = [(1, nm), (2, v)] from rfl, FieldAtlas.serialize]
  simp only [List.flatMap_cons, List.flatMap_nil, List.append_nil,
    List.length_append, List.length_cons, leBytes_length]
  omega

theorem faWF_metaEntryNew (nm v : Bytes) (h : nm.length + v.length + 10 < U32) :
    faWF (metaEntryNew nm v) = true := by
  rw [faWF]
  have hser := serialize_metaEntryNew_length nm v
  simp only [show metaEntryNew nm v = [(1, nm), (2, v)] from rfl] at hser ⊢
  simp only [Bool.and_eq_true, decide_eq_true_eq, List.all_cons, List.all_nil,
    List.pairwise_cons, List.mem_singleton, Bool.and_true]
  refine ⟨⟨⟨?_, ?_, List.Pairwise.nil⟩, ⟨by omega, by omega⟩, by omega, by omega⟩, ?_⟩
  · intro b hb
    subst hb
    omega
  · intro b hb
    exact absurd hb (List.not_mem_nil b)
  · omega

theorem canonDb_inj {rs1 rs2 : List (Nat × Bytes)} (h : canonDb rs1 = canonDb rs2) :
    rs1 = rs2 := by
  have h2 := congrArg (fun d => d.entries.map Prod.snd) h
  simpa [canonDb, canonEntries_map_snd] using h2

theorem recFindIdx_append_self (key : Bytes) (r : Nat × Bytes)
    (hr : recKeyD r = key) : ∀ rs, recFindIdx key rs = none →
    recFindIdx key (rs ++ [r]) = some rs.length := by
  intro rs
  induction rs with
  | nil => intro _; simp [recFindIdx, hr]
  | cons x rest ih =>
      intro hnone
      rw [recFindIdx] at hnone
      by_cases hx : recKeyD x = key
      · rw [if_pos hx] at hnone
        exact absurd hnone (by simp)
      · rw [if_neg hx] at hnone
        rw [List.cons_append, recFindIdx, if_neg hx,
          ih (by simpa using hnone)]
        rfl

theorem recFindIdx_append_ne (key : Bytes) (r : Nat × Bytes)
    (hr : recKeyD r ≠ key) : ∀ rs, recFindIdx key (rs ++ [r]) = recFindIdx key rs := by
  intro rs
  induction rs with
  | nil => simp [recFindIdx, hr]
  | cons x rest ih =>
      rw [List.cons_append, recFindIdx, recFindIdx, ih]

theorem recFindIdx_congr_keys (key : Bytes) :
    ∀ (rs1 rs2 : List (Nat × Bytes)), rs1.map recKeyD = rs2.map recKeyD →
    recFindIdx key rs1 = recFindIdx key rs2 := by
  intro rs1
  induction rs1 with
  | nil =>
      intro rs2 h
      have : rs2 = [] := by
        cases rs2 with
        | nil => rfl
        | cons y ys => simp at h
      subst this
      rfl
  | cons x rest ih =>
      intro rs2 h
      cases rs2 with
      | nil => simp at h
      | cons y ys =>
          simp only [List.map_cons, List.cons.injEq] at h
          rw [recFindIdx, recFindIdx, h.1, ih ys h.2]

theorem metaKey_inj {a b : Bytes} (h : metaKey a = metaKey b) : a = b := by
  rw [metaKey, metaKey] at h
  exact List.append_cancel_left h
/-- One set_meta_entry step on a canonical vault: the upsert succeeds, the
result is canonical, the written entry reads back, and every other meta
name is untouched. -/
theorem setMeta_canonical (rs : List (Nat × Bytes)) (hc : CanonicalRs rs)
    (hlen : rs.length + 1 < U32) (nm v : Bytes)
    (hfa : faWF (metaEntryNew nm v) = true) (hnm : utf8Valid nm = true) :
    ∃ rs2, (canonDb rs).setMetaEntry (metaEntryNew nm v) = some (canonDb rs2) ∧
      CanonicalRs rs2 ∧ rs.length ≤ rs2.length ∧ rs2.length ≤ rs.length + 1 ∧
      (canonDb rs2).getMetaEntry nm = some (some (metaEntryNew nm v)) ∧
      (∀ nm2, nm2 ≠ nm →
        (canonDb rs2).getMetaEntry nm2 = (canonDb rs).getMetaEntry nm2) := by
  have hname := metaGetName_new nm v hnm
  have hkey := recKeyD_meta (metaEntryNew nm v) hfa nm hname
  have hwfrec := recWF_meta (metaEntryNew nm v) hfa (by rw [hname]; rfl)
  have hdeser := fieldAtlas_deserialize_serialize (metaEntryNew nm v) hfa
  have hset : (canonDb rs).setMetaEntry (metaEntryNew nm v) =
      some (dbUpsert (canonDb rs) (metaKey nm) 0
        (FieldAtlas.serialize (metaEntryNew nm v))) := by
    rw [InteriorDatabase.setMetaEntry]
    simp only [hname]
  match hfind : recFindIdx (metaKey nm) rs with
  | none =>
      have hfresh : ∀ r ∈ rs, recKeyD r ≠
          recKeyD (0, FieldAtlas.serialize (metaEntryNew nm v)) := by
        intro r hr
        rw [hkey]
        exact (recFindIdx_none_iff _ _).mp hfind r hr
      have hups := dbUpsert_fresh rs 0 (FieldAtlas.serialize (metaEntryNew nm v))
        hc.2 hfresh hlen
      rw [hkey] at hups
      have hnotmem : metaKey nm ∉ rs.map recKeyD := by
        intro hmem
        rw [List.mem_map] at hmem
        obtain ⟨r, hr, hkr⟩ := hmem
        exact hfresh r hr (by rw [hkey, hkr])
      have hnodup2 : ((rs ++ [(0, FieldAtlas.serialize (metaEntryNew nm v))]).map
          recKeyD).Nodup := by
        rw [List.map_append]
        refine List.Nodup.append hc.2 (by simp) ?_
        intro k hk1 hk2
        simp only [List.map_cons, List.map_nil, List.mem_singleton] at hk2
        subst hk2
        rw [hkey] at hk1
        exact hnotmem hk1
      refine ⟨rs ++ [(0, FieldAtlas.serialize (metaEntryNew nm v))],
        by rw [hset, hups], ⟨?_, hnodup2⟩, by simp, by simp, ?_, ?_⟩
      · intro r hr
        rcases List.mem_append.mp hr with hr | hr
        · exact hc.1 r hr
        · rw [List.mem_singleton] at hr
          subst hr
          exact hwfrec
      · rw [getMetaEntry_canonDb _ hnodup2 nm]
        rw [recFindIdx_append_self (metaKey nm) _ hkey rs hfind]
        simp only [List.get?_concat_length, hdeser]
      · intro nm2 hne
        have hkne : recKeyD (0, FieldAtlas.serialize (metaEntryNew nm v)) ≠
            metaKey nm2 := by
          rw [hkey]
          exact fun hcontra => hne (metaKey_inj hcontra).symm
        rw [getMetaEntry_canonDb _ hnodup2 nm2, getMetaEntry_canonDb rs hc.2 nm2]
        rw [recFindIdx_append_ne (metaKey nm2) _ hkne rs]
        match hfind2 : recFindIdx (metaKey nm2) rs with
        | none => rfl
        | some j2 =>
            obtain ⟨hjlt2, r2, hget2, _⟩ := recFindIdx_some_get _ _ _ hfind2
            simp only [List.get?_append hjlt2]
  | some j =>
      obtain ⟨hjlt, rold, hgetold, hkeyold⟩ := recFindIdx_some_get _ _ _ hfind
      have hfind' : recFindIdx
          (recKeyD (0, FieldAtlas.serialize (metaEntryNew nm v))) rs = some j := by
        rw [hkey]
        exact hfind
      have hups := dbUpsert_existing rs 0
        (FieldAtlas.serialize (metaEntryNew nm v)) j hc.2 hfind'
      rw [hkey] at hups
      have hkeys : (rs.set j (0, FieldAtlas.serialize (metaEntryNew nm v))).map
          recKeyD = rs.map recKeyD :=
        map_recKeyD_set rs j _ rold hgetold (by rw [hkey, hkeyold])
      have hnodup2 : ((rs.set j
          (0, FieldAtlas.serialize (metaEntryNew nm v))).map recKeyD).Nodup := by
        rw [hkeys]
        exact hc.2
      refine ⟨rs.set j (0, FieldAtlas.serialize (metaEntryNew nm v)),
        by rw [hset, hups], ⟨?_, hnodup2⟩, by simp, by simp, ?_, ?_⟩
      · intro r hr
        rcases List.mem_or_eq_of_mem_set hr with hr | hr
        · exact hc.1 r hr
        · subst hr
          exact hwfrec
      · rw [getMetaEntry_canonDb _ hnodup2 nm]
        rw [recFindIdx_congr_keys (metaKey nm) _ _ hkeys, hfind]
        simp only [List.get?_set_eq_of_lt _ (by simpa using hjlt), hdeser]
      · intro nm2 hne
        have hkne : metaKey nm2 ≠ metaKey nm :=
          fun hcontra => hne (metaKey_inj hcontra)
        rw [getMetaEntry_canonDb _ hnodup2 nm2, getMetaEntry_canonDb rs hc.2 nm2]
        rw [recFindIdx_congr_keys (metaKey nm2) _ _ hkeys]
        match hfind2 : recFindIdx (metaKey nm2) rs with
        | none => rfl
        | some j2 =>
            obtain ⟨hjlt2, r2, hget2, hkey2⟩ := recFindIdx_some_get _ _ _ hfind2
            have hjne : j ≠ j2 := by
              intro hcontra
              subst hcontra
              rw [hgetold] at hget2
              injection hget2 with hget2
              subst hget2
              rw [hkeyold] at hkey2
              exact hkne hkey2.symm
            simp only [List.get?_set_ne _ _ hjne]
/-!
Persistence layer (src/linux/src/storage/persistence.rs).  The wall clock,
the pepper credential and every cryptographic primitive reach the layer
from outside the repository; they are threaded as parameters (CryptoPrims).
Every .unwrap() on a fallible step is modeled as none.
-/

theorem toDecDigits_length_le (k : Nat) :
    ∀ n, n < 10 ^ (k + 1) → (toDecDigits n).length ≤ k + 1 := by
  induction k with
  | zero =>
      intro n h
      rw [pow_one] at h
      rw [toDecDigits, dif_pos h]
      simp
  | succ k ih =>
      intro n h
      by_cases h10 : n < 10
      · rw [toDecDigits, dif_pos h10]
        simp only [List.length_cons, List.length_nil]
        omega
      · rw [toDecDigits, dif_neg h10, List.length_append]
        have hdiv : n / 10 < 10 ^ (k + 1) :=
          (Nat.div_lt_iff_lt_mul (by norm_num)).mpr (by rw [pow_succ] at h; exact h)
        have := ih (n / 10) hdiv
        simp only [List.length_cons, List.length_nil]
        omega

/-- Database::get_meta_entry(name).unwrap().get_value() as used throughout
persistence.rs: the entry must exist and its value field must decode as a
string. -/
def dbGetMetaValue (db : InteriorDatabase) (name : Bytes) : Option Bytes :=
  match db.getMetaEntry name with
  | some (some fa) => metaGetValue fa
  | _ => none

theorem metaOnly_getMeta (rs : List (Nat × Bytes))
    (hwfr : ∀ r ∈ rs, recWF r = true) (hnodup : (rs.map recKeyD).Nodup)
    (name : Bytes) :
    (canonDb (rs.filter (fun r => r.1 == 0))).getMetaEntry name =
      (canonDb rs).getMetaEntry name := by
  have hnodup2 : ((rs.filter (fun r => r.1 == 0)).map recKeyD).Nodup :=
    List.Nodup.sublist (List.Sublist.map recKeyD (List.filter_sublist rs)) hnodup
  rw [getMetaEntry_canonDb _ hnodup2 name, getMetaEntry_canonDb rs hnodup name]
  match hfind : recFindIdx (metaKey name) rs with
  | none =>
      have hnone2 : recFindIdx (metaKey name) (rs.filter (fun r => r.1 == 0)) =
          none := by
        rw [recFindIdx_none_iff] at hfind ⊢
        exact fun r hr => hfind r (List.mem_of_mem_filter hr)
      rw [hnone2]
  | some j =>
      obtain ⟨hjlt, r, hget, hkey⟩ := recFindIdx_some_get (metaKey name) rs j hfind
      have hmem : r ∈ rs := List.get?_mem hget
      have htag0 : r.1 = 0 := recKey_meta_tag0 r (hwfr r hmem) name hkey
      have hrf : r ∈ rs.filter (fun r => r.1 == 0) :=
        List.mem_filter.mpr ⟨hmem, by simp [htag0]⟩
      match hfind2 : recFindIdx (metaKey name) (rs.filter (fun r => r.1 == 0)) with
      | none =>
          exact absurd hkey ((recFindIdx_none_iff _ _).mp hfind2 r hrf)
      | some j2 =>
          obtain ⟨hjlt2, r2, hget2, hkey2⟩ := recFindIdx_some_get _ _ j2 hfind2
          have hr2 : r2 = r := rec_unique rs hnodup (metaKey name) j r r2 hfind hget
            (List.mem_of_mem_filter (List.get?_mem hget2)) hkey2
          simp only [hget, hget2, hr2]

theorem alistGet_canonDb (rs : List (Nat × Bytes))
    (hnodup : (rs.map recKeyD).Nodup) (key : Bytes) :
    alistGet key (canonDb rs).index_by_name = recFindIdx key rs := by
  show alistGet key (canonIndexAux [] 0 rs) = _
  rw [alistGet_canonIndexAux_eq rs key [] 0 hnodup]
  match hfind : recFindIdx key rs with
  | none => rfl
  | some i =>
      show some (0 + i) = some i
      rw [Nat.zero_add]

theorem canon_alistGet_lt (rs : List (Nat × Bytes))
    (hnodup : (rs.map recKeyD).Nodup) (key : Bytes) (id : Nat)
    (h : alistGet key (canonDb rs).index_by_name = some id) : id < rs.length := by
  rw [alistGet_canonDb rs hnodup key] at h
  exact (recFindIdx_some_get key rs id h).1

theorem recWF_deser (r : Nat × Bytes) (h : recWF r = true) :
    ∃ fa, FieldAtlas.deserialize r.2 = some fa := by
  rw [recWF] at h
  match hd : FieldAtlas.deserialize r.2 with
  | some fa => exact ⟨fa, rfl⟩
  | none => rw [hd] at h; simp at h

theorem recFindIdx_none_of_getMeta_none (rs : List (Nat × Bytes))
    (hwfr : ∀ r ∈ rs, recWF r = true) (hnodup : (rs.map recKeyD).Nodup)
    (name : Bytes) (h : (canonDb rs).getMetaEntry name = some none) :
    recFindIdx (metaKey name) rs = none := by
  rw [getMetaEntry_canonDb rs hnodup name] at h
  match hfind : recFindIdx (metaKey name) rs with
  | none => rfl
  | some j =>
      rw [hfind] at h
      obtain ⟨hjlt, r, hget, hkey⟩ := recFindIdx_some_get _ rs j hfind
      obtain ⟨fa, hfa⟩ := recWF_deser r (hwfr r (List.get?_mem hget))
      rw [List.get?_eq_getElem?] at hget
      simp [hget, hfa] at h

/-- An upsert under a fresh key leaves every meta lookup whose key differs
and whose indexed id is not the freshly handed-out one unchanged. -/
theorem getMeta_after_fresh_upsert (db : InteriorDatabase) (key : Bytes)
    (tag : Nat) (bs : Bytes) (nm2 : Bytes)
    (hfresh : alistGet key db.index_by_name = none)
    (hkne : metaKey nm2 ≠ key)
    (hids : ∀ id, alistGet (metaKey nm2) db.index_by_name = some id →
      id ≠ db.next_id) :
    (dbUpsert db key tag bs).getMetaEntry nm2 = db.getMetaEntry nm2 := by
  rw [dbUpsert]
  simp only [hfresh]
  show (match alistGet (metaKey nm2) ((key, db.next_id) :: db.index_by_name) with
    | none => (some none : Option (Option FieldAtlas))
    | some id =>
        match smapGet id (smapInsert db.next_id (tag, bs) db.entries) with
        | none => some none
        | some tb =>
            match FieldAtlas.deserialize tb.2 with
            | none => none
            | some fa => some (some fa)) =
    (match alistGet (metaKey nm2) db.index_by_name with
    | none => (some none : Option (Option FieldAtlas))
    | some id =>
        match smapGet id db.entries with
        | none => some none
        | some tb =>
            match FieldAtlas.deserialize tb.2 with
            | none => none
            | some fa => some (some fa))
  rw [alistGet_cons_ne key (metaKey nm2) db.next_id db.index_by_name hkne]
  match halist : alistGet (metaKey nm2) db.index_by_name with
  | none => rfl
  | some id =>
      show (match smapGet id (smapInsert db.next_id (tag, bs) db.entries) with
        | none => (some none : Option (Option FieldAtlas))
        | some tb =>
            match FieldAtlas.deserialize tb.2 with
            | none => none
            | some fa => some (some fa)) =
        (match smapGet id db.entries with
        | none => (some none : Option (Option FieldAtlas))
        | some tb =>
            match FieldAtlas.deserialize tb.2 with
            | none => none
            | some fa => some (some fa))
      rw [smapGet_insert_ne db.next_id id (tag, bs) db.entries (hids id halist)]

/-- An upsert under a fresh key binds the key to next_id and stores the
record there. -/
theorem fresh_upsert_entry (db : InteriorDatabase) (key : Bytes) (tag : Nat)
    (bs : Bytes) (hfresh : alistGet key db.index_by_name = none) :
    alistGet key (dbUpsert db key tag bs).index_by_name = some db.next_id ∧
    smapGet db.next_id (dbUpsert db key tag bs).entries = some (tag, bs) := by
  rw [dbUpsert]
  simp only [hfresh]
  exact ⟨alistGet_cons_self key db.next_id db.index_by_name,
    smapGet_insert_self db.next_id (tag, bs) db.entries⟩

/-- master_key_derivation (persistence.rs 205-249): SHA3-256 pre-hash of
salt, pepper and password; Argon2id (version 0x13, m_cost 2^22 in release
or 2^12 under debug_assertions, t_cost 1, p_cost 1, 32-byte output) over
the pre-hash with salt "salt ++ pepper"; SHA3-256 post-hash of main hash,
pepper and salt, written at offset 0 into a fresh one-page SecretMemory. -/
def masterKeyDerivation (prims : CryptoPrims) (debug : Bool)
    (password pepper salt : Bytes) : Option SecretMemory :=
  let pre := prims.sha3 (salt ++ pepper ++ password)
  let main := prims.argon2id 19 (if debug then 2 ^ 12 else 2 ^ 22) 1 1 32 pre
    (salt ++ pepper)
  let post := prims.sha3 (main ++ pepper ++ salt)
  (SecretMemory.new 4096).write 0 post

/-- Modelled from the spec: the fixed chain pre = SHA3-256(salt, pepper,
password); main = Argon2id(0x13, 2^22 release / 2^12 debug, 1, 1, 32 bytes)
with password input pre and salt input salt ++ pepper; key = SHA3-256(main,
pepper, salt). -/
def specKeyChain (prims : CryptoPrims) (debug : Bool)
    (password salt pepper : Bytes) : Bytes :=
  prims.sha3 (prims.argon2id 19 (if debug then 2 ^ 12 else 2 ^ 22) 1 1 32
    (prims.sha3 (salt ++ pepper ++ password)) (salt ++ pepper) ++ pepper ++ salt)

/-- The 24-byte XChaCha20 nonce built from a u128 counter: its 16
little-endian bytes followed by eight zero bytes. -/
def nonceBytes (n : Nat) : Bytes := leBytes 16 n ++ List.replicate 8 0

/-- db_envelope_from_vec (persistence.rs 108-110). -/
def dbEnvelopeFromVec (prims : CryptoPrims) (encoded : List Nat) :
    Option InteriorDatabase :=
  (decodeErasure prims encoded).bind InteriorDatabase.deserialize

/-- parse_decryption_parameters (persistence.rs 112-128): the nonce meta
value parses as a u128 whose 16 little-endian bytes fill the first 16 of
the 24-byte nonce; the salt meta value must decode from base64 into
exactly 32 bytes. -/
def parseDecParams (prims : CryptoPrims) (env : InteriorDatabase) :
    Option (Bytes × Bytes) :=
  match dbGetMetaValue env nonceName with
  | none => none
  | some nv =>
      match parseU (2 ^ 128) nv with
      | none => none
      | some n =>
          match dbGetMetaValue env saltName with
          | none => none
          | some sv =>
              match prims.fromB64 sv with
              | none => none
              | some salt =>
                  if salt.length = 32 then some (nonceBytes n, salt)
                  else none

/-- The modified_ts meta value of an envelope, parsed as u64 (load,
persistence.rs 68-79). -/
def getTs (env : InteriorDatabase) : Option Nat :=
  match dbGetMetaValue env modifiedTsName with
  | none => none
  | some tv => parseU (2 ^ 64) tv

/-- db_from_envelope (persistence.rs 130-140): base64-decode the db meta
value, decrypt it under the master key (whose readable view must hold
exactly 32 bytes) and the nonce, decompress and deserialize the interior
database. -/
def dbFromEnvelope (prims : CryptoPrims) (env : InteriorDatabase)
    (mk : SecretMemory) (nonce : Bytes) : Option Database :=
  match dbGetMetaValue env dbFieldName with
  | none => none
  | some dv =>
      match prims.fromB64 dv with
      | none => none
      | some encBin =>
          if mk.readBytes.length = 32 then
            match prims.decrypt mk.readBytes nonce encBin with
            | none => none
            | some compBin =>
                match InteriorDatabase.deserialize (prims.decompress compBin) with
                | none => none
                | some core => some ⟨mk, core⟩
          else none

/-- The both-copies-exist branch of load (persistence.rs 62-85): decode
both envelopes, parse both decryption parameter pairs, derive the master
key from the local salt, read both modified_ts values, and fully open only
the local copy when ts_local >= ts_remote, else only the remote copy. -/
def loadBoth (prims : CryptoPrims) (debug : Bool) (password pepper : Bytes)
    (encLocal encRemote : List Nat) : Option Database :=
  match dbEnvelopeFromVec prims encLocal with
  | none => none
  | some envL =>
      match parseDecParams prims envL with
      | none => none
      | some (nonceL, salt) =>
          match dbEnvelopeFromVec prims encRemote with
          | none => none
          | some envR =>
              match parseDecParams prims envR with
              | none => none
              | some (nonceR, _) =>
                  match masterKeyDerivation prims debug password pepper salt with
                  | none => none
                  | some mk =>
                      match getTs envL with
                      | none => none
                      | some tsL =>
                          match getTs envR with
                          | none => none
                          | some tsR =>
                              if tsR ≤ tsL then
                                dbFromEnvelope prims envL mk nonceL
                              else dbFromEnvelope prims envR mk nonceR

/-- db_to_vec (persistence.rs 161-188): set modified_ts, read and parse the
nonce counter as u128, add one (a u128 addition, wrapping in release),
store the incremented counter back as a decimal meta value, serialize,
compress and encrypt the full database under the first 16 little-endian
bytes of the counter (nonce bytes 16..24 stay zero), then build the public
envelope from meta_only plus a base64 db field, and erasure-encode its
serialization.  The master key read requires exactly 32 readable bytes.
The mutated database is returned with the encoded bytes. -/
def dbToVec (prims : CryptoPrims) (ts : Nat) (db : Database) :
    Option (Database × List Nat) :=
  match db.interior.setMetaEntry (metaEntryNew modifiedTsName (toDecDigits ts)) with
  | none => none
  | some db1 =>
      match dbGetMetaValue db1 nonceName with
      | none => none
      | some nv =>
          match parseU (2 ^ 128) nv with
          | none => none
          | some n0 =>
              match db1.setMetaEntry
                  (metaEntryNew nonceName (toDecDigits ((n0 + 1) % 2 ^ 128))) with
              | none => none
              | some db2 =>
                  if db.masterKey.readBytes.length = 32 then
                    match db2.metaOnly with
                    | none => none
                    | some envInt =>
                        match envInt.setMetaEntry (metaEntryNew dbFieldName
                            (prims.toB64 (prims.encrypt db.masterKey.readBytes
                              (nonceBytes ((n0 + 1) % 2 ^ 128))
                              (prims.compress
                                (InteriorDatabase.serialize db2))))) with
                        | none => none
                        | some env2 =>
                            some (⟨db.masterKey, db2⟩,
                              encodeErasure prims (InteriorDatabase.serialize env2))
                  else none
theorem utf8_toDecDigits (n : Nat) : utf8Valid (toDecDigits n) = true :=
  utf8Valid_ascii _ (toDecDigits_ascii n)

theorem faWF_meta_digits (nm : Bytes) (k m : Nat) (hnm : nm.length ≤ 11)
    (hk : k ≤ 38) (hm : m < 10 ^ (k + 1)) :
    faWF (metaEntryNew nm (toDecDigits m)) = true := by
  refine faWF_metaEntryNew nm _ ?_
  have h1 : (toDecDigits m).length ≤ k + 1 := toDecDigits_length_le k m hm
  have hU : U32 = 4294967296 := rfl
  omega

/-- One full db_to_vec run on a canonical vault holding a parseable nonce
counter n and no db meta entry: it succeeds, the mutated vault is canonical
and stores the wrapped incremented counter, and the emitted envelope stores
the same counter in its nonce meta entry together with a db record whose
value is the base64 ciphertext of the compressed serialized vault encrypted
under the nonce built from the incremented counter. -/
theorem dbToVec_canonical (prims : CryptoPrims) (ts n : Nat) (mk : SecretMemory)
    (rs : List (Nat × Bytes)) (hc : CanonicalRs rs) (hlen : rs.length + 3 < U32)
    (hts : ts < 2 ^ 64) (hmk : mk.readBytes.length = 32) (hn : n < 2 ^ 128)
    (hnonce : ∃ fa, (canonDb rs).getMetaEntry nonceName = some (some fa) ∧
      metaGetValue fa = some (toDecDigits n))
    (hnodb : (canonDb rs).getMetaEntry dbFieldName = some none) :
    ∃ rs2 env2,
      dbToVec prims ts ⟨mk, canonDb rs⟩ =
        some (⟨mk, canonDb rs2⟩,
          encodeErasure prims (InteriorDatabase.serialize env2)) ∧
      CanonicalRs rs2 ∧ rs2.length ≤ rs.length + 2 ∧
      (∃ fa, (canonDb rs2).getMetaEntry nonceName = some (some fa) ∧
        metaGetValue fa = some (toDecDigits ((n + 1) % 2 ^ 128))) ∧
      (canonDb rs2).getMetaEntry dbFieldName = some none ∧
      (∃ fa, env2.getMetaEntry nonceName = some (some fa) ∧
        metaGetValue fa = some (toDecDigits ((n + 1) % 2 ^ 128))) ∧
      (∃ id, alistGet (metaKey dbFieldName) env2.index_by_name = some id ∧
        smapGet id env2.entries = some (0, FieldAtlas.serialize (metaEntryNew
          dbFieldName (prims.toB64 (prims.encrypt mk.readBytes
            (nonceBytes ((n + 1) % 2 ^ 128))
            (prims.compress (InteriorDatabase.serialize (canonDb rs2)))))))) := by
  obtain ⟨fa0, hget0, hval0⟩ := hnonce
  -- step 1: set modified_ts
  have hfa1 : faWF (metaEntryNew modifiedTsName (toDecDigits ts)) = true :=
    faWF_meta_digits modifiedTsName 19 ts (by decide) (by omega)
      (by
        have h2 : (10:Nat) ^ (19 + 1) = 100000000000000000000 := by norm_num
        have h3 : (2:Nat) ^ 64 = 18446744073709551616 := by norm_num
        omega)
  obtain ⟨rs1, hset1, hc1, hlo1, hhi1, hget1, hpres1⟩ :=
    setMeta_canonical rs hc (by omega) modifiedTsName (toDecDigits ts) hfa1
      (utf8Valid_ascii _ (by decide))
  -- step 2: the nonce value survives the first set
  have hgetn1 : (canonDb rs1).getMetaEntry nonceName = some (some fa0) := by
    rw [hpres1 nonceName (by decide)]
    exact hget0
  have hval1 : dbGetMetaValue (canonDb rs1) nonceName = some (toDecDigits n) := by
    simp only [dbGetMetaValue, hgetn1]
    exact hval0
  -- step 3: parse
  have hpar : parseU (2 ^ 128) (toDecDigits n) = some n :=
    parseU_toDecDigits _ n hn
  -- step 4: set the incremented nonce
  have hn1 : (n + 1) % 2 ^ 128 < 2 ^ 128 := Nat.mod_lt _ (by norm_num)
  have hfa2 : faWF (metaEntryNew nonceName
      (toDecDigits ((n + 1) % 2 ^ 128))) = true :=
    faWF_meta_digits nonceName 38 _ (by decide) (by omega)
      (by
        have h2 : (10:Nat) ^ (38 + 1) =
          1000000000000000000000000000000000000000 := by norm_num
        have h3 : (2:Nat) ^ 128 =
          340282366920938463463374607431768211456 := by norm_num
        omega)
  obtain ⟨rs2, hset2, hc2, hlo2, hhi2, hget2, hpres2⟩ :=
    setMeta_canonical rs1 hc1 (by omega) nonceName
      (toDecDigits ((n + 1) % 2 ^ 128)) hfa2 (utf8Valid_ascii _ (by decide))
  -- nonce reads back from the mutated vault
  have hval2 : metaGetValue (metaEntryNew nonceName
      (toDecDigits ((n + 1) % 2 ^ 128))) =
      some (toDecDigits ((n + 1) % 2 ^ 128)) :=
    metaGetValue_new _ _ (utf8_toDecDigits _)
  -- no db meta entry in the mutated vault
  have hdbf2 : (canonDb rs2).getMetaEntry dbFieldName = some none := by
    rw [hpres2 dbFieldName (by decide), hpres1 dbFieldName (by decide)]
    exact hnodb
  -- step 6: meta_only
  have hmeta : (canonDb rs2).metaOnly =
      some (canonDb (rs2.filter (fun r => r.1 == 0))) :=
    metaOnly_canonical rs2 hc2.1 hc2.2 (by omega)
  have hwfF : ∀ r ∈ rs2.filter (fun r => r.1 == 0), recWF r = true :=
    fun r hr => hc2.1 r (List.mem_of_mem_filter hr)
  have hnodupF : ((rs2.filter (fun r => r.1 == 0)).map recKeyD).Nodup :=
    List.Nodup.sublist (List.Sublist.map recKeyD (List.filter_sublist rs2)) hc2.2
  -- the db key is fresh in the envelope
  have hdbfF : (canonDb (rs2.filter (fun r => r.1 == 0))).getMetaEntry
      dbFieldName = some none :=
    (metaOnly_getMeta rs2 hc2.1 hc2.2 dbFieldName).trans hdbf2
  have hfresh : alistGet (metaKey dbFieldName)
      (canonDb (rs2.filter (fun r => r.1 == 0))).index_by_name = none := by
    rw [alistGet_canonDb _ hnodupF]
    exact recFindIdx_none_of_getMeta_none _ hwfF hnodupF dbFieldName hdbfF
  have hids : ∀ id, alistGet (metaKey nonceName)
      (canonDb (rs2.filter (fun r => r.1 == 0))).index_by_name = some id →
      id ≠ (canonDb (rs2.filter (fun r => r.1 == 0))).next_id := by
    intro id hid
    have := canon_alistGet_lt _ hnodupF _ id hid
    show id ≠ (rs2.filter (fun r => r.1 == 0)).length
    omega
  -- step 7: the envelope's db entry
  have hsetdb : (canonDb (rs2.filter (fun r => r.1 == 0))).setMetaEntry
      (metaEntryNew dbFieldName (prims.toB64 (prims.encrypt mk.readBytes
        (nonceBytes ((n + 1) % 2 ^ 128))
        (prims.compress (InteriorDatabase.serialize (canonDb rs2)))))) =
      some (dbUpsert (canonDb (rs2.filter (fun r => r.1 == 0)))
        (metaKey dbFieldName) 0
        (FieldAtlas.serialize (metaEntryNew dbFieldName
          (prims.toB64 (prims.encrypt mk.readBytes
            (nonceBytes ((n + 1) % 2 ^ 128))
            (prims.compress (InteriorDatabase.serialize (canonDb rs2)))))))) := by
    rw [InteriorDatabase.setMetaEntry]
    simp only [metaGetName_new dbFieldName _ (utf8Valid_ascii _ (by decide))]
  refine ⟨rs2, dbUpsert (canonDb (rs2.filter (fun r => r.1 == 0)))
    (metaKey dbFieldName) 0
    (FieldAtlas.serialize (metaEntryNew dbFieldName
      (prims.toB64 (prims.encrypt mk.readBytes
        (nonceBytes ((n + 1) % 2 ^ 128))
        (prims.compress (InteriorDatabase.serialize (canonDb rs2))))))),
    ?_, hc2, by omega,
    ⟨metaEntryNew nonceName (toDecDigits ((n + 1) % 2 ^ 128)), hget2, hval2⟩,
    hdbf2, ?_, ?_⟩
  · -- the run itself
    rw [dbToVec]
    simp only [hset1, hval1, hpar, hset2, hmk, hmeta, hsetdb, if_pos]
  · -- envelope nonce entry
    rw [getMeta_after_fresh_upsert _ _ _ _ nonceName hfresh (by decide) hids]
    rw [metaOnly_getMeta rs2 hc2.1 hc2.2 nonceName]
    exact ⟨metaEntryNew nonceName (toDecDigits ((n + 1) % 2 ^ 128)), hget2, hval2⟩
  · -- envelope db entry
    obtain ⟨ha, hs⟩ := fresh_upsert_entry _ _ 0 _ hfresh
    exact ⟨(canonDb (rs2.filter (fun r => r.1 == 0))).next_id, ha, hs⟩
/-- Claim C3 (amended): on a canonical vault whose nonce counter meta entry
holds the decimal u128 value n and which carries no db meta entry, two
successive saves both succeed; the first stores (n + 1) mod 2^128 in the
vault and in the persisted envelope's nonce metadata and encrypts the
private payload under the nonce built from that counter, the second does
the same with (n + 2) mod 2^128, and the two encryption nonces differ.
The increment is modular - the u128 addition wraps - so the stored counter
is the literal n + 1 only below 2^128 - 1. -/
theorem claim_C3_nonce_increment (prims : CryptoPrims) (ts1 ts2 n : Nat)
    (mk : SecretMemory) (rs : List (Nat × Bytes))
    (hc : CanonicalRs rs) (hlen : rs.length + 6 < U32)
    (hts1 : ts1 < 2 ^ 64) (hts2 : ts2 < 2 ^ 64)
    (hmk : mk.readBytes.length = 32) (hn : n < 2 ^ 128)
    (hnonce : ∃ fa, (canonDb rs).getMetaEntry nonceName = some (some fa) ∧
      metaGetValue fa = some (toDecDigits n))
    (hnodb : (canonDb rs).getMetaEntry dbFieldName = some none) :
    ∃ db1 env1 enc1 db2 env2 enc2,
      dbToVec prims ts1 ⟨mk, canonDb rs⟩ = some (db1, enc1) ∧
      dbToVec prims ts2 db1 = some (db2, enc2) ∧
      enc1 = encodeErasure prims (InteriorDatabase.serialize env1) ∧
      enc2 = encodeErasure prims (InteriorDatabase.serialize env2) ∧
      (∃ fa, db1.interior.getMetaEntry nonceName = some (some fa) ∧
        metaGetValue fa = some (toDecDigits ((n + 1) % 2 ^ 128))) ∧
      (∃ fa, env1.getMetaEntry nonceName = some (some fa) ∧
        metaGetValue fa = some (toDecDigits ((n + 1) % 2 ^ 128))) ∧
      (∃ id, alistGet (metaKey dbFieldName) env1.index_by_name = some id ∧
        smapGet id env1.entries = some (0, FieldAtlas.serialize (metaEntryNew
          dbFieldName (prims.toB64 (prims.encrypt mk.readBytes
            (nonceBytes ((n + 1) % 2 ^ 128))
            (prims.compress (InteriorDatabase.serialize db1.interior))))))) ∧
      (∃ fa, env2.getMetaEntry nonceName = some (some fa) ∧
        metaGetValue fa = some (toDecDigits ((n + 2) % 2 ^ 128))) ∧
      (∃ id, alistGet (metaKey dbFieldName) env2.index_by_name = some id ∧
        smapGet id env2.entries = some (0, FieldAtlas.serialize (metaEntryNew
          dbFieldName (prims.toB64 (prims.encrypt mk.readBytes
            (nonceBytes ((n + 2) % 2 ^ 128))
            (prims.compress (InteriorDatabase.serialize db2.interior))))))) ∧
      nonceBytes ((n + 1) % 2 ^ 128) ≠ nonceBytes ((n + 2) % 2 ^ 128) := by
  obtain ⟨rsA, envA, hrun1, hcA, hlenA, hnonceA, hnodbA, henvA, hdbA⟩ :=
    dbToVec_canonical prims ts1 n mk rs hc (by omega) hts1 hmk hn hnonce hnodb
  obtain ⟨rsB, envB, hrun2, hcB, hlenB, hnonceB, hnodbB, henvB, hdbB⟩ :=
    dbToVec_canonical prims ts2 ((n + 1) % 2 ^ 128) mk rsA hcA (by omega) hts2
      hmk (Nat.mod_lt _ (by norm_num)) hnonceA hnodbA
  have hmod : ((n + 1) % 2 ^ 128 + 1) % 2 ^ 128 = (n + 2) % 2 ^ 128 := by
    rw [Nat.mod_add_mod]
  rw [hmod] at hnonceB henvB hdbB
  have hne : nonceBytes ((n + 1) % 2 ^ 128) ≠ nonceBytes ((n + 2) % 2 ^ 128) := by
    intro he
    have h16 : ∀ m, (nonceBytes m).take 16 = leBytes 16 m := fun m => by
      rw [nonceBytes]
      exact List.take_left' (leBytes_length 16 m)
    have h2 := congrArg (fun l => leToNat (List.take 16 l)) he
    simp only [h16] at h2
    rw [leToNat_leBytes, leToNat_leBytes] at h2
    have h3 : (256:Nat) ^ 16 = 340282366920938463463374607431768211456 := by
      norm_num
    have h4 : (2:Nat) ^ 128 = 340282366920938463463374607431768211456 := by
      norm_num
    omega
  exact ⟨⟨mk, canonDb rsA⟩, envA, _, ⟨mk, canonDb rsB⟩, envB, _, hrun1, hrun2,
    rfl, rfl, hnonceA, henvA, hdbA, henvB, hdbB, hne⟩

def mkW : SecretMemory := ⟨32, 32, List.replicate 32 1⟩

def nonceRs (v : Bytes) : List (Nat × Bytes) :=
  [(0, FieldAtlas.serialize (metaEntryNew nonceName v))]

theorem nonceRec_key (v : Bytes)
    (hfa : faWF (metaEntryNew nonceName v) = true) :
    recKeyD (0, FieldAtlas.serialize (metaEntryNew nonceName v)) =
      metaKey nonceName :=
  recKeyD_meta _ hfa nonceName
    (metaGetName_new nonceName _ (utf8Valid_ascii _ (by decide)))

theorem nonceRs_canonical (v : Bytes)
    (hfa : faWF (metaEntryNew nonceName v) = true) :
    CanonicalRs (nonceRs v) := by
  constructor
  · intro r hr
    simp only [nonceRs, List.mem_singleton] at hr
    subst hr
    refine recWF_meta _ hfa ?_
    rw [metaGetName_new nonceName _ (utf8Valid_ascii _ (by decide))]
    rfl
  · simp [nonceRs]

theorem nonceRs_getNonce (v : Bytes)
    (hfa : faWF (metaEntryNew nonceName v) = true) :
    (canonDb (nonceRs v)).getMetaEntry nonceName =
      some (some (metaEntryNew nonceName v)) := by
  rw [getMetaEntry_canonDb _ (nonceRs_canonical v hfa).2 nonceName]
  have hfind : recFindIdx (metaKey nonceName) (nonceRs v) = some 0 := by
    rw [nonceRs, recFindIdx, if_pos (nonceRec_key v hfa)]
  have hget0 : (nonceRs v).get? 0 =
    some (0, FieldAtlas.serialize (metaEntryNew nonceName v)) := rfl
  simp only [hfind, hget0, fieldAtlas_deserialize_serialize _ hfa]

theorem nonceRs_nodb (v : Bytes)
    (hfa : faWF (metaEntryNew nonceName v) = true) :
    (canonDb (nonceRs v)).getMetaEntry dbFieldName = some none := by
  rw [getMetaEntry_canonDb _ (nonceRs_canonical v hfa).2 dbFieldName]
  have hfind : recFindIdx (metaKey dbFieldName) (nonceRs v) = none := by
    rw [nonceRs, recFindIdx, if_neg (by rw [nonceRec_key v hfa]; decide)]
    rfl
  rw [hfind]

theorem faW53 : faWF (metaEntryNew nonceName [53]) = true :=
  faWF_metaEntryNew _ _ (by decide)

theorem toDec5 : toDecDigits 5 = [53] := by
  rw [toDecDigits, dif_pos (by norm_num : (5:Nat) < 10)]

theorem claim_C3_witness :
    ∃ db1 env1 enc1 db2 env2 enc2,
      dbToVec constPrims 11 ⟨mkW, canonDb (nonceRs [53])⟩ = some (db1, enc1) ∧
      dbToVec constPrims 12 db1 = some (db2, enc2) ∧
      enc1 = encodeErasure constPrims (InteriorDatabase.serialize env1) ∧
      enc2 = encodeErasure constPrims (InteriorDatabase.serialize env2) ∧
      (∃ fa, db1.interior.getMetaEntry nonceName = some (some fa) ∧
        metaGetValue fa = some (toDecDigits ((5 + 1) % 2 ^ 128))) ∧
      (∃ fa, env1.getMetaEntry nonceName = some (some fa) ∧
        metaGetValue fa = some (toDecDigits ((5 + 1) % 2 ^ 128))) ∧
      (∃ id, alistGet (metaKey dbFieldName) env1.index_by_name = some id ∧
        smapGet id env1.entries = some (0, FieldAtlas.serialize (metaEntryNew
          dbFieldName (constPrims.toB64 (constPrims.encrypt mkW.readBytes
            (nonceBytes ((5 + 1) % 2 ^ 128))
            (constPrims.compress (InteriorDatabase.serialize db1.interior))))))) ∧
      (∃ fa, env2.getMetaEntry nonceName = some (some fa) ∧
        metaGetValue fa = some (toDecDigits ((5 + 2) % 2 ^ 128))) ∧
      (∃ id, alistGet (metaKey dbFieldName) env2.index_by_name = some id ∧
        smapGet id env2.entries = some (0, FieldAtlas.serialize (metaEntryNew
          dbFieldName (constPrims.toB64 (constPrims.encrypt mkW.readBytes
            (nonceBytes ((5 + 2) % 2 ^ 128))
            (constPrims.compress (InteriorDatabase.serialize db2.interior))))))) ∧
      nonceBytes ((5 + 1) % 2 ^ 128) ≠ nonceBytes ((5 + 2) % 2 ^ 128) :=
  claim_C3_nonce_increment constPrims 11 12 5 mkW (nonceRs [53])
    (nonceRs_canonical [53] faW53) (by decide) (by decide) (by decide)
    (by decide) (by decide)
    ⟨metaEntryNew nonceName [53], nonceRs_getNonce [53] faW53,
      by rw [metaGetValue_new nonceName [53] (utf8Valid_ascii _ (by decide)),
        toDec5]⟩
    (nonceRs_nodb [53] faW53)

theorem faWF_rsC : faWF (metaEntryNew nonceName
    (toDecDigits (2 ^ 128 - 1))) = true :=
  faWF_meta_digits nonceName 38 _ (by decide) (by omega) (by
    have h2 : (10:Nat) ^ (38 + 1) =
      1000000000000000000000000000000000000000 := by norm_num
    have h3 : (2:Nat) ^ 128 =
      340282366920938463463374607431768211456 := by norm_num
    omega)

/-- Claim C3 counterexample: with the persisted counter at 2^128 - 1 the
save succeeds, but the counter stored in the mutated vault is 0, not the
incremented value 2^128: the u128 addition wraps, so "increments ... by
exactly one, stores the incremented value" fails at this input. -/
theorem claim_C3_counterexample :
    ∃ db1 enc1,
      dbToVec constPrims 11
        ⟨mkW, canonDb (nonceRs (toDecDigits (2 ^ 128 - 1)))⟩ =
        some (db1, enc1) ∧
      (∃ fa, db1.interior.getMetaEntry nonceName = some (some fa) ∧
        metaGetValue fa = some (toDecDigits 0) ∧
        metaGetValue fa ≠ some (toDecDigits (2 ^ 128 - 1 + 1))) := by
  have hnonce : ∃ fa, (canonDb (nonceRs (toDecDigits (2 ^ 128 - 1)))).getMetaEntry
      nonceName = some (some fa) ∧
      metaGetValue fa = some (toDecDigits (2 ^ 128 - 1)) :=
    ⟨metaEntryNew nonceName (toDecDigits (2 ^ 128 - 1)),
      nonceRs_getNonce _ faWF_rsC, metaGetValue_new _ _ (utf8_toDecDigits _)⟩
  obtain ⟨rsA, envA, hrun1, hcA, hlenA, hnonceA, hnodbA, henvA, hdbA⟩ :=
    dbToVec_canonical constPrims 11 (2 ^ 128 - 1) mkW
      (nonceRs (toDecDigits (2 ^ 128 - 1)))
      (nonceRs_canonical _ faWF_rsC)
      (by decide) (by decide) (by decide) (by norm_num) hnonce
      (nonceRs_nodb _ faWF_rsC)
  have hwrap : (2 ^ 128 - 1 + 1) % 2 ^ 128 = 0 := by norm_num
  rw [hwrap] at hnonceA
  obtain ⟨fa, hfa1, hfa2⟩ := hnonceA
  refine ⟨⟨mkW, canonDb rsA⟩, _, hrun1, fa, hfa1, hfa2, ?_⟩
  rw [hfa2]
  intro he
  have h1 := parseU_toDecDigits (2 ^ 129) 0 (by norm_num)
  have h2 := parseU_toDecDigits (2 ^ 129) (2 ^ 128 - 1 + 1) (by norm_num)
  rw [Option.some.injEq] at he
  rw [he] at h1
  rw [h1] at h2
  exact absurd (Option.some.inj h2) (by norm_num)
theorem mkd_eq (prims : CryptoPrims) (debug : Bool)
    (password pepper salt : Bytes)
    (hsha3 : ∀ b, (prims.sha3 b).length = 32) :
    masterKeyDerivation prims debug password pepper salt =
      some ⟨4096, 32, specKeyChain prims debug password salt pepper ++
        (List.replicate 4096 0).drop 32⟩ := by
  simp only [masterKeyDerivation, SecretMemory.new, SecretMemory.write,
    specKeyChain, hsha3]
  norm_num

/-- Claim C5: master_key_derivation succeeds whenever SHA3-256 produces
32-byte digests, and its readable key is exactly the spec chain
SHA3(Argon2id(0x13, 2^22 or 2^12, 1, 1, 32)(SHA3(salt, pepper, password),
salt ++ pepper), pepper, salt), a 32-byte value; the derivation is
deterministic. -/
theorem claim_C5_key_derivation (prims : CryptoPrims) (debug : Bool)
    (password pepper salt : Bytes)
    (hsha3 : ∀ b, (prims.sha3 b).length = 32) :
    ∃ mk, masterKeyDerivation prims debug password pepper salt = some mk ∧
      mk.readBytes = specKeyChain prims debug password salt pepper ∧
      mk.readBytes.length = 32 ∧
      (∀ mk2, masterKeyDerivation prims debug password pepper salt = some mk2 →
        mk2.readBytes = mk.readBytes) := by
  have hspec : (specKeyChain prims debug password salt pepper).length = 32 := by
    rw [specKeyChain]
    exact hsha3 _
  have hr : SecretMemory.readBytes ⟨4096, 32,
      specKeyChain prims debug password salt pepper ++
        (List.replicate 4096 0).drop 32⟩ =
      specKeyChain prims debug password salt pepper := by
    show (specKeyChain prims debug password salt pepper ++
      (List.replicate 4096 0).drop 32).take 32 = _
    exact List.take_left' hspec
  refine ⟨_, mkd_eq prims debug password pepper salt hsha3, hr,
    by rw [hr]; exact hspec, ?_⟩
  intro mk2 h2
  rw [mkd_eq prims debug password pepper salt hsha3] at h2
  cases Option.some.inj h2
  rfl

theorem claim_C5_witness :
    ∃ mk, masterKeyDerivation constPrims true [1] [2] [3] = some mk ∧
      mk.readBytes = specKeyChain constPrims true [1] [3] [2] ∧
      mk.readBytes.length = 32 ∧
      (∀ mk2, masterKeyDerivation constPrims true [1] [2] [3] = some mk2 →
        mk2.readBytes = mk.readBytes) :=
  claim_C5_key_derivation constPrims true [1] [2] [3]
    (fun b => by simp [constPrims])

/-!
Concrete canonical vaults holding only freshly built meta entries, used to
compute the load path on explicit envelopes.
-/

def metaRs (ps : List (Bytes × Bytes)) : List (Nat × Bytes) :=
  ps.map (fun p => (0, FieldAtlas.serialize (metaEntryNew p.1 p.2)))

theorem metaRs_find (ps : List (Bytes × Bytes))
    (hwf : ∀ p ∈ ps, faWF (metaEntryNew p.1 p.2) = true ∧
      utf8Valid p.1 = true) :
    ∀ nm v, (nm, v) ∈ ps → (ps.map Prod.fst).Nodup →
    ∃ j, recFindIdx (metaKey nm) (metaRs ps) = some j ∧
      (metaRs ps).get? j =
        some (0, FieldAtlas.serialize (metaEntryNew nm v)) := by
  induction ps with
  | nil =>
      intro nm v hmem _
      simp at hmem
  | cons p rest ih =>
      intro nm v hmem hnod
      have hkey : recKeyD (0, FieldAtlas.serialize (metaEntryNew p.1 p.2)) =
          metaKey p.1 :=
        recKeyD_meta _ (hwf p (by simp)).1 p.1
          (metaGetName_new _ _ (hwf p (by simp)).2)
      rcases List.mem_cons.mp hmem with hmem | hmem
      · subst hmem
        exact ⟨0, by rw [metaRs, List.map_cons, recFindIdx, if_pos hkey], rfl⟩
      · have hne : p.1 ≠ nm := by
          intro hcontra
          simp only [List.map_cons, List.nodup_cons] at hnod
          exact hnod.1 (hcontra ▸ List.mem_map_of_mem Prod.fst hmem)
        obtain ⟨j, h1, h2⟩ := ih (fun q hq => hwf q (by simp [hq])) nm v hmem
          (by simp only [List.map_cons, List.nodup_cons] at hnod; exact hnod.2)
        refine ⟨j + 1, ?_, h2⟩
        rw [metaRs, List.map_cons, recFindIdx,
          if_neg (by rw [hkey]; exact fun he => hne (metaKey_inj he))]
        show (recFindIdx (metaKey nm) (metaRs rest)).map (· + 1) = some (j + 1)
        rw [h1]
        rfl

theorem metaRs_find_none (ps : List (Bytes × Bytes))
    (hwf : ∀ p ∈ ps, faWF (metaEntryNew p.1 p.2) = true ∧
      utf8Valid p.1 = true)
    (nm : Bytes) (hno : ∀ p ∈ ps, p.1 ≠ nm) :
    recFindIdx (metaKey nm) (metaRs ps) = none := by
  rw [recFindIdx_none_iff]
  intro r hr
  rw [metaRs] at hr
  obtain ⟨p, hp, hpr⟩ := List.mem_map.mp hr
  subst hpr
  rw [recKeyD_meta _ (hwf p hp).1 p.1 (metaGetName_new _ _ (hwf p hp).2)]
  exact fun he => hno p hp (metaKey_inj he)

theorem metaRs_canonical (ps : List (Bytes × Bytes))
    (hwf : ∀ p ∈ ps, faWF (metaEntryNew p.1 p.2) = true ∧
      utf8Valid p.1 = true)
    (hnod : (ps.map Prod.fst).Nodup) : CanonicalRs (metaRs ps) := by
  constructor
  · intro r hr
    rw [metaRs] at hr
    obtain ⟨p, hp, hpr⟩ := List.mem_map.mp hr
    subst hpr
    refine recWF_meta _ (hwf p hp).1 ?_
    rw [metaGetName_new _ _ (hwf p hp).2]
    rfl
  · have hmap : (metaRs ps).map recKeyD = ps.map (fun p => metaKey p.1) := by
      rw [metaRs, List.map_map]
      exact List.map_congr_left (fun p hp => recKeyD_meta _ (hwf p hp).1 p.1
        (metaGetName_new _ _ (hwf p hp).2))
    have hmap2 : ps.map (fun p => metaKey p.1) =
        (ps.map Prod.fst).map metaKey := by rw [List.map_map]; rfl
    rw [hmap, hmap2]
    exact List.Nodup.map (fun a b h => metaKey_inj h) hnod

theorem metaRs_getMeta (ps : List (Bytes × Bytes))
    (hwf : ∀ p ∈ ps, faWF (metaEntryNew p.1 p.2) = true ∧
      utf8Valid p.1 = true)
    (hnod : (ps.map Prod.fst).Nodup) (nm v : Bytes) (hmem : (nm, v) ∈ ps) :
    (canonDb (metaRs ps)).getMetaEntry nm =
      some (some (metaEntryNew nm v)) := by
  obtain ⟨j, h1, h2⟩ := metaRs_find ps hwf nm v hmem hnod
  rw [getMetaEntry_canonDb _ (metaRs_canonical ps hwf hnod).2 nm]
  simp only [h1, h2, fieldAtlas_deserialize_serialize _ (hwf (nm, v) hmem).1]

theorem metaRs_getMeta_none (ps : List (Bytes × Bytes))
    (hwf : ∀ p ∈ ps, faWF (metaEntryNew p.1 p.2) = true ∧
      utf8Valid p.1 = true)
    (hnod : (ps.map Prod.fst).Nodup) (nm : Bytes)
    (hno : ∀ p ∈ ps, p.1 ≠ nm) :
    (canonDb (metaRs ps)).getMetaEntry nm = some none := by
  rw [getMetaEntry_canonDb _ (metaRs_canonical ps hwf hnod).2 nm]
  rw [metaRs_find_none ps hwf nm hno]
/-- Claim C4: when both copies decode and parse, the both-exist branch of
load derives the key from the local salt, compares the integer modified_ts
values, opens the local copy exactly when ts_remote <= ts_local (so a tie
prefers the local copy) and the remote copy otherwise; while the remote
copy loses, the result does not depend on the remote payload at all -
any remote envelope with a timestamp not above the local one yields the
same result, so the losing ciphertext is never decrypted. -/
theorem claim_C4_reconcile (prims : CryptoPrims) (debug : Bool)
    (password pepper : Bytes) (encL encR : List Nat)
    (envL envR : InteriorDatabase) (nonceL nonceR salt saltR : Bytes)
    (mk : SecretMemory) (tsL tsR : Nat)
    (hL : dbEnvelopeFromVec prims encL = some envL)
    (hpL : parseDecParams prims envL = some (nonceL, salt))
    (hR : dbEnvelopeFromVec prims encR = some envR)
    (hpR : parseDecParams prims envR = some (nonceR, saltR))
    (hmk : masterKeyDerivation prims debug password pepper salt = some mk)
    (htL : getTs envL = some tsL)
    (htR : getTs envR = some tsR) :
    loadBoth prims debug password pepper encL encR =
      (if tsR ≤ tsL then dbFromEnvelope prims envL mk nonceL
       else dbFromEnvelope prims envR mk nonceR) ∧
    (tsL = tsR → loadBoth prims debug password pepper encL encR =
      dbFromEnvelope prims envL mk nonceL) ∧
    (tsR ≤ tsL → ∀ encR2 envR2 nonceR2 saltR2 tsR2,
      dbEnvelopeFromVec prims encR2 = some envR2 →
      parseDecParams prims envR2 = some (nonceR2, saltR2) →
      getTs envR2 = some tsR2 → tsR2 ≤ tsL →
      loadBoth prims debug password pepper encL encR2 =
        loadBoth prims debug password pepper encL encR) := by
  have hmain : ∀ encR2 envR2 nonceR2 saltR2 tsR2,
      dbEnvelopeFromVec prims encR2 = some envR2 →
      parseDecParams prims envR2 = some (nonceR2, saltR2) →
      getTs envR2 = some tsR2 →
      loadBoth prims debug password pepper encL encR2 =
        (if tsR2 ≤ tsL then dbFromEnvelope prims envL mk nonceL
         else dbFromEnvelope prims envR2 mk nonceR2) := by
    intro encR2 envR2 nonceR2 saltR2 tsR2 h1 h2 h3
    rw [loadBoth]
    simp only [hL, hpL, h1, h2, hmk, htL, h3]
  refine ⟨hmain encR envR nonceR saltR tsR hR hpR htR, ?_, ?_⟩
  · intro heq
    rw [hmain encR envR nonceR saltR tsR hR hpR htR, if_pos (by omega)]
  · intro hwin encR2 envR2 nonceR2 saltR2 tsR2 h1 h2 h3 h4
    rw [hmain encR2 envR2 nonceR2 saltR2 tsR2 h1 h2 h3, if_pos h4,
      hmain encR envR nonceR saltR tsR hR hpR htR, if_pos hwin]

def saltW : Bytes := List.replicate 32 5

def coreW : List (Nat × Bytes) := metaRs [([97], [98])]

def psL : List (Bytes × Bytes) :=
  [(nonceName, [49]), (saltName, saltW), (modifiedTsName, [49, 48, 48])]

def psR : List (Bytes × Bytes) :=
  [(nonceName, [50]), (saltName, saltW), (modifiedTsName, [50, 48, 48]),
   (dbFieldName, InteriorDatabase.serialize (canonDb coreW))]

theorem hwfL : ∀ p ∈ psL, faWF (metaEntryNew p.1 p.2) = true ∧
    utf8Valid p.1 = true := by
  intro p hp
  simp only [psL, saltW, List.mem_cons, List.not_mem_nil, or_false] at hp
  rcases hp with rfl | rfl | rfl <;>
    exact ⟨by decide, utf8Valid_ascii _ (by decide)⟩

theorem hwfR : ∀ p ∈ psR, faWF (metaEntryNew p.1 p.2) = true ∧
    utf8Valid p.1 = true := by
  intro p hp
  simp only [psR, saltW, coreW, metaRs, List.map_cons, List.map_nil,
    List.mem_cons, List.not_mem_nil, or_false] at hp
  rcases hp with rfl | rfl | rfl | rfl <;>
    exact ⟨by decide, utf8Valid_ascii _ (by decide)⟩

theorem hwfCore : ∀ p ∈ [(([97] : Bytes), ([98] : Bytes))],
    faWF (metaEntryNew p.1 p.2) = true ∧ utf8Valid p.1 = true := by
  intro p hp
  simp only [List.mem_singleton] at hp
  subst hp
  exact ⟨by decide, utf8Valid_ascii _ (by decide)⟩

theorem hnodL : (psL.map Prod.fst).Nodup := by decide

theorem hnodR : (psR.map Prod.fst).Nodup := by
  simp only [psR, List.map_cons, List.map_nil]
  decide

theorem toDec1 : toDecDigits 1 = [49] := by
  rw [toDecDigits, dif_pos (by norm_num : (1:Nat) < 10)]

theorem toDec2 : toDecDigits 2 = [50] := by
  rw [toDecDigits, dif_pos (by norm_num : (2:Nat) < 10)]

theorem toDec100 : toDecDigits 100 = [49, 48, 48] := by
  rw [toDecDigits, dif_neg (by norm_num), toDecDigits, dif_neg (by norm_num),
    toDecDigits, dif_pos (by norm_num)]
  decide

theorem toDec200 : toDecDigits 200 = [50, 48, 48] := by
  rw [toDecDigits, dif_neg (by norm_num), toDecDigits, dif_neg (by norm_num),
    toDecDigits, dif_pos (by norm_num)]
  decide

theorem htsLw : getTs (canonDb (metaRs psL)) = some 100 := by
  have hg := metaRs_getMeta psL hwfL hnodL modifiedTsName [49, 48, 48]
    (by simp [psL])
  have hv := metaGetValue_new modifiedTsName [49, 48, 48]
    (utf8Valid_ascii _ (by decide))
  have hp : parseU (2 ^ 64) [49, 48, 48] = some 100 := by
    have := parseU_toDecDigits (2 ^ 64) 100 (by norm_num)
    rwa [toDec100] at this
  simp only [getTs, dbGetMetaValue, hg, hv, hp]

theorem htsRw : getTs (canonDb (metaRs psR)) = some 200 := by
  have hg := metaRs_getMeta psR hwfR hnodR modifiedTsName [50, 48, 48]
    (by simp [psR])
  have hv := metaGetValue_new modifiedTsName [50, 48, 48]
    (utf8Valid_ascii _ (by decide))
  have hp : parseU (2 ^ 64) [50, 48, 48] = some 200 := by
    have := parseU_toDecDigits (2 ^ 64) 200 (by norm_num)
    rwa [toDec200] at this
  simp only [getTs, dbGetMetaValue, hg, hv, hp]

theorem hpdLw : parseDecParams constPrims (canonDb (metaRs psL)) =
    some (nonceBytes 1, saltW) := by
  have hg1 := metaRs_getMeta psL hwfL hnodL nonceName [49] (by simp [psL])
  have hv1 := metaGetValue_new nonceName [49] (utf8Valid_ascii _ (by decide))
  have hp1 : parseU (2 ^ 128) [49] = some 1 := by
    have := parseU_toDecDigits (2 ^ 128) 1 (by norm_num)
    rwa [toDec1] at this
  have hg2 := metaRs_getMeta psL hwfL hnodL saltName saltW (by simp [psL])
  have hv2 := metaGetValue_new saltName saltW (utf8Valid_ascii _ (by decide))
  simp only [parseDecParams, dbGetMetaValue, hg1, hv1, hp1, hg2, hv2,
    constPrims]
  simp [saltW]

theorem hpdRw : parseDecParams constPrims (canonDb (metaRs psR)) =
    some (nonceBytes 2, saltW) := by
  have hg1 := metaRs_getMeta psR hwfR hnodR nonceName [50] (by simp [psR])
  have hv1 := metaGetValue_new nonceName [50] (utf8Valid_ascii _ (by decide))
  have hp1 : parseU (2 ^ 128) [50] = some 2 := by
    have := parseU_toDecDigits (2 ^ 128) 2 (by norm_num)
    rwa [toDec2] at this
  have hg2 := metaRs_getMeta psR hwfR hnodR saltName saltW (by simp [psR])
  have hv2 := metaGetValue_new saltName saltW (utf8Valid_ascii _ (by decide))
  simp only [parseDecParams, dbGetMetaValue, hg1, hv1, hp1, hg2, hv2,
    constPrims]
  simp [saltW]

theorem hsha3c : ∀ b, (constPrims.sha3 b).length = 32 := fun b => by
  simp [constPrims]

def mkC : SecretMemory :=
  ⟨4096, 32, specKeyChain constPrims true [7] saltW [8] ++
    (List.replicate 4096 0).drop 32⟩

theorem hmkCw : masterKeyDerivation constPrims true [7] [8] saltW =
    some mkC :=
  mkd_eq constPrims true [7] [8] saltW hsha3c

theorem mkC_read : mkC.readBytes = List.replicate 32 1 := by
  show (specKeyChain constPrims true [7] saltW [8] ++
    (List.replicate 4096 0).drop 32).take 32 = _
  rw [show specKeyChain constPrims true [7] saltW [8] =
    List.replicate 32 1 from rfl]
  exact List.take_left' (by simp)

theorem hdbRw : dbFromEnvelope constPrims (canonDb (metaRs psR)) mkC
    (nonceBytes 2) = some ⟨mkC, canonDb coreW⟩ := by
  have hg := metaRs_getMeta psR hwfR hnodR dbFieldName
    (InteriorDatabase.serialize (canonDb coreW)) (by simp [psR])
  have hv := metaGetValue_new dbFieldName
    (InteriorDatabase.serialize (canonDb coreW))
    (utf8Valid_ascii _ (by decide))
  have hcanon := metaRs_canonical [([97], [98])] hwfCore (by decide)
  have hround := interior_roundtrip_canonical coreW hcanon.1 hcanon.2
    (by decide)
  simp only [dbFromEnvelope, dbGetMetaValue, hg, hv, mkC_read,
    List.length_replicate, constPrims, id_eq, ite_true]
  rw [hround]

theorem hencLw : dbEnvelopeFromVec constPrims (encodeErasure constPrims
    (InteriorDatabase.serialize (canonDb (metaRs psL)))) =
    some (canonDb (metaRs psL)) := by
  rw [dbEnvelopeFromVec, decode_encode constPrims _
    (fun b => by simp [constPrims])
    (by simp only [constPrims]; decide)
    (by decide) (by decide)]
  have hcanon := metaRs_canonical psL hwfL hnodL
  exact interior_roundtrip_canonical _ hcanon.1 hcanon.2 (by decide)

theorem hencRw : dbEnvelopeFromVec constPrims (encodeErasure constPrims
    (InteriorDatabase.serialize (canonDb (metaRs psR)))) =
    some (canonDb (metaRs psR)) := by
  rw [dbEnvelopeFromVec, decode_encode constPrims _
    (fun b => by simp [constPrims])
    (by simp only [constPrims]; decide)
    (by decide) (by decide)]
  have hcanon := metaRs_canonical psR hwfR hnodR
  exact interior_roundtrip_canonical _ hcanon.1 hcanon.2 (by decide)

theorem claim_C4_witness :
    getTs (canonDb (metaRs psL)) = some 100 ∧
    getTs (canonDb (metaRs psR)) = some 200 ∧
    (canonDb (metaRs psL)).getMetaEntry dbFieldName = some none ∧
    loadBoth constPrims true [7] [8]
      (encodeErasure constPrims
        (InteriorDatabase.serialize (canonDb (metaRs psL))))
      (encodeErasure constPrims
        (InteriorDatabase.serialize (canonDb (metaRs psR)))) =
      some ⟨mkC, canonDb coreW⟩ := by
  obtain ⟨hsel, htie, hinv⟩ := claim_C4_reconcile constPrims true [7] [8]
    (encodeErasure constPrims
      (InteriorDatabase.serialize (canonDb (metaRs psL))))
    (encodeErasure constPrims
      (InteriorDatabase.serialize (canonDb (metaRs psR))))
    (canonDb (metaRs psL)) (canonDb (metaRs psR))
    (nonceBytes 1) (nonceBytes 2) saltW saltW mkC 100 200
    hencLw hpdLw hencRw hpdRw hmkCw htsLw htsRw
  refine ⟨htsLw, htsRw,
    metaRs_getMeta_none psL hwfL hnodL dbFieldName (by
      intro p hp
      simp only [psL, List.mem_cons, List.not_mem_nil, or_false] at hp
      rcases hp with rfl | rfl | rfl <;> decide), ?_⟩
  rw [hsel, if_neg (by omega)]
  exact hdbRw
